import Mathlib

/-!
# Decoder_BCH_fast

A shallow embedding of `src/Module/Decoder/BCH/Fast/Decoder_BCH_fast.cpp`:
the lane-parallel BCH decoder (syndromes, Berlekamp-Massey solver, Chien
search) written over `mipp::Reg<B>` registers.

* a register `mipp::Reg<B>` is a list holding one value of `B` per lane;
* a mask `mipp::Msk<N>` is a list holding one boolean per lane;
* values of `B` are integers kept in the signed range of `wB` bits, every
  arithmetic result being wrapped by `toB`;
* an array access outside the array is undefined behaviour in the source:
  the embedding returns `none` for it, so a result `some _` also states that
  every index of the run was within bounds.
-/

namespace BCHFast

/-- A `mipp::Reg<B>`: one value of type `B` per lane. -/
abbrev Reg := List Int

/-- A `mipp::Msk<N>`: one boolean per lane. -/
abbrev Msk := List Bool

/-! ## Values of the symbol type `B` -/

/-- The bit pattern (unsigned value) of `x` on `w` bits. -/
def bits (w : Nat) (x : Int) : Nat := (x % ((2 ^ w : Nat) : Int)).toNat

/-- The signed value of a `w`-bit pattern (two's complement). -/
def ofBits (w : Nat) (n : Nat) : Int :=
  if n < 2 ^ (w - 1) then (n : Int) else (n : Int) - ((2 ^ w : Nat) : Int)

/-- Conversion to `B`, as in `(B)x`: wrap into the signed range of `w` bits. -/
def toB (w : Nat) (x : Int) : Int := ofBits w (bits w x)

/-! ## Lane-wise operations of MIPP -/

/-- The constructor `mipp::Reg<B>(val)`: the same value in each of the `W` lanes. -/
def bcast (w W : Nat) (x : Int) : Reg := List.replicate W (toB w x)

/-- The selection `mipp::blend(a, b, m)`: lane of `a` where `m` holds, else lane of `b`. -/
def blend : Reg → Reg → Msk → Reg
  | a :: as, b :: bs, m :: ms => (if m then a else b) :: blend as bs ms
  | _, _, _ => []

/-- Lane-wise `operator+` of `mipp::Reg<B>`. -/
def radd (w : Nat) (a b : Reg) : Reg := List.zipWith (fun x y => toB w (x + y)) a b

/-- Lane-wise `operator-` of `mipp::Reg<B>`. -/
def rsub (w : Nat) (a b : Reg) : Reg := List.zipWith (fun x y => toB w (x - y)) a b

/-- Lane-wise `operator^` of `mipp::Reg<B>` (on the bit patterns). -/
def rxor (w : Nat) (a b : Reg) : Reg :=
  List.zipWith (fun x y => toB w (Nat.xor (bits w x) (bits w y) : Nat)) a b

/-- Lane-wise `operator&` of `mipp::Reg<B>` (on the bit patterns). -/
def rand (w : Nat) (a b : Reg) : Reg :=
  List.zipWith (fun x y => toB w (Nat.land (bits w x) (bits w y) : Nat)) a b

/-- Lane-wise `operator==`. -/
def req (a b : Reg) : Msk := List.zipWith (fun x y => decide (x = y)) a b

/-- Lane-wise `operator!=`. -/
def rne (a b : Reg) : Msk := List.zipWith (fun x y => decide (x ≠ y)) a b

/-- Lane-wise `operator<=` (signed). -/
def rle (a b : Reg) : Msk := List.zipWith (fun x y => decide (x ≤ y)) a b

/-- Lane-wise `operator>=` (signed). -/
def rge (a b : Reg) : Msk := List.zipWith (fun x y => decide (y ≤ x)) a b

/-- Lane-wise `operator>` (signed). -/
def rgt (a b : Reg) : Msk := List.zipWith (fun x y => decide (y < x)) a b

/-- Lane-wise `operator&` of masks. -/
def mand (a b : Msk) : Msk := List.zipWith (fun x y => x && y) a b

/-- Lane-wise `operator|` of masks. -/
def mor (a b : Msk) : Msk := List.zipWith (fun x y => x || y) a b

/-- Lane-wise `operator~` of a mask. -/
def mnot (a : Msk) : Msk := a.map (fun x => !x)

/-- The test `mipp::testz(m)`: true when the mask holds in no lane. -/
def testz (m : Msk) : Bool := m.all (fun x => !x)

/-- The horizontal maximum `mipp::hmax(r)` over the lanes. -/
def hmax : Reg → Int
  | [] => 0
  | x :: xs => xs.foldl max x

/-! ## Arrays -/

/-- Read `a[i]`; `none` outside the array. -/
def rd {α : Type} (a : List α) (i : Nat) : Option α := a.get? i

/-- Write `a[i] = v`; `none` outside the array. -/
def wr {α : Type} (a : List α) (i : Nat) (v : α) : Option (List α) :=
  if i < a.length then some (a.set i v) else none

/-- Read `a[i]` at an index of type `B` or `int`; `none` outside the array. -/
def rdI {α : Type} (a : List α) (i : Int) : Option α :=
  if 0 ≤ i then a.get? i.toNat else none

/-- Write `a[i] = v` at an index of type `B` or `int`; `none` outside the array. -/
def wrI {α : Type} (a : List α) (i : Int) (v : α) : Option (List α) :=
  if 0 ≤ i then wr a i.toNat v else none

/-- Read `a[u][i]`. -/
def rd2 (a : List (List Reg)) (u i : Nat) : Option Reg := do
  let row ← rd a u
  rd row i

/-- Write `a[u][i] = v`. -/
def wr2 (a : List (List Reg)) (u i : Nat) (v : Reg) : Option (List (List Reg)) := do
  let row ← rd a u
  let row ← wr row i v
  wr a u row

/-- The function `read_array(array, r_idx)`: `val[j] = array[idx[j]]` in every lane `j`. -/
def read_array (array : List Int) : Reg → Option Reg
  | [] => some []
  | i :: is => do
    let v ← rdI array i
    let vs ← read_array array is
    pure (v :: vs)

/-- The function `write_array(array, r_idx, m_idx, r_values)`: for each lane `j` in turn,
`array[idx] = blend(r_values, array[idx], m_idx & (r_iota == j))` with `idx = r_idx[j]`. -/
def write_array (w W : Nat) (array : List Reg) (r_idx : Reg) (m_idx : Msk) (r_values : Reg) :
    Option (List Reg) :=
  (List.range W).foldlM (fun arr (j : Nat) => do
    let idx ← rd r_idx j
    let old ← rdI arr idx
    let r_iota : Reg := (List.range W).map (fun k => toB w (k : Int))
    wrI arr idx (blend r_values old (mand m_idx (req r_iota (bcast w W (j : Int)))))) array

/-- The function `operator%(r, mod)` of the source: `r & (B)mod`. -/
def regMod (w W : Nat) (r : Reg) (mod : Int) : Reg := rand w r (bcast w W mod)

/-! ## The decoder -/

/-- What `_decode` reads from the decoder object: the symbol type (`wB` bits, signed),
the lane count `W = mipp::N<B>()`, the code parameters and the field tables. -/
structure Decoder where
  wB : Nat
  W : Nat
  K : Nat
  N : Nat
  t : Nat
  N_p2_1 : Nat
  alpha_to : List Int
  index_of : List Int

/-- The member `t2 = 2 * t`. -/
def Decoder.t2 (d : Decoder) : Nat := 2 * d.t

/-- The member arrays of the decoder object that `_decode` works on. -/
structure Scratch where
  Y_N_reorderered : List Reg
  elp : List (List Reg)
  discrepancy : List Reg
  l : List Reg
  u_lu : List Reg
  s : List Reg
  reg : List Reg
deriving DecidableEq

/-- The register `r_zero`. -/
def r_zero (d : Decoder) : Reg := bcast d.wB d.W 0

/-- The register `r_one`. -/
def r_one (d : Decoder) : Reg := bcast d.wB d.W 1

/-- The register `r_mone`. -/
def r_mone (d : Decoder) : Reg := bcast d.wB d.W (-1)

/-- The conversion of an `int` (loop counter, member) to a register of `B`. -/
def Decoder.cst (d : Decoder) (x : Int) : Reg := bcast d.wB d.W x

/-- The use `r % this->N_p2_1` of `operator%`. -/
def Decoder.modq (d : Decoder) (r : Reg) : Reg := regMod d.wB d.W r (d.N_p2_1 : Int)

/-- Modelled from the spec: `tools::Reorderer_static<B,W>::apply`, which is not part of the
sources. Frame-major to lane-major: register `j` holds in lane `f` the symbol `j` of frame
`f`, read at `Y_N[f * N + j]`. -/
def reorder (W N : Nat) (Y_N : List Int) : Option (List Reg) :=
  (List.range N).mapM' (fun j => (List.range W).mapM' (fun f => rd Y_N (f * N + j)))

/-- Modelled from the spec: `tools::Reorderer_static<B,W>::apply_rev`, which is not part of
the sources. Lane-major back to frame-major: `Y_N[f * N + j]` is lane `f` of register `j`. -/
def reorder_rev (W N : Nat) (Y : List Reg) : Option (List Int) := do
  let frames ← (List.range W).mapM' (fun f => (List.range N).mapM' (fun j => do
    let r ← rd Y j
    rd r f))
  pure frames.flatten

/-- The inner loop of the syndromes (lines 106-110), for one `i`:
`s[i] ^= blend(alpha_to[(i * j) % N_p2_1], r_zero, Y_N_reorderered[j] != r_zero)`. -/
def synInner (d : Decoder) (Y : List Reg) (i : Nat) (si : Reg) : Option Reg :=
  (List.range d.N).foldlM (fun acc (j : Nat) => do
    let a ← rd d.alpha_to ((i * j) % d.N_p2_1)
    let y ← rd Y j
    pure (rxor d.wB acc (blend (d.cst a) (r_zero d) (rne y (r_zero d))))) si

/-- Form the syndromes (lines 99-115): returns the array `s` in index form and `syn_error`. -/
def formSyndromes (d : Decoder) (st : Scratch) : Option (List Reg × Msk) :=
  (List.range' 1 d.t2).foldlM (fun (p : List Reg × Msk) (i : Nat) => do
    let si ← rd p.1 i
    let si ← synInner d st.Y_N_reorderered i si
    let syn_error := mor p.2 (rne si (r_zero d))
    let sidx ← read_array d.index_of si
    let s ← wr p.1 i sidx
    pure (s, syn_error)) (List.replicate st.s.length (r_zero d), rne (r_zero d) (r_zero d))

/-- Initialise the table entries (lines 119-132). -/
def initTables (d : Decoder) (st : Scratch) : Option Scratch := do
  let discrepancy ← wr st.discrepancy 0 (r_zero d)
  let s1 ← rd st.s 1
  let discrepancy ← wr discrepancy 1 s1
  let elp ← wr2 st.elp 0 0 (r_zero d)
  let elp ← wr2 elp 1 0 (r_one d)
  let elp ← (List.range' 1 (d.t2 - 1)).foldlM (fun e (i : Nat) => do
    let e ← wr2 e 0 i (r_mone d)
    wr2 e 1 i (r_zero d)) elp
  let l ← wr st.l 0 (r_zero d)
  let l ← wr l 1 (r_zero d)
  let u_lu ← wr st.u_lu 0 (r_mone d)
  let u_lu ← wr u_lu 1 (r_zero d)
  pure { st with discrepancy := discrepancy, elp := elp, l := l, u_lu := u_lu }

/-- The loop `while(!mipp::testz(m_lu))` of lines 151-160, entered at counter `i`. The rows
of `elp` have `N_p2_1` entries, so the loop leaves the array before `N_p2_1 + 1` rounds;
the first argument counts the rounds left. -/
def whileLu (d : Decoder) (u : Nat) (m_disc : Msk) : Nat → Nat → Scratch → Option Scratch
  | 0, _, _ => none
  | fuel + 1, i, st => do
    let lu ← rd st.l u
    let m_lu := mand (rge lu (d.cst i)) m_disc
    if testz m_lu then pure st else do
      let eu ← rd2 st.elp u i
      let eu1 ← rd2 st.elp (u + 1) i
      let elp ← wr2 st.elp (u + 1) i (blend eu eu1 m_lu)
      let eu ← rd2 elp u i
      let conv ← read_array d.index_of (d.modq eu)
      let elp ← wr2 elp u i (blend conv eu m_lu)
      whileLu d u m_disc fuel (i + 1) { st with elp := elp }

/-- The part `if (discrepancy[u] == -1)` (lines 147-161), run when `m_disc` is not empty. -/
def discBranch (d : Decoder) (u : Nat) (m_disc : Msk) (st : Scratch) : Option Scratch := do
  let lu ← rd st.l u
  let lu1 ← rd st.l (u + 1)
  let l ← wr st.l (u + 1) (blend lu lu1 m_disc)
  whileLu d u m_disc (d.N_p2_1 + 1) 0 { st with l := l }

/-- The local registers of the search for the reference iteration (line 167-168). -/
structure Ref where
  r_disc_q : Reg
  r_l_q : Reg
  r_u_lu_q : Reg
  r_q : Reg
  r_elp_q : List Reg

/-- The search loop `for (auto q = u_m1 - 1; q >= 0; q--)` (lines 166-181). `junk` is the
content of the local `r_disc_q`, which the source declares without an initial value. -/
def searchQ (d : Decoder) (junk : Reg) (u_m1 : Nat) (m_not_disc : Msk) (st : Scratch) :
    Option Ref := do
  let r_l_q ← rd st.l u_m1
  let r_u_lu_q ← rd st.u_lu u_m1
  let r_elp_q ← rd st.elp u_m1
  (List.range u_m1).reverse.foldlM (fun (r : Ref) (q : Nat) => do
    let dq ← rd st.discrepancy q
    let uq ← rd st.u_lu q
    let m_ok := mand (mand m_not_disc (rne dq (r_mone d))) (rgt r.r_u_lu_q uq)
    let lq ← rd st.l q
    let r_elp_q ← (List.range r.r_elp_q.length).foldlM (fun re (i : Nat) => do
      let e ← rd2 st.elp q i
      let old ← rd re i
      wr re i (blend e old m_ok)) r.r_elp_q
    pure { r_disc_q := blend dq r.r_disc_q m_ok,
           r_l_q := blend lq r.r_l_q m_ok,
           r_u_lu_q := blend uq r.r_u_lu_q m_ok,
           r_q := blend (d.cst q) r.r_q m_ok,
           r_elp_q := r_elp_q })
    { r_disc_q := junk, r_l_q := r_l_q, r_u_lu_q := r_u_lu_q, r_q := d.cst u_m1,
      r_elp_q := r_elp_q }

/-- The part `if (discrepancy[u] != -1)` (lines 163-212), run when `m_not_disc` is not
empty. -/
def notDiscBranch (d : Decoder) (junk : Reg) (u : Nat) (m_not_disc : Msk) (st : Scratch) :
    Option Scratch := do
  let r_u := d.cst u
  let ref ← searchQ d junk (u - 1) m_not_disc st
  -- store degree of new elp polynomial
  let lu ← rd st.l u
  let l_u_q := rsub d.wB (radd d.wB ref.r_l_q r_u) ref.r_q
  let l_u_q := blend l_u_q lu (rle lu l_u_q)
  let lu1 ← rd st.l (u + 1)
  let l ← wr st.l (u + 1) (blend l_u_q lu1 m_not_disc)
  -- form new elp(x)
  let elp ← (List.range d.t2).foldlM (fun e (i : Nat) => do
    let x ← rd2 e (u + 1) i
    wr2 e (u + 1) i (blend (r_zero d) x m_not_disc)) st.elp
  let l_max := hmax (blend ref.r_l_q (r_zero d) m_not_disc)
  let elp ← (List.range (l_max + 1).toNat).foldlM (fun e (i : Nat) => do
    let rq ← rd ref.r_elp_q i
    let m_ok := mand (mand m_not_disc (rne rq (r_mone d))) (rge ref.r_l_q (d.cst i))
    if testz m_ok then pure e else do
      let du ← rd st.discrepancy u
      let r_alpha_idx :=
        d.modq (radd d.wB (radd d.wB (rsub d.wB rq ref.r_disc_q) du) (d.cst d.N_p2_1))
      let r_idx := rsub d.wB (radd d.wB (d.cst i) r_u) ref.r_q
      let vals ← read_array d.alpha_to r_alpha_idx
      let row ← rd e (u + 1)
      let row ← write_array d.wB d.W row r_idx m_ok vals
      wr e (u + 1) row) elp
  let lu ← rd l u
  let l_max := hmax (blend lu (r_zero d) m_not_disc)
  let elp ← (List.range (l_max + 1).toNat).foldlM (fun e (i : Nat) => do
    let m_ok := mand m_not_disc (rge lu (d.cst i))
    let eu ← rd2 e u i
    let eu1 ← rd2 e (u + 1) i
    let e ← wr2 e (u + 1) i (blend (rxor d.wB eu eu1) eu1 m_ok)
    let eu ← rd2 e u i
    let conv ← read_array d.index_of (d.modq eu)
    wr2 e u i conv) elp
  pure { st with l := l, elp := elp }

/-- Form the `(u_p1)`th discrepancy (lines 216-244), run when `u < t2`. -/
def formDiscrepancy (d : Decoder) (u : Nat) (m_process m_not_disc : Msk) (st : Scratch) :
    Option Scratch := do
  let su1 ← rd st.s (u + 1)
  let m_s := rne su1 (d.cst (-1))
  let r_alpha_idx := d.modq (blend su1 (r_zero d) m_s)
  let r_read ← read_array d.alpha_to r_alpha_idx
  let r_read := blend r_read (r_zero d) m_s
  let du1 ← rd st.discrepancy (u + 1)
  let discrepancy ← wr st.discrepancy (u + 1) (blend r_read du1 m_process)
  let lu1 ← rd st.l (u + 1)
  let l_max := hmax (blend lu1 (r_zero d) m_not_disc)
  let discrepancy ← (List.range' 1 l_max.toNat).foldlM (fun dc (i : Nat) => do
    let u_p1_i := (u + 1) - i
    let sv ← rd st.s u_p1_i
    let e ← rd2 st.elp (u + 1) i
    let m_ok :=
      mand (mand (mand m_process (rne sv (r_mone d))) (rne e (r_zero d))) (rge lu1 (d.cst i))
    if testz m_ok then pure dc else do
      let io ← read_array d.index_of (d.modq e)
      let r_alpha_idx := d.modq (radd d.wB sv io)
      let r_alpha ← read_array d.alpha_to r_alpha_idx
      let cur ← rd dc (u + 1)
      let r_disc := rxor d.wB cur r_alpha
      wr dc (u + 1) (blend r_disc cur m_ok)) discrepancy
  -- put d.at(u_p1) into index form
  let cur ← rd discrepancy (u + 1)
  let conv ← read_array d.index_of (d.modq cur)
  let discrepancy ← wr discrepancy (u + 1) (blend conv cur m_process)
  pure { st with discrepancy := discrepancy }

/-- One round of the `do ... while` loop (lines 139-246), `u` already incremented: returns
the arrays and the new `m_process`. -/
def solverIter (d : Decoder) (junk : Reg) (u : Nat) (m_process : Msk) (st : Scratch) :
    Option (Scratch × Msk) := do
  let du ← rd st.discrepancy u
  let m_disc := mand (req du (r_mone d)) m_process
  let m_not_disc := mand (rne du (r_mone d)) m_process
  let st ← if testz m_disc then pure st else discBranch d u m_disc st
  let st ← if testz m_not_disc then pure st else notDiscBranch d junk u m_not_disc st
  let lu1 ← rd st.l (u + 1)
  let u_lu ← wr st.u_lu (u + 1) (rsub d.wB (d.cst u) lu1)
  let st := { st with u_lu := u_lu }
  let st ← if u < d.t2 then formDiscrepancy d u m_process m_not_disc st else pure st
  let lu1 ← rd st.l (u + 1)
  pure (st, mand m_process (rle lu1 (d.cst d.t)))

/-- The loop `do ... while (u < t2 && !mipp::testz(m_process))` (lines 137-247), entered
with the counter `u` of the previous round; returns the last `u`. `junk u` is the content
of the uninitialised local `r_disc_q` in round `u`. The first argument counts the rounds
left. -/
def solverLoop (d : Decoder) (junk : Nat → Reg) : Nat → Nat → Msk → Scratch →
    Option (Nat × Msk × Scratch)
  | 0, _, _, _ => none
  | fuel + 1, u, m_process, st => do
    let u := u + 1
    let (st, m_process) ← solverIter d (junk u) u m_process st
    if u < d.t2 ∧ ¬ testz m_process = true then solverLoop d junk fuel u m_process st
    else pure (u, m_process, st)

/-- The Chien search of one position `i` (lines 268-270): the value `q`. -/
def chienEval (d : Decoder) (reg : List Reg) (lu : Reg) (l_max : Int) (i : Nat) : Option Reg :=
  (List.range' 1 l_max.toNat).foldlM (fun q (j : Nat) => do
    let rj ← rd reg j
    pure (blend (rxor d.wB q rj) (r_one d) (rge lu (d.cst i)))) (r_one d)

/-- Correct errors (lines 250-280), `u` already incremented: returns the arrays and the
new `syn_error`. -/
def chien (d : Decoder) (u : Nat) (syn_error : Msk) (st : Scratch) : Option (Scratch × Msk) := do
  let lu ← rd st.l u
  let m_corr := rle lu (d.cst d.t)
  if testz m_corr then pure (st, syn_error) else do
    let l_max := hmax (blend lu (r_zero d) m_corr)
    let reg ← (List.range' 1 l_max.toNat).foldlM (fun rg (i : Nat) => do
      let e ← rd2 st.elp u i
      let r_idx := d.modq (blend e (r_zero d) (rge lu (d.cst i)))
      let io ← read_array d.index_of r_idx
      let r_idx := d.modq (radd d.wB io (d.cst i))
      let v ← read_array d.alpha_to r_idx
      wr rg i v) st.reg
    let (Y, count) ← (List.range' 1 d.N_p2_1).foldlM (fun (p : List Reg × Reg) (i : Nat) => do
      let q ← chienEval d reg lu l_max i
      let m_flip := mand (req q (r_zero d)) m_corr
      let count := radd d.wB p.2 (blend (r_one d) (r_zero d) m_flip)
      let idx := d.N_p2_1 - i
      let y ← rd p.1 idx
      let Y ← wr p.1 idx (blend (rxor d.wB y (r_one d)) y m_flip)
      pure (Y, count)) (st.Y_N_reorderered, r_zero d)
    pure ({ st with Y_N_reorderered := Y, reg := reg }, mand syn_error (rne count lu))

/-- The result of one call of `_decode`: the buffer `Y_N`, the flags stored in
`last_is_codeword` (true: nonzero) and the member arrays as the call leaves them. -/
structure Output where
  Y_N : List Int
  last_is_codeword : Msk
  scratch : Scratch
deriving DecidableEq

/-- The method `Decoder_BCH_fast::_decode(Y_N, frame_id)` (lines 85-290) on a buffer `Y_N` of
`W` frames of `N` symbols, the member arrays being `st` at entry. -/
def _decode (d : Decoder) (junk : Nat → Reg) (st : Scratch) (Y_N : List Int) : Option Output := do
  let Y ← reorder d.W d.N Y_N
  let st := { st with Y_N_reorderered := Y }
  let (s, syn_error) ← formSyndromes d st
  let st := { st with s := s }
  let (st, syn_error) ←
    if testz syn_error then pure (st, syn_error) else do
      let st ← initTables d st
      let (u, _, st) ← solverLoop d junk (d.t2 + 1) 0 syn_error st
      chien d (u + 1) syn_error st
  let Y_N ← reorder_rev d.W d.N st.Y_N_reorderered
  pure { Y_N := Y_N, last_is_codeword := mnot syn_error, scratch := st }

/-! ## The constructor -/

/-- The symbol type `B` as the constructor reads it: `std::numeric_limits<B>::max()` and
`std::is_unsigned<B>::value`. -/
structure SymbolType where
  max : Int
  is_unsigned : Bool

/-- The two `tools::invalid_argument` exceptions of the constructor, by their message. -/
inductive invalid_argument where
  | n_rdncy_differs
  | N_p2_1_not_less_than_max
deriving DecidableEq

/-- The body of the constructor `Decoder_BCH_fast::Decoder_BCH_fast` (lines 32-49), with
`n_rdncy = GF_poly.get_n_rdncy()` and `N_p2_1` the member set by the base class. -/
def Decoder_BCH_fast (B : SymbolType) (K N N_p2_1 n_rdncy : Int) : Except invalid_argument Unit :=
  if N - K ≠ n_rdncy then
    Except.error invalid_argument.n_rdncy_differs
  else if N_p2_1 ≥ B.max ∧ B.is_unsigned = true then
    Except.error invalid_argument.N_p2_1_not_less_than_max
  else
    Except.ok ()

/-- The member arrays as the initialiser list of the constructor sizes them (lines 20-26),
every lane of every register holding `x`. -/
def allocate (d : Decoder) (x : Int) : Scratch :=
  let r : Reg := List.replicate d.W x
  { Y_N_reorderered := List.replicate d.N r,
    elp := List.replicate (d.N_p2_1 + 2) (List.replicate d.N_p2_1 r),
    discrepancy := List.replicate (d.N_p2_1 + 2) r,
    l := List.replicate (d.N_p2_1 + 2) r,
    u_lu := List.replicate (d.N_p2_1 + 2) r,
    s := List.replicate (d.t2 + 1) r,
    reg := List.replicate (d.t + 1) r }

/-! ## Frames of a batch -/

/-- The frame of lane `k` in the buffer `Y_N`: `Y_N + k * N`, `N` symbols. -/
def frame (d : Decoder) (k : Nat) (Y_N : List Int) : List Int := (Y_N.drop (k * d.N)).take d.N

/-- The mask `syn_error` that lines 94-115 compute for the buffer `Y_N`: a lane is false
when the `2t` syndromes of its frame are all zero. -/
def syn_error (d : Decoder) (Y_N : List Int) : Option Msk := do
  let Y ← reorder d.W d.N Y_N
  let r ← formSyndromes d { allocate d 0 with Y_N_reorderered := Y }
  pure r.2

/-- The number of positions at which two frames differ. -/
def distance (a b : List Int) : Nat := ((List.zipWith (fun x y => decide (x ≠ y)) a b).filter id).length

/-- The frame `c` with the bits at the positions `ps` flipped. -/
def flip (c : List Int) (ps : List Nat) : List Int :=
  ps.foldl (fun c p => c.set p (1 - c.getD p 0)) c

/-! ## The (15,5) code -/

/-- The decoder of the binary BCH code (15,5), `t = 3`, over GF(16) built on `x^4 + x + 1`
(`m = 4`, `q = N_p2_1 = 15`), for `B = int64_t` on 128-bit registers: `mipp::N<B>() = 2`
lanes. The tables have `2^m` entries; `index_of[0] = -1`. -/
def bch15 : Decoder :=
  { wB := 64, W := 2, K := 5, N := 15, t := 3, N_p2_1 := 15,
    alpha_to := [1, 2, 4, 8, 3, 6, 12, 11, 5, 10, 7, 14, 15, 13, 9, 0],
    index_of := [-1, 0, 1, 4, 2, 8, 5, 10, 3, 14, 9, 7, 6, 13, 11, 12] }

/-- The codeword of the generator polynomial `1 + x + x^2 + x^4 + x^5 + x^8 + x^10`. -/
def cw : List Int := [1, 1, 1, 0, 1, 1, 0, 0, 1, 0, 1, 0, 0, 0, 0]

/-- The uninitialised local `r_disc_q` reading as zero in every round. -/
def junk0 : Nat → Reg := fun _ => [0, 0]

/-- The uninitialised local `r_disc_q` reading as 15 in every round. -/
def junk15 : Nat → Reg := fun _ => [15, 15]

/-- What a caller gets back from `_decode`: the buffer and the validity flags. -/
def Output.result (o : Output) : List Int × Msk := (o.Y_N, o.last_is_codeword)

/-- Two successive calls of `_decode` on one decoder object, on the buffers `Y1` then `Y2`:
the second call finds the member arrays as the first call left them. Returns the output of
the second call. -/
def decode_twice (d : Decoder) (junk : Nat → Reg) (st : Scratch) (Y1 Y2 : List Int) :
    Option Output := do
  let o1 ← _decode d junk st Y1
  _decode d junk o1.scratch Y2

/-! ## States inside a call -/

/-- Lane `k` of a register. -/
def lane (k : Nat) (r : Reg) : Int := r.getD k 0

/-- The part of `_decode` before the solver loop (lines 94-135): the member arrays and
`m_process = syn_error` when the loop is entered; `none` when no lane has a syndrome
error. -/
def enterSolver (d : Decoder) (st : Scratch) (Y_N : List Int) : Option (Scratch × Msk) := do
  let Y ← reorder d.W d.N Y_N
  let st := { st with Y_N_reorderered := Y }
  let (s, syn_error) ← formSyndromes d st
  let st := { st with s := s }
  if testz syn_error then none else do
    let st ← initTables d st
    pure (st, syn_error)

/-- The member arrays and `m_process` after the first `n` rounds of the solver loop;
`none` when the loop condition of line 247 stops the loop before round `n`. -/
def rounds (d : Decoder) (junk : Nat → Reg) : Nat → Scratch × Msk → Option (Scratch × Msk)
  | 0, p => some p
  | n + 1, p => do
    let (st, m_process) ← rounds d junk n p
    if n = 0 ∨ (n < d.t2 ∧ ¬ testz m_process = true) then
      solverIter d (junk (n + 1)) (n + 1) m_process st
    else none

/-- The state of a call of `_decode` on `Y_N` after `n` rounds of the solver loop. -/
def afterRounds (d : Decoder) (junk : Nat → Reg) (st : Scratch) (Y_N : List Int) (n : Nat) :
    Option (Scratch × Msk) := do
  let p ← enterSolver d st Y_N
  rounds d junk n p

/-- The reference registers that round `u` selects (lines 145 and 166-181), for the arrays
`st` and the mask `m_process` at the start of the round. -/
def selectedRef (d : Decoder) (junk : Reg) (u : Nat) (m_process : Msk) (st : Scratch) :
    Option Ref := do
  let du ← rd st.discrepancy u
  searchQ d junk (u - 1) (mand (rne du (r_mone d)) m_process) st

/-- The degree candidate of lines 184-185, `blend(l_u_q, l[u], l[u] <= l_u_q)` with
`l_u_q = r_l_q + r_u - r_q`. -/
def newDegree (d : Decoder) (u : Nat) (ref : Ref) (lu : Reg) : Reg :=
  blend (rsub d.wB (radd d.wB ref.r_l_q (d.cst u)) ref.r_q) lu
    (rle lu (rsub d.wB (radd d.wB ref.r_l_q (d.cst u)) ref.r_q))

/-- The positions at which two frames differ. -/
def flipped (a b : List Int) : List Nat :=
  (List.range a.length).filter (fun p => a.getD p 0 ≠ b.getD p 0)

/-- The integer `x` is a value of the signed `w`-bit type. -/
def fitsB (w : Nat) (x : Int) : Prop := -((2 : Int) ^ (w - 1)) ≤ x ∧ x < (2 : Int) ^ (w - 1)

/-! ## The formulas of the specification -/

/-- A table entry `table[x]`, read as the claims write it (0 outside the table). -/
def entry (table : List Int) (x : Int) : Int := if 0 ≤ x then table.getD x.toNat 0 else 0

/-- The XOR of two field elements (nonnegative values). -/
def fxor (a b : Int) : Int := (Nat.xor a.toNat b.toNat : Nat)

/-- The syndrome `i` of lane `k` in the words of the specification: the XOR, over all
positions `j` in `0..N-1` whose symbol in that lane is nonzero, of `alpha_to[(i*j) mod q]`.
`Y` is the lane-major array of symbols (`Y[j]` holds position `j` of every lane). -/
def syndromeSpec (d : Decoder) (Y : List Reg) (i k : Nat) : Int :=
  (List.range d.N).foldl (fun acc (j : Nat) =>
    if lane k (Y.getD j []) ≠ 0 then fxor acc (d.alpha_to.getD ((i * j) % d.N_p2_1) 0)
    else acc) 0

/-- The next discrepancy as the specification words it, for lane `k` and the arrays `st`
after round `u`: `index_of(D)` with `D = alpha_to[s[u+1]]` (0 if `s[u+1] = -1`) XOR, over
`i` in `1..l[u+1]` with `s[u+1-i] != -1` and `elp[u+1][i] != 0`, of
`alpha_to[(s[u+1-i] + index_of[elp[u+1][i]]) mod q]`. -/
def discrepancySpec (d : Decoder) (st : Scratch) (u k : Nat) : Int :=
  let s := fun (i : Nat) => lane k (st.s.getD i [])
  let e := fun (i : Nat) => lane k ((st.elp.getD (u + 1) []).getD i [])
  let lu1 := lane k (st.l.getD (u + 1) [])
  let D0 := if s (u + 1) = -1 then 0 else entry d.alpha_to (s (u + 1))
  let D := (List.range' 1 lu1.toNat).foldl (fun acc (i : Nat) =>
    if s (u + 1 - i) ≠ -1 ∧ e i ≠ 0 then
      fxor acc (entry d.alpha_to ((s (u + 1 - i) + entry d.index_of (e i)) % (d.N_p2_1 : Int)))
    else acc) D0
  entry d.index_of D

/-- The locator evaluation of the Chien search at step `i` as the specification words it,
for lane `k`, the final index `u` and the arrays `st`: 1 XOR, over `j` in `1..l`, the
register `j`, which holds `elp[j] * alpha^(i*j)` at step `i` (nothing for a zero
coefficient). -/
def chienSpec (d : Decoder) (st : Scratch) (u k i : Nat) : Int :=
  let e := fun (j : Nat) => lane k ((st.elp.getD u []).getD j [])
  let lu := lane k (st.l.getD u [])
  (List.range' 1 lu.toNat).foldl (fun acc (j : Nat) =>
    if e j ≠ 0 then
      fxor acc (entry d.alpha_to ((entry d.index_of (e j) + (i * j : Nat)) % (d.N_p2_1 : Int)))
    else acc) 1

/-! ## Sizes of the arrays and the invariant of the solver loop -/

/-- An array of `n` registers of `W` lanes each. -/
def Regs (d : Decoder) (n : Nat) (a : List Reg) : Prop :=
  a.length = n ∧ ∀ r ∈ a, r.length = d.W

/-- The member arrays as the constructor sizes them (lines 20-26), every register having `W`
lanes; the content is free. -/
def Sized (d : Decoder) (st : Scratch) : Prop :=
  Regs d d.N st.Y_N_reorderered ∧
  (st.elp.length = d.N_p2_1 + 2 ∧ ∀ row ∈ st.elp, Regs d d.N_p2_1 row) ∧
  Regs d (d.N_p2_1 + 2) st.discrepancy ∧
  Regs d (d.N_p2_1 + 2) st.l ∧
  Regs d (d.N_p2_1 + 2) st.u_lu ∧
  Regs d (d.t2 + 1) st.s ∧
  Regs d (d.t + 1) st.reg

/-- A configuration with `N = N_p2_1 = 2^m - 1`, `t >= 1`, `2t <= N - K`, tables `alpha_to`
and `index_of` of length `2^m` with entries in `[0, 2^m - 1]` and `[-1, 2^m - 2]`, and a
symbol type `B` of more than `m` bits: the tables are `std::vector<B>` (the parameter of
`read_array`), so their entries are values of `B`. -/
def Accepted (d : Decoder) (m : Nat) : Prop :=
  d.N = d.N_p2_1 ∧ d.N_p2_1 + 1 = 2 ^ m ∧ m < d.wB ∧ 1 ≤ d.t ∧
  d.t2 + d.K ≤ d.N ∧ d.alpha_to.length = 2 ^ m ∧ d.index_of.length = 2 ^ m ∧
  (∀ a ∈ d.alpha_to, 0 ≤ a ∧ a < (2 : Int) ^ m) ∧
  (∀ a ∈ d.index_of, -1 ≤ a ∧ a < (2 : Int) ^ m - 1)

/-- One round of the search loop of lines 170-180, for the iteration `q`: the reference
registers are replaced in the lanes of `m_ok`. -/
def searchStep (d : Decoder) (m_not_disc : Msk) (st : Scratch) (r : Ref) (q : Nat) :
    Option Ref := do
  let dq ← rd st.discrepancy q
  let uq ← rd st.u_lu q
  let m_ok := mand (mand m_not_disc (rne dq (r_mone d))) (rgt r.r_u_lu_q uq)
  let lq ← rd st.l q
  let r_elp_q ← (List.range r.r_elp_q.length).foldlM (fun re (i : Nat) => do
    let e ← rd2 st.elp q i
    let old ← rd re i
    wr re i (blend e old m_ok)) r.r_elp_q
  pure { r_disc_q := blend dq r.r_disc_q m_ok,
         r_l_q := blend lq r.r_l_q m_ok,
         r_u_lu_q := blend uq r.r_u_lu_q m_ok,
         r_q := blend (d.cst q) r.r_q m_ok,
         r_elp_q := r_elp_q }

/-- The reference registers have `W` lanes each, and `r_elp_q` has the size of a row of
`elp`. -/
def RefSized (d : Decoder) (r : Ref) : Prop :=
  r.r_q.length = d.W ∧ r.r_l_q.length = d.W ∧ r.r_disc_q.length = d.W ∧
  r.r_u_lu_q.length = d.W ∧ Regs d d.N_p2_1 r.r_elp_q

/-- The invariant of the solver loop after `n` rounds, for the arrays `st` and the mask
`m_process = m`: the arrays have their sizes, `l[0] = 0` and `discrepancy[0] = 0` in every
lane, `u_lu[v] = (v - 1) - l[v]` for every `v <= n + 1`, and in every active lane
`0 <= l[v] <= v - 1` for every `v` in `1..n+1`. -/
def SolverInv (d : Decoder) (n : Nat) (st : Scratch) (m : Msk) : Prop :=
  Sized d st ∧ m.length = d.W ∧ rd st.l 0 = some (r_zero d) ∧
  rd st.discrepancy 0 = some (r_zero d) ∧
  (∀ v, v ≤ n + 1 → ∃ lv, rd st.l v = some lv ∧
    rd st.u_lu v = some (rsub d.wB (d.cst ((v : Int) - 1)) lv)) ∧
  (∀ (k : Nat), m[k]? = some true → ∀ v, 1 ≤ v → v ≤ n + 1 → ∀ (lv : Reg) (x : Int),
    rd st.l v = some lv → lv[k]? = some x → 0 ≤ x ∧ x ≤ (v : Int) - 1)

/-! ## The new locator polynomial -/

set_option maxRecDepth 1000000
set_option synthInstance.maxSize 4000

/-- The tables of `bch15` are those of a field descriptor: `alpha_to[index_of[x]] = x` for
every nonzero `x`, and `index_of[0] = -1`. -/
theorem bch15_tables :
    (∀ x ∈ List.range' 1 15, (rdI bch15.index_of x).bind (rdI bch15.alpha_to) = some (x : Int)) ∧
    rdI bch15.index_of 0 = some (-1) := by
  decide

/-- The frame `cw` is a valid codeword of `bch15`: all its syndromes are zero. -/
theorem cw_valid : syn_error bch15 (cw ++ cw) = some [false, false] := by
  decide

/-- The two-call runs used below do not hinge on what the member arrays hold before the
first call, nor on the content of the uninitialised `r_disc_q`: from arrays holding 5 and
`r_disc_q` reading as 15 the second call returns the same buffers and flags as from arrays
holding 0 and `r_disc_q` reading as 0. -/
theorem second_call_from_other_entry_state :
    (decode_twice bch15 junk15 (allocate bch15 5) (flip cw [3, 6, 7, 8, 9] ++ cw)
        (cw ++ flip cw [0, 1, 4])).map Output.result
      = some (flip cw [12, 13, 14] ++ flip cw [0, 1, 4], [true, false]) ∧
    (decode_twice bch15 junk15 (allocate bch15 5) (cw ++ flip cw [3, 6, 7, 8, 9])
        (flip cw [0, 1, 4] ++ flip cw [0, 1])).map Output.result
      = some (flip cw [0, 1, 4] ++ flip cw [0, 1, 12, 13, 14], [false, true]) := by
  decide

/-- C1 (the code does not do it): on the (15,5) code a single flipped bit at position 0
of the valid codeword `cw`, and also three flipped bits, are not corrected: `_decode`
returns the frame as received, flipped bits included, and reports the lane as invalid. -/
theorem decode_leaves_correctable_errors :
    (_decode bch15 junk0 (allocate bch15 0) (flip cw [0] ++ cw)).map Output.result
      = some (flip cw [0] ++ cw, [false, true]) ∧
    (_decode bch15 junk0 (allocate bch15 0) (flip cw [2, 5, 9] ++ cw)).map Output.result
      = some (flip cw [2, 5, 9] ++ cw, [false, true]) := by
  decide

/-- C2 (the code does not do it): a lane holding the valid codeword `cw` (zero syndrome)
comes back with the bits 12, 13 and 14 flipped, and flagged valid, when the other lane
holds `flip cw [0, 1, 4]` and the decoder has decoded the batch
`flip cw [3, 6, 7, 8, 9] ++ cw` just before: the Chien search runs on the values that the
previous call left in `l[6]` and `elp[6]` for that lane. -/
theorem codeword_lane_altered_after_previous_call :
    syn_error bch15 (cw ++ flip cw [0, 1, 4]) = some [false, true] ∧
    (decode_twice bch15 junk0 (allocate bch15 0) (flip cw [3, 6, 7, 8, 9] ++ cw)
        (cw ++ flip cw [0, 1, 4])).map Output.result
      = some (flip cw [12, 13, 14] ++ flip cw [0, 1, 4], [true, false]) := by
  decide

/-- C3 (the code does not do it): the frame `flip cw [0, 1]` held at lane 1 is reported
invalid when lane 0 holds a valid codeword and valid when lane 0 holds
`flip cw [0, 1, 4]`, both runs starting from the same member arrays (all zero). Starting
both runs from the arrays left by a call on `cw ++ flip cw [3, 6, 7, 8, 9]`, the same
frame comes back unchanged and invalid next to a codeword, and with the bits 12, 13, 14
flipped and valid next to `flip cw [0, 1, 4]`. -/
theorem lane_result_depends_on_other_lanes :
    ((_decode bch15 junk0 (allocate bch15 0) (cw ++ flip cw [0, 1])).map Output.result
        = some (cw ++ flip cw [0, 1], [true, false]) ∧
      (_decode bch15 junk0 (allocate bch15 0) (flip cw [0, 1, 4] ++ flip cw [0, 1])).map
          Output.result
        = some (flip cw [0, 1, 4] ++ flip cw [0, 1], [false, true])) ∧
    ((decode_twice bch15 junk0 (allocate bch15 0) (cw ++ flip cw [3, 6, 7, 8, 9])
          (cw ++ flip cw [0, 1])).map Output.result
        = some (cw ++ flip cw [0, 1], [true, false]) ∧
      (decode_twice bch15 junk0 (allocate bch15 0) (cw ++ flip cw [3, 6, 7, 8, 9])
          (flip cw [0, 1, 4] ++ flip cw [0, 1])).map Output.result
        = some (flip cw [0, 1, 4] ++ flip cw [0, 1, 12, 13, 14], [false, true])) := by
  decide

/-- C4 (the code does not do it): `_decode` sets the validity flag of lane 0 although the
frame it returns for that lane is no codeword (its recomputed syndromes are not all
zero): the second of two calls, on `cw ++ flip cw [0, 1, 4]` after
`flip cw [3, 6, 7, 8, 9] ++ cw`. -/
theorem valid_flag_on_non_codeword :
    (decode_twice bch15 junk0 (allocate bch15 0) (flip cw [3, 6, 7, 8, 9] ++ cw)
        (cw ++ flip cw [0, 1, 4])).bind
      (fun o => (syn_error bch15 o.Y_N).map (fun e => (o.last_is_codeword, e)))
      = some ([true, false], [true, true]) := by
  decide

/-- C5 (the code does not do it): in the batch `flip cw [0, 1, 4] ++ flip cw [0, 1]` lane 1
has a nonzero syndrome and its locator degree reaches `l[5] = 4 > t` in round 4, while
lane 0 keeps iterating (its `l[5]` is 3). From member arrays holding zero `_decode` flips
no bit of lane 1 and sets its validity flag to true; from the arrays left by a call on
`cw ++ flip cw [3, 6, 7, 8, 9]` it flips the bits 12, 13, 14 of lane 1 and sets its
validity flag to true. -/
theorem frozen_lane_flagged_valid :
    syn_error bch15 (flip cw [0, 1, 4] ++ flip cw [0, 1]) = some [true, true] ∧
    (_decode bch15 junk0 (allocate bch15 0) (flip cw [0, 1, 4] ++ flip cw [0, 1])).map
        (fun o => (o.scratch.l.get? 5, o.Y_N, o.last_is_codeword))
      = some (some [3, 4], flip cw [0, 1, 4] ++ flip cw [0, 1], [false, true]) ∧
    (decode_twice bch15 junk0 (allocate bch15 0) (cw ++ flip cw [3, 6, 7, 8, 9])
        (flip cw [0, 1, 4] ++ flip cw [0, 1])).map
        (fun o => (o.scratch.l.get? 5, o.Y_N, o.last_is_codeword))
      = some (some [3, 4], flip cw [0, 1, 4] ++ flip cw [0, 1, 12, 13, 14], [false, true]) := by
  decide

/-- C6 (the code does not do it): a lane flagged valid whose number of flipped bits is not
its locator degree. In the second of the calls on `cw ++ flip cw [3, 6, 7, 8, 9]` and
`flip cw [0, 1, 4] ++ flip cw [0, 1]` lane 1 is flagged valid with three bits flipped, the
last degree the solver computed for it being `l[5] = 4`; in the second of the calls on
`flip cw [3, 6, 7, 8, 9] ++ cw` and `cw ++ flip cw [0, 1, 4]` lane 0, whose syndrome is
zero, is flagged valid with three bits flipped. -/
theorem valid_flag_flips_differ_from_degree :
    (decode_twice bch15 junk0 (allocate bch15 0) (cw ++ flip cw [3, 6, 7, 8, 9])
        (flip cw [0, 1, 4] ++ flip cw [0, 1])).map
        (fun o => (o.last_is_codeword.get? 1, distance (flip cw [0, 1]) (frame bch15 1 o.Y_N),
          (o.scratch.l.get? 5).bind (fun r => r.get? 1)))
      = some (some true, 3, some 4) ∧
    (decode_twice bch15 junk0 (allocate bch15 0) (flip cw [3, 6, 7, 8, 9] ++ cw)
        (cw ++ flip cw [0, 1, 4])).map
        (fun o => (o.last_is_codeword.get? 0, distance cw (frame bch15 0 o.Y_N)))
      = some (some true, 3) := by
  decide

/-- C7 (the code does not do it): the result of `_decode` depends on what the member arrays
hold at entry and on the content of the uninitialised local `r_disc_q`. The batch
`flip cw [0, 1, 4] ++ flip cw [0, 1]` gets the flags `[false, true]` from arrays holding 0
and `[false, false]` from arrays holding 5; the batch `flip cw [0, 1, 4] ++ flip cw [0]`
gets `[false, true]` when `r_disc_q` reads as 0 and `[false, false]` when it reads as 15. -/
theorem result_depends_on_scratch_and_junk :
    ((_decode bch15 junk0 (allocate bch15 0) (flip cw [0, 1, 4] ++ flip cw [0, 1])).map
          Output.result
        = some (flip cw [0, 1, 4] ++ flip cw [0, 1], [false, true]) ∧
      (_decode bch15 junk0 (allocate bch15 5) (flip cw [0, 1, 4] ++ flip cw [0, 1])).map
          Output.result
        = some (flip cw [0, 1, 4] ++ flip cw [0, 1], [false, false])) ∧
    ((_decode bch15 junk0 (allocate bch15 0) (flip cw [0, 1, 4] ++ flip cw [0])).map
          Output.result
        = some (flip cw [0, 1, 4] ++ flip cw [0], [false, true]) ∧
      (_decode bch15 junk15 (allocate bch15 0) (flip cw [0, 1, 4] ++ flip cw [0])).map
          Output.result
        = some (flip cw [0, 1, 4] ++ flip cw [0], [false, false])) := by
  decide

/-- C8: the constructor raises `invalid_argument` exactly when `N - K` differs from the
declared redundancy `GF_poly.get_n_rdncy()`, or `B` is unsigned and `N_p2_1` is not
strictly less than the maximum of `B`; in every other case it succeeds. -/
theorem constructor_fails_iff (B : SymbolType) (K N N_p2_1 n_rdncy : Int) :
    ((∃ e, Decoder_BCH_fast B K N N_p2_1 n_rdncy = Except.error e) ↔
        (N - K ≠ n_rdncy ∨ (B.is_unsigned = true ∧ ¬ N_p2_1 < B.max))) ∧
    (Decoder_BCH_fast B K N N_p2_1 n_rdncy = Except.ok () ↔
        ¬ (N - K ≠ n_rdncy ∨ (B.is_unsigned = true ∧ ¬ N_p2_1 < B.max))) := by
  unfold Decoder_BCH_fast
  by_cases h1 : N - K ≠ n_rdncy
  · simp [h1]
  · by_cases h2 : N_p2_1 ≥ B.max ∧ B.is_unsigned = true
    · have h3 : ¬ N_p2_1 < B.max := not_lt.mpr h2.1
      simp [h1, h2, h3]
    · have h4 : ¬ (B.is_unsigned = true ∧ ¬ N_p2_1 < B.max) := fun h =>
        h2 ⟨not_lt.mp h.2, h.1⟩
      simp only [if_neg h1, if_neg h2]
      constructor
      · constructor
        · rintro ⟨e, he⟩
          cases he
        · rintro (h | h)
          · exact absurd h h1
          · exact absurd h h4
      · constructor
        · intro _ h
          rcases h with h | h
          · exact h1 h
          · exact h4 h
        · intro _
          trivial

/-- C9 (the code does not do it): the constructor accepts a signed symbol type too narrow
for `N_p2_1` (`B = int8_t`, maximum 127, for the code (255,231) with `N_p2_1 = 255` and
redundancy 24) and an unsigned symbol type (`B = uint8_t`, maximum 255, for the code
(15,5) with `N_p2_1 = 15` and redundancy 10). -/
theorem constructor_accepts_unfit_symbol_type :
    Decoder_BCH_fast { max := 127, is_unsigned := false } 231 255 255 24 = Except.ok () ∧
    Decoder_BCH_fast { max := 255, is_unsigned := true } 5 15 15 10 = Except.ok () := by
  constructor <;> rfl

/-- C10: for the (15,5) code there are a valid codeword and an error pattern of exactly 4
flipped bits for which `_decode` reports the lane as invalid: the codeword `cw` with the
bits 0, 1, 2 and 3 flipped. -/
theorem four_errors_detected :
    ∃ (c : List Int) (ps : List Nat),
      syn_error bch15 (c ++ c) = some [false, false] ∧
      distance c (flip c ps) = 4 ∧
      (_decode bch15 junk0 (allocate bch15 0) (flip c ps ++ c)).map
          (fun o => o.last_is_codeword.get? 0) = some (some false) := by
  refine ⟨cw, [0, 1, 2, 3], ?_⟩
  decide

/-! ## Reordering -/

/-- A loop `mapM'` whose body succeeds on every element returns the mapped list. -/
theorem mapM'_eq_some_map {α β : Type} (f : α → Option β) (g : α → β) :
    ∀ (l : List α), (∀ a ∈ l, f a = some (g a)) → l.mapM' f = some (l.map g)
  | [], _ => rfl
  | a :: l, h => by
    have h1 : f a = some (g a) := h a (List.mem_cons_self a l)
    have h2 : l.mapM' f = some (l.map g) :=
      mapM'_eq_some_map f g l (fun b hb => h b (List.mem_cons_of_mem a hb))
    simp [List.mapM'_cons, h1, h2]

/-- The first `n` entries of a list, read one by one. -/
theorem map_getD_range_eq_take (Y : List Int) (n : Nat) (hn : n ≤ Y.length) :
    (List.range n).map (fun j => Y.getD j 0) = Y.take n := by
  apply List.ext_getElem?
  intro i
  by_cases hi : i < n
  · have hi2 : i < Y.length := lt_of_lt_of_le hi hn
    simp [List.getElem?_map, List.getElem?_range hi, List.getElem?_take, hi,
      List.getD_eq_getElem?_getD, List.getElem?_eq_getElem hi2]
  · have h1 : (List.range n)[i]? = none := List.getElem?_eq_none (by simpa using hi)
    simp [List.getElem?_map, h1, List.getElem?_take, hi]

/-- Reading a buffer of `W * N` symbols frame by frame gives the buffer back. -/
theorem flatten_frames (N : Nat) : ∀ (W : Nat) (Y : List Int), Y.length = W * N →
    ((List.range W).map (fun f => (List.range N).map (fun j => Y.getD (f * N + j) 0))).flatten = Y
  | 0, Y, h => by
    have : Y = [] := List.length_eq_zero.mp (by simpa using h)
    simp [this]
  | W + 1, Y, h => by
    have hN : N ≤ Y.length := by
      rw [h]; nlinarith [Nat.zero_le W, Nat.zero_le N]
    have hd : (Y.drop N).length = W * N := by
      rw [List.length_drop, h, Nat.succ_mul]; omega
    have ih := flatten_frames N W (Y.drop N) hd
    rw [List.range_succ_eq_map, List.map_cons, List.flatten_cons, List.map_map]
    have h0 : (List.range N).map (fun j => Y.getD (0 * N + j) 0) = Y.take N := by
      simpa using map_getD_range_eq_take Y N hN
    have h1 : (List.map ((fun f => (List.range N).map (fun j => Y.getD (f * N + j) 0)) ∘ Nat.succ)
        (List.range W)) =
        (List.range W).map (fun f => (List.range N).map (fun j => (Y.drop N).getD (f * N + j) 0)) := by
      apply List.map_congr_left
      intro f _
      apply List.map_congr_left
      intro j _
      simp only [Function.comp, List.getD_eq_getElem?_getD, List.getElem?_drop]
      congr 2
      rw [Nat.succ_mul]; omega
    rw [h0, h1, ih, List.take_append_drop]

/-- The forward reorder of a buffer of `W * N` symbols succeeds, register by register. -/
theorem reorder_eq (W N : Nat) (Y_N : List Int) (h : Y_N.length = W * N) :
    reorder W N Y_N
      = some ((List.range N).map (fun j => (List.range W).map (fun f => Y_N.getD (f * N + j) 0))) := by
  unfold reorder
  apply mapM'_eq_some_map
  intro j hj
  apply mapM'_eq_some_map
  intro f hf
  have hj' : j < N := List.mem_range.mp hj
  have hf' : f < W := List.mem_range.mp hf
  have hlt : f * N + j < Y_N.length := by
    rw [h]
    calc f * N + j < f * N + N := by omega
      _ = (f + 1) * N := by rw [Nat.succ_mul]
      _ ≤ W * N := Nat.mul_le_mul_right N hf'
  simp [rd, List.get?_eq_getElem?, List.getD_eq_getElem?_getD, List.getElem?_eq_getElem hlt]

/-- The inverse reorder of the forward reorder gives the buffer back. -/
theorem reorder_rev_reorder (W N : Nat) (Y_N : List Int) (h : Y_N.length = W * N) :
    reorder_rev W N
        ((List.range N).map (fun j => (List.range W).map (fun f => Y_N.getD (f * N + j) 0)))
      = some Y_N := by
  unfold reorder_rev
  have hf : (List.range W).mapM' (fun f => (List.range N).mapM' (fun j => do
      let r ← rd ((List.range N).map
        (fun j => (List.range W).map (fun f => Y_N.getD (f * N + j) 0))) j
      rd r f))
      = some ((List.range W).map (fun f => (List.range N).map (fun j => Y_N.getD (f * N + j) 0))) := by
    apply mapM'_eq_some_map
    intro f hf
    apply mapM'_eq_some_map
    intro j hj
    have hj' : j < N := List.mem_range.mp hj
    have hf' : f < W := List.mem_range.mp hf
    simp [rd, List.get?_eq_getElem?, List.getElem?_map, List.getElem?_range hj',
      List.getElem?_range hf']
  rw [hf]
  exact congrArg some (flatten_frames N W Y_N h)

/-- C11: the inverse reorder applied to the forward reorder reproduces a buffer of `W`
frames of `N` symbols; hence `_decode` leaves the buffer unchanged when every lane of
the batch has zero syndrome (`syn_error` false in every lane). -/
theorem reorder_invertible (d : Decoder) (junk : Nat → Reg) (st : Scratch) (Y_N : List Int)
    (hlen : Y_N.length = d.W * d.N) :
    (reorder d.W d.N Y_N).bind (reorder_rev d.W d.N) = some Y_N ∧
    (st.s.length = d.t2 + 1 → (syn_error d Y_N).map testz = some true →
      (_decode d junk st Y_N).map (fun o => o.Y_N) = some Y_N) := by
  have hr := reorder_eq d.W d.N Y_N hlen
  have hrr := reorder_rev_reorder d.W d.N Y_N hlen
  refine ⟨by rw [hr]; exact hrr, ?_⟩
  intro hs hz
  have hform : ∀ Y : List Reg, formSyndromes d { st with Y_N_reorderered := Y }
      = formSyndromes d { allocate d 0 with Y_N_reorderered := Y } := by
    intro Y
    simp [formSyndromes, allocate, hs]
  unfold syn_error at hz
  rw [hr] at hz
  unfold _decode
  rw [hr]
  simp only [Option.bind_eq_bind, Option.some_bind] at hz ⊢
  rw [hform]
  simp only [Option.map_eq_some', Option.bind_eq_some, Option.pure_def, Option.some.injEq] at hz
  obtain ⟨syn, ⟨r, hf, hr2⟩, hz⟩ := hz
  rw [hf]
  subst hr2
  simp [hz, hrr, -List.getD_eq_getElem?_getD]

/-- Witness of `reorder_invertible`: the batch of two copies of the codeword `cw`, decoded
from member arrays of the sizes the constructor gives them. -/
theorem reorder_invertible_witness :
    (cw ++ cw).length = bch15.W * bch15.N ∧
    (reorder bch15.W bch15.N (cw ++ cw)).bind (reorder_rev bch15.W bch15.N) = some (cw ++ cw) ∧
    (_decode bch15 junk0 (allocate bch15 0) (cw ++ cw)).map (fun o => o.Y_N)
      = some (cw ++ cw) :=
  ⟨by decide, (reorder_invertible bch15 junk0 (allocate bch15 0) (cw ++ cw) (by decide)).1,
    (reorder_invertible bch15 junk0 (allocate bch15 0) (cw ++ cw) (by decide)).2
      (by decide) (by decide)⟩

/-! ## Lanes and values of `B` -/

/-- A successful write is the list update at an index inside the list. -/
theorem wr_eq_some {α : Type} {a a' : List α} {i : Nat} {v : α} (h : wr a i v = some a') :
    i < a.length ∧ a' = a.set i v := by
  unfold wr at h
  split at h
  · exact ⟨by assumption, by simpa using h.symm⟩
  · cases h

/-- A lane of a lane-wise binary operation. -/
theorem zipWith_lane {α β γ : Type} (f : α → β → γ) (a : List α) (b : List β) (k : Nat) (v : γ) :
    (List.zipWith f a b)[k]? = some v ↔ ∃ x y, a[k]? = some x ∧ b[k]? = some y ∧ f x y = v := by
  rw [List.getElem?_zipWith]
  cases a[k]? <;> cases b[k]? <;> simp

/-- A lane of `blend`. -/
theorem blend_lane : ∀ (a b : Reg) (m : Msk) (k : Nat) (v : Int),
    (blend a b m)[k]? = some v ↔
      ∃ x y c, a[k]? = some x ∧ b[k]? = some y ∧ m[k]? = some c ∧ v = if c = true then x else y
  | [], _, _, k, v => by simp [blend]
  | _ :: _, [], _, k, v => by simp [blend]
  | _ :: _, _ :: _, [], k, v => by simp [blend]
  | x :: a, y :: b, c :: m, 0, v => by
    simp only [blend, List.getElem?_cons_zero, Option.some.injEq]
    constructor
    · intro h
      exact ⟨x, y, c, rfl, rfl, rfl, by rw [← h]⟩
    · rintro ⟨x', y', c', rfl, rfl, rfl, h⟩
      rw [h]
  | x :: a, y :: b, c :: m, k + 1, v => by
    simp only [blend, List.getElem?_cons_succ]
    exact blend_lane a b m k v

/-- A lane of a constant register. -/
theorem bcast_lane (w W : Nat) (x : Int) (k : Nat) (v : Int) (h : (bcast w W x)[k]? = some v) :
    v = toB w x := by
  unfold bcast at h
  rw [List.getElem?_replicate] at h
  split at h
  · simpa using h.symm
  · cases h

/-- A lane inside a constant register. -/
theorem bcast_lane_lt (w W : Nat) (x : Int) (k : Nat) (hk : k < W) :
    (bcast w W x)[k]? = some (toB w x) := by
  unfold bcast
  rw [List.getElem?_replicate, if_pos hk]

/-- An invariant of a loop over a list in the `Option` monad. -/
theorem foldlM_inv {σ α : Type} (f : σ → α → Option σ) (I : σ → Prop) :
    ∀ (l : List α), (∀ s a s', a ∈ l → I s → f s a = some s' → I s') →
      ∀ init r, I init → l.foldlM f init = some r → I r
  | [], _, init, r, hi, h => by
    simp only [List.foldlM_nil, Option.pure_def, Option.some.injEq] at h
    subst h
    exact hi
  | a :: l, hstep, init, r, hi, h => by
    simp only [List.foldlM_cons, Option.bind_eq_bind, Option.bind_eq_some] at h
    obtain ⟨s1, h1, h2⟩ := h
    exact foldlM_inv f I l (fun s b s' hb => hstep s b s' (List.mem_cons_of_mem a hb)) s1 r
      (hstep init a s1 (List.mem_cons_self a l) hi h1) h2

/-- A lane of `read_array`. -/
theorem read_array_lane (table : List Int) : ∀ (r vs : Reg), read_array table r = some vs →
    ∀ (k : Nat) (x : Int), r[k]? = some x → ∃ v, vs[k]? = some v ∧ rdI table x = some v
  | [], vs, _, k, x, hx => by simp at hx
  | i :: is, vs, h, k, x, hx => by
    simp only [read_array, Option.bind_eq_bind, Option.bind_eq_some, Option.pure_def,
      Option.some.injEq] at h
    obtain ⟨v, hv, vs1, hvs, rfl⟩ := h
    cases k with
    | zero =>
      simp only [List.getElem?_cons_zero, Option.some.injEq] at hx
      subst hx
      exact ⟨v, by simp, hv⟩
    | succ k =>
      simp only [List.getElem?_cons_succ] at hx ⊢
      exact read_array_lane table is vs1 hvs k x hx

/-- The bit pattern on `w` bits is below `2 ^ w`. -/
theorem bits_lt (w : Nat) (x : Int) : bits w x < 2 ^ w := by
  unfold bits
  have hpos : (0 : Int) < ((2 ^ w : Nat) : Int) := by positivity
  have h1 := Int.emod_nonneg x (ne_of_gt hpos)
  have h2 := Int.emod_lt_of_pos x hpos
  omega

/-- A value and its conversion to `B` have the same bit pattern. -/
theorem bits_toB (w : Nat) (x : Int) : bits w (toB w x) = bits w x := by
  have hlt := bits_lt w x
  unfold toB ofBits
  split
  · unfold bits at hlt ⊢
    have hpos : (0 : Int) < ((2 ^ w : Nat) : Int) := by positivity
    have h1 := Int.emod_nonneg x (ne_of_gt hpos)
    rw [Int.toNat_of_nonneg h1, Int.emod_emod_of_dvd x (dvd_refl _)]
  · unfold bits at hlt ⊢
    have hpos : (0 : Int) < ((2 ^ w : Nat) : Int) := by positivity
    have h1 := Int.emod_nonneg x (ne_of_gt hpos)
    rw [Int.toNat_of_nonneg h1, Int.sub_emod, Int.emod_self, sub_zero,
      Int.emod_emod_of_dvd _ (dvd_refl _), Int.emod_emod_of_dvd x (dvd_refl _)]

/-- Conversion to `B` is idempotent. -/
theorem toB_toB (w : Nat) (x : Int) : toB w (toB w x) = toB w x := by
  show ofBits w (bits w (toB w x)) = ofBits w (bits w x)
  rw [bits_toB]

/-- Zero converts to zero. -/
theorem toB_zero (w : Nat) : toB w 0 = 0 := by
  have h : 0 < 2 ^ (w - 1) := by positivity
  simp [toB, ofBits, bits, h]

/-- A value in the signed range of `w` bits is its own conversion to `B`. -/
theorem toB_of_fitsB (w : Nat) (x : Int) (hw : 1 ≤ w) (h : fitsB w x) : toB w x = x := by
  obtain ⟨h1, h2⟩ := h
  have hp : (2 : Int) ^ w = 2 * 2 ^ (w - 1) := by
    obtain ⟨n, rfl⟩ : ∃ n, w = n + 1 := ⟨w - 1, by omega⟩
    simp [pow_succ, mul_comm]
  have hq : (0 : Int) < 2 ^ (w - 1) := by positivity
  have hn : ((2 ^ (w - 1) : Nat) : Int) = (2 : Int) ^ (w - 1) := by push_cast; rfl
  have hn2 : ((2 ^ w : Nat) : Int) = (2 : Int) ^ w := by push_cast; rfl
  unfold toB ofBits bits
  rw [hn2]
  by_cases hx : 0 ≤ x
  · have hm : x % 2 ^ w = x := Int.emod_eq_of_lt hx (by omega)
    rw [hm]
    have : x.toNat < 2 ^ (w - 1) := by
      have : ((x.toNat : Nat) : Int) < ((2 ^ (w - 1) : Nat) : Int) := by
        rw [Int.toNat_of_nonneg hx, hn]; exact h2
      exact_mod_cast this
    rw [if_pos this, Int.toNat_of_nonneg hx]
  · have hm : x % 2 ^ w = x + 2 ^ w := by
      rw [← Int.add_emod_self]
      exact Int.emod_eq_of_lt (by omega) (by omega)
    rw [hm]
    have hnn : (0 : Int) ≤ x + 2 ^ w := by omega
    have : ¬ (x + 2 ^ w).toNat < 2 ^ (w - 1) := by
      intro hlt
      have : (((x + 2 ^ w).toNat : Nat) : Int) < ((2 ^ (w - 1) : Nat) : Int) := by
        exact_mod_cast hlt
      rw [Int.toNat_of_nonneg hnn, hn] at this
      omega
    rw [if_neg this, Int.toNat_of_nonneg hnn]
    omega

/-- The bit pattern of a nonnegative value of `B` is the value. -/
theorem bits_of_nonneg (w : Nat) (x : Int) (h0 : 0 ≤ x) (h1 : x < (2 : Int) ^ (w - 1)) :
    bits w x = x.toNat := by
  unfold bits
  have hle : (2 : Int) ^ (w - 1) ≤ 2 ^ w := pow_le_pow_right₀ (by norm_num) (by omega)
  have hn2 : ((2 ^ w : Nat) : Int) = (2 : Int) ^ w := by push_cast; rfl
  rw [hn2, Int.emod_eq_of_lt h0 (by omega)]

/-- The XOR of two nonnegative values of `B`, formed on the bit patterns, is their XOR as
numbers, again a nonnegative value of `B`. -/
theorem xor_lane_val (w : Nat) (hw : 1 ≤ w) (x y : Int) (hx0 : 0 ≤ x)
    (hx1 : x < (2 : Int) ^ (w - 1)) (hy0 : 0 ≤ y) (hy1 : y < (2 : Int) ^ (w - 1)) :
    toB w ((Nat.xor (bits w x) (bits w y) : Nat) : Int) = fxor x y ∧
      0 ≤ fxor x y ∧ fxor x y < (2 : Int) ^ (w - 1) := by
  rw [bits_of_nonneg w x hx0 hx1, bits_of_nonneg w y hy0 hy1]
  have hxn : x.toNat < 2 ^ (w - 1) := by
    have : ((x.toNat : Nat) : Int) < ((2 ^ (w - 1) : Nat) : Int) := by
      rw [Int.toNat_of_nonneg hx0]; push_cast; exact hx1
    exact_mod_cast this
  have hyn : y.toNat < 2 ^ (w - 1) := by
    have : ((y.toNat : Nat) : Int) < ((2 ^ (w - 1) : Nat) : Int) := by
      rw [Int.toNat_of_nonneg hy0]; push_cast; exact hy1
    exact_mod_cast this
  have hlt : Nat.xor x.toNat y.toNat < 2 ^ (w - 1) := Nat.xor_lt_two_pow hxn hyn
  have h0 : 0 ≤ fxor x y := by unfold fxor; exact Int.ofNat_nonneg _
  have h1 : fxor x y < (2 : Int) ^ (w - 1) := by
    unfold fxor
    exact_mod_cast hlt
  have hp : (0 : Int) < 2 ^ (w - 1) := by positivity
  refine ⟨?_, h0, h1⟩
  show toB w (fxor x y) = fxor x y
  exact toB_of_fitsB w _ hw ⟨by omega, h1⟩

/-- The XOR with zero leaves a nonnegative value of `B` as it is. -/
theorem xor_lane_zero (w : Nat) (hw : 1 ≤ w) (x : Int) (hx0 : 0 ≤ x)
    (hx1 : x < (2 : Int) ^ (w - 1)) :
    toB w ((Nat.xor (bits w x) (bits w 0) : Nat) : Int) = x := by
  have hp : (0 : Int) < 2 ^ (w - 1) := by positivity
  obtain ⟨h, _, _⟩ := xor_lane_val w hw x 0 hx0 hx1 (le_refl 0) hp
  rw [h]
  unfold fxor
  show ((x.toNat ^^^ (0 : Int).toNat : Nat) : Int) = x
  simp [Int.toNat_of_nonneg hx0]

/-- Lane-wise subtraction of two constant registers. -/
theorem rsub_bcast (w W : Nat) (x y : Int) :
    rsub w (bcast w W x) (bcast w W y) = List.replicate W (toB w (toB w x - toB w y)) := by
  unfold rsub bcast
  induction W with
  | zero => rfl
  | succ n ih => simp [List.replicate_succ, ih]

/-! ## Syndromes -/

/-- The step of the syndrome sum in one lane, in the words of the specification. -/
theorem synInner_lane (d : Decoder) (Y : List Reg) (i k : Nat) (hw : 1 ≤ d.wB)
    (htab : ∀ a ∈ d.alpha_to, 0 ≤ a ∧ a < (2 : Int) ^ (d.wB - 1))
    (hY : ∀ y ∈ Y, y.length = d.W) (hk : k < d.W) :
    ∀ (js : List Nat) (acc res : Reg) (v : Int), acc[k]? = some v → 0 ≤ v →
      v < (2 : Int) ^ (d.wB - 1) →
      js.foldlM (fun acc (j : Nat) => do
        let a ← rd d.alpha_to ((i * j) % d.N_p2_1)
        let y ← rd Y j
        pure (rxor d.wB acc (blend (d.cst a) (r_zero d) (rne y (r_zero d))))) acc = some res →
      res[k]? = some (js.foldl (fun acc (j : Nat) =>
        if lane k (Y.getD j []) ≠ 0 then fxor acc (d.alpha_to.getD ((i * j) % d.N_p2_1) 0)
        else acc) v)
  | [], acc, res, v, hv, _, _, h => by
    simp only [List.foldlM_nil, Option.pure_def, Option.some.injEq] at h
    subst h
    simpa using hv
  | j :: js, acc, res, v, hv, hv0, hv1, h => by
    simp only [List.foldlM_cons, Option.bind_eq_bind, Option.bind_eq_some, Option.pure_def,
      Option.some.injEq] at h
    obtain ⟨acc1, ⟨a, ha, y, hy, rfl⟩, h⟩ := h
    have hamem : a ∈ d.alpha_to := by
      unfold rd at ha
      exact List.get?_mem ha
    have hymem : y ∈ Y := by
      unfold rd at hy
      exact List.get?_mem hy
    have hylen : k < y.length := by rw [hY y hymem]; exact hk
    obtain ⟨ha0, ha1⟩ := htab a hamem
    have hyk : y[k]? = some (y[k]) := List.getElem?_eq_getElem hylen
    have hlane : lane k (Y.getD j []) = y[k] := by
      unfold lane
      unfold rd at hy
      simp [List.getD_eq_getElem?_getD, List.get?_eq_getElem?] at hy ⊢
      simp [hy, hyk]
    have hget : d.alpha_to.getD ((i * j) % d.N_p2_1) 0 = a := by
      unfold rd at ha
      simp [List.getD_eq_getElem?_getD, List.get?_eq_getElem?] at ha ⊢
      simp [ha]
    have hz : (r_zero d)[k]? = some 0 := by
      unfold r_zero
      rw [bcast_lane_lt _ _ _ _ hk, toB_zero]
    have hm : (rne y (r_zero d))[k]? = some (decide (y[k] ≠ 0)) :=
      (zipWith_lane _ _ _ k _).mpr ⟨y[k], 0, hyk, hz, rfl⟩
    have hb : (blend (d.cst a) (r_zero d) (rne y (r_zero d)))[k]? =
        some (if decide (y[k] ≠ 0) = true then toB d.wB a else 0) :=
      (blend_lane _ _ _ k _).mpr ⟨toB d.wB a, 0, decide (y[k] ≠ 0),
        bcast_lane_lt _ _ _ _ hk, hz, hm, rfl⟩
    have hp : (0 : Int) < 2 ^ (d.wB - 1) := by positivity
    have hta : toB d.wB a = a := toB_of_fitsB _ _ hw ⟨by omega, ha1⟩
    rw [hta] at hb
    rw [List.foldl_cons, hlane, hget]
    by_cases hne : y[k] ≠ 0
    · rw [if_pos hne]
      rw [if_pos (decide_eq_true hne)] at hb
      obtain ⟨hx, hx0, hx1⟩ := xor_lane_val d.wB hw v a hv0 hv1 ha0 ha1
      have hacc1 : (rxor d.wB acc (blend (d.cst a) (r_zero d) (rne y (r_zero d))))[k]? =
          some (fxor v a) :=
        (zipWith_lane _ _ _ k _).mpr ⟨v, a, hv, hb, hx⟩
      exact synInner_lane d Y i k hw htab hY hk js _ res _ hacc1 hx0 hx1 h
    · rw [if_neg hne]
      rw [if_neg (by simpa using hne)] at hb
      have hacc1 : (rxor d.wB acc (blend (d.cst a) (r_zero d) (rne y (r_zero d))))[k]? =
          some v :=
        (zipWith_lane _ _ _ k _).mpr ⟨v, 0, hv, hb, xor_lane_zero d.wB hw v hv0 hv1⟩
      exact synInner_lane d Y i k hw htab hY hk js _ res _ hacc1 hv0 hv1 h

/-- The accumulated value of the inner loop is the syndrome of the specification. -/
theorem synInner_spec (d : Decoder) (Y : List Reg) (i k : Nat) (hw : 1 ≤ d.wB)
    (htab : ∀ a ∈ d.alpha_to, 0 ≤ a ∧ a < (2 : Int) ^ (d.wB - 1))
    (hY : ∀ y ∈ Y, y.length = d.W) (hk : k < d.W) (acc : Reg)
    (h : synInner d Y i (r_zero d) = some acc) : acc[k]? = some (syndromeSpec d Y i k) := by
  have hz : (r_zero d)[k]? = some 0 := by
    unfold r_zero
    rw [bcast_lane_lt _ _ _ _ hk, toB_zero]
  exact synInner_lane d Y i k hw htab hY hk (List.range d.N) (r_zero d) acc 0 hz (le_refl 0)
    (by positivity) h

/-- The state of the syndrome loop after the rounds `1..n`. -/
theorem formSyndromes_rounds (d : Decoder) (st : Scratch) (hw : 1 ≤ d.wB)
    (htab : ∀ a ∈ d.alpha_to, 0 ≤ a ∧ a < (2 : Int) ^ (d.wB - 1))
    (hY : ∀ y ∈ st.Y_N_reorderered, y.length = d.W) :
    ∀ (n : Nat) (s : List Reg) (syn : Msk),
      (List.range' 1 n).foldlM (fun (p : List Reg × Msk) (i : Nat) => do
        let si ← rd p.1 i
        let si ← synInner d st.Y_N_reorderered i si
        let syn_error := mor p.2 (rne si (r_zero d))
        let sidx ← read_array d.index_of si
        let s ← wr p.1 i sidx
        pure (s, syn_error))
        (List.replicate st.s.length (r_zero d), rne (r_zero d) (r_zero d)) = some (s, syn) →
      s.length = st.s.length ∧
      (∀ i, n < i → i < st.s.length → s[i]? = some (r_zero d)) ∧
      (∀ i, 1 ≤ i → i ≤ n → ∀ k, k < d.W → ∃ (row : Reg) (v : Int), rd s i = some row ∧
        row[k]? = some v ∧
        rdI d.index_of (syndromeSpec d st.Y_N_reorderered i k) = some v) ∧
      (∀ k, k < d.W → ∃ b, syn[k]? = some b ∧
        (b = true ↔ ∃ i, 1 ≤ i ∧ i ≤ n ∧ syndromeSpec d st.Y_N_reorderered i k ≠ 0))
  | 0, s, syn, h => by
    simp only [List.range'_zero, List.foldlM_nil, Option.pure_def, Option.some.injEq,
      Prod.mk.injEq] at h
    obtain ⟨rfl, rfl⟩ := h
    refine ⟨by simp, ?_, ?_, ?_⟩
    · intro i _ hi
      rw [List.getElem?_replicate, if_pos hi]
    · intro i h1 h0
      omega
    · intro k hk
      have hz : (r_zero d)[k]? = some 0 := by
        unfold r_zero
        rw [bcast_lane_lt _ _ _ _ hk, toB_zero]
      refine ⟨false, (zipWith_lane _ _ _ k _).mpr ⟨0, 0, hz, hz, by simp⟩, ?_⟩
      constructor
      · intro hf
        cases hf
      · rintro ⟨i, h1, h0, _⟩
        omega
  | n + 1, s, syn, h => by
    rw [List.range'_concat, List.foldlM_append] at h
    simp only [Option.bind_eq_bind, Option.bind_eq_some] at h
    obtain ⟨⟨s0, syn0⟩, h0, h⟩ := h
    obtain ⟨hlen, hrest, hdone, hsyn⟩ := formSyndromes_rounds d st hw htab hY n s0 syn0 h0
    simp only [List.foldlM_cons, List.foldlM_nil, Option.bind_eq_bind, Option.bind_eq_some,
      Option.pure_def, Option.some.injEq, Prod.mk.injEq, mul_one] at h
    obtain ⟨p1, ⟨si, hsi, acc, hacc, sidx, hsidx, s1, hs1, rfl⟩, hp⟩ := h
    obtain ⟨rfl, rfl⟩ := Prod.mk.inj hp
    obtain ⟨hlt, rfl⟩ := wr_eq_some hs1
    have hm : 1 + 1 * n = n + 1 := by omega
    rw [hm] at hsi hacc hlt ⊢
    have hsi0 : si = r_zero d := by
      have := hrest (n + 1) (by omega) (by rw [← hlen]; exact hlt)
      unfold rd at hsi
      rw [List.get?_eq_getElem?, this] at hsi
      exact (Option.some.inj hsi).symm
    subst hsi0
    have hspec : ∀ k, k < d.W → acc[k]? = some (syndromeSpec d st.Y_N_reorderered (n + 1) k) :=
      fun k hk => synInner_spec d st.Y_N_reorderered (n + 1) k hw htab hY hk acc hacc
    refine ⟨by simp [hlen], ?_, ?_, ?_⟩
    · intro i hi hiL
      rw [List.getElem?_set, if_neg (by omega)]
      exact hrest i (by omega) hiL
    · intro i h1 hin k hk
      by_cases hi : i = n + 1
      · subst hi
        obtain ⟨v, hv, hidx⟩ := read_array_lane d.index_of acc sidx hsidx k _ (hspec k hk)
        refine ⟨sidx, v, ?_, hv, hidx⟩
        unfold rd
        rw [List.get?_eq_getElem?, List.getElem?_set, if_pos rfl, if_pos hlt]
      · obtain ⟨row, v, hrow, hv, hidx⟩ := hdone i h1 (by omega) k hk
        refine ⟨row, v, ?_, hv, hidx⟩
        unfold rd at hrow ⊢
        rw [List.get?_eq_getElem?] at hrow ⊢
        rw [List.getElem?_set, if_neg (fun h => hi h.symm)]
        exact hrow
    · intro k hk
      obtain ⟨b0, hb0, hiff⟩ := hsyn k hk
      have hz : (r_zero d)[k]? = some 0 := by
        unfold r_zero
        rw [bcast_lane_lt _ _ _ _ hk, toB_zero]
      have hne : (rne acc (r_zero d))[k]? =
          some (decide (syndromeSpec d st.Y_N_reorderered (n + 1) k ≠ 0)) :=
        (zipWith_lane _ _ _ k _).mpr ⟨_, 0, hspec k hk, hz, rfl⟩
      refine ⟨b0 || decide (syndromeSpec d st.Y_N_reorderered (n + 1) k ≠ 0),
        (zipWith_lane _ _ _ k _).mpr ⟨_, _, hb0, hne, rfl⟩, ?_⟩
      rw [Bool.or_eq_true, hiff, decide_eq_true_iff]
      constructor
      · rintro (⟨i, h1, hin, hi⟩ | hi)
        · exact ⟨i, h1, by omega, hi⟩
        · exact ⟨n + 1, by omega, le_refl _, hi⟩
      · rintro ⟨i, h1, hin, hi⟩
        by_cases hi' : i = n + 1
        · subst hi'
          exact Or.inr hi
        · exact Or.inl ⟨i, h1, by omega, hi⟩

/-- C12 (syndrome computation). With `alpha_to` a table of nonnegative values of `B` and
every register of the reordered batch `W` lanes wide: (1) the value accumulated by the inner
loop for `s[i]`, started from the zero register, is in every lane `k` the XOR over the
positions `j` in `0..N-1` whose symbol in that lane is nonzero of `alpha_to[(i*j) mod q]`
(`syndromeSpec`); and when the syndrome part returns `s` and `syn_error`, (2) for every `i`
in `1..2t` the stored `s[i]` is in every lane `index_of` of that accumulated value, which is
`-1` for the value zero when `index_of[0] = -1`, and (3) the `syn_error` flag of a lane is
true iff some accumulated `s[i]`, `i` in `1..2t`, of that lane is nonzero. -/
theorem syndromes_are_xor_of_powers (d : Decoder) (st : Scratch) (s : List Reg) (syn : Msk)
    (hw : 1 ≤ d.wB) (htab : ∀ a ∈ d.alpha_to, 0 ≤ a ∧ a < (2 : Int) ^ (d.wB - 1))
    (hY : ∀ y ∈ st.Y_N_reorderered, y.length = d.W)
    (h : formSyndromes d st = some (s, syn)) :
    (∀ i k acc, k < d.W → synInner d st.Y_N_reorderered i (r_zero d) = some acc →
      acc[k]? = some (syndromeSpec d st.Y_N_reorderered i k)) ∧
    (∀ i, 1 ≤ i → i ≤ d.t2 → ∀ k, k < d.W → ∃ (row : Reg) (v : Int), rd s i = some row ∧
      row[k]? = some v ∧
      rdI d.index_of (syndromeSpec d st.Y_N_reorderered i k) = some v ∧
      (rdI d.index_of 0 = some (-1) → syndromeSpec d st.Y_N_reorderered i k = 0 → v = -1)) ∧
    (∀ k, k < d.W → ∃ b, syn[k]? = some b ∧
      (b = true ↔ ∃ i, 1 ≤ i ∧ i ≤ d.t2 ∧ syndromeSpec d st.Y_N_reorderered i k ≠ 0)) := by
  obtain ⟨_, _, hdone, hsyn⟩ := formSyndromes_rounds d st hw htab hY d.t2 s syn h
  refine ⟨fun i k acc hk hacc => synInner_spec d _ i k hw htab hY hk acc hacc, ?_, hsyn⟩
  intro i h1 hi k hk
  obtain ⟨row, v, hrow, hv, hidx⟩ := hdone i h1 hi k hk
  refine ⟨row, v, hrow, hv, hidx, ?_⟩
  intro h0 hs0
  rw [hs0, h0] at hidx
  exact (Option.some.inj hidx).symm

/-- The theorem `syndromes_are_xor_of_powers` at the (15,5) decoder, on a frame with two
errors next to a codeword. -/
theorem syndromes_are_xor_of_powers_witness :
    formSyndromes bch15
        { allocate bch15 0 with
          Y_N_reorderered := (reorder 2 15 (flip cw [0, 3] ++ cw)).getD [] } =
      some ([[0, 0], [14, -1], [13, -1], [7, -1], [11, -1], [-1, -1], [14, -1]],
        [true, false]) ∧
    ∀ k, k < bch15.W → ∃ b, [true, false][k]? = some b ∧
      (b = true ↔ ∃ i, 1 ≤ i ∧ i ≤ bch15.t2 ∧
        syndromeSpec bch15 ((reorder 2 15 (flip cw [0, 3] ++ cw)).getD []) i k ≠ 0) :=
  ⟨by decide,
    (syndromes_are_xor_of_powers bch15
      { allocate bch15 0 with
        Y_N_reorderered := (reorder 2 15 (flip cw [0, 3] ++ cw)).getD [] }
      [[0, 0], [14, -1], [13, -1], [7, -1], [11, -1], [-1, -1], [14, -1]] [true, false]
      (by decide) (by decide) (by decide) (by decide)).2.2⟩

/-! ## The solver on the (15,5) code -/

/-- C13 (the code does not do it): the reference search keeps the smallest `u_lu`, not the
largest. In the batch `flip cw [0, 1, 4] ++ cw`, at the start of iteration `u = 5` lane 0 is
active with `discrepancy[0..5] = 0, -1, -1, 5, -1, 0` and `u_lu[0..4] = -1, 0, 1, 2, 0`.
Among the earlier iterations with a defined discrepancy (`q = 0` and `q = 3`) the largest
`u_lu` is that of `q = 3`; the search of lines 166-181 returns `r_q = 0` with
`r_u_lu_q = -1`. The same holds for both contents of the uninitialised register. -/
theorem reference_search_keeps_smallest_u_lu :
    (afterRounds bch15 junk0 (allocate bch15 0) (flip cw [0, 1, 4] ++ cw) 4).bind (fun p =>
      (selectedRef bch15 (junk0 5) 5 p.2 p.1).map (fun r =>
        (p.2, (p.1.discrepancy.take 6).map (lane 0), (p.1.u_lu.take 5).map (lane 0),
          lane 0 r.r_q, lane 0 r.r_u_lu_q)))
      = some ([true, false], [0, -1, -1, 5, -1, 0], [-1, 0, 1, 2, 0], 0, -1) ∧
    (afterRounds bch15 junk15 (allocate bch15 0) (flip cw [0, 1, 4] ++ cw) 4).bind (fun p =>
      (selectedRef bch15 (junk15 5) 5 p.2 p.1).map (fun r =>
        (p.2, (p.1.discrepancy.take 6).map (lane 0), (p.1.u_lu.take 5).map (lane 0),
          lane 0 r.r_q, lane 0 r.r_u_lu_q)))
      = some ([true, false], [0, -1, -1, 5, -1, 0], [-1, 0, 1, 2, 0], 0, -1) := by
  decide

/-- C15 (the code does not do it): the next discrepancy of a lane in the undefined branch.
In the batch `flip cw [3, 6, 7, 8, 9] ++ cw` lane 0 is active in iteration `u = 5` with
`discrepancy[5] = -1`, lane 1 is inactive. After the iteration `l[6] = 3`, `s[6] = 14`,
`s[3] = 7` and `elp[6][3] = 12` in lane 0, so the sum of the claim has the term `i = 3` and
is `index_of[alpha_to[14] XOR alpha_to[(7 + 6) mod 15]] = index_of[9 XOR 13] = 2`
(`discrepancySpec`); the code, whose loop bound of line 226 is taken over the lanes of
`m_not_disc`, stores `index_of[alpha_to[14]] = 14`. -/
theorem next_discrepancy_misses_terms :
    (afterRounds bch15 junk0 (allocate bch15 0) (flip cw [3, 6, 7, 8, 9] ++ cw) 4).map
        (fun p => (p.2, rd p.1.discrepancy 5))
      = some ([true, false], some [-1, 0]) ∧
    (afterRounds bch15 junk0 (allocate bch15 0) (flip cw [3, 6, 7, 8, 9] ++ cw) 5).map
        (fun p => (rd p.1.l 6, rd p.1.s 6, rd p.1.s 3, rd2 p.1.elp 6 3, rd p.1.discrepancy 6,
          discrepancySpec bch15 p.1 5 0))
      = some (some [3, 0], some [14, -1], some [7, -1], some [12, 0], some [14, 0], 2) := by
  decide

/-- C16 (the code does not do it): the Chien search flips the first `l` steps or none. In
the second of the calls on `cw ++ flip cw [3, 5, 6, 10, 12]` and
`flip cw [0, 1, 4] ++ flip cw [0, 1]` the search runs at `u = 6` with, in lane 1,
`l[6] = 3 <= t` and `elp[6][1..3] = 8, 8, 0` (lane 1 stopped in round 4 with `l[5] = 4`, so
these are the values the first call left). The evaluation of the claim, with registers
advanced by `alpha^j` at every step, is zero at no step `i` in `1..15` (`chienSpec`); the
code, whose registers `reg[j]` are set once and whose blend tests `l[u] >= i`, finds
`1 XOR 3 XOR 6 XOR 4 = 0` at the steps 1, 2, 3 and flips the bits 14, 13, 12 of lane 1. -/
theorem chien_search_flips_first_steps :
    (decode_twice bch15 junk0 (allocate bch15 0) (cw ++ flip cw [3, 5, 6, 10, 12])
        (flip cw [0, 1, 4] ++ flip cw [0, 1])).map
      (fun o => (rd o.scratch.l 5, rd o.scratch.l 6,
        (List.range' 1 3).map (fun j => rd2 o.scratch.elp 6 j),
        flipped (flip cw [0, 1]) (frame bch15 1 o.Y_N),
        (List.range' 1 15).filter (fun i => chienSpec bch15 o.scratch 6 1 i = 0)))
      = some (some [3, 4], some [5, 3], [some [0, 8], some [0, 8], some [3, 0]],
          [12, 13, 14], []) := by
  decide

/-- C17 (the code does not do it): entries of an inactive lane are written. In the batch
`cw ++ flip cw [0]` lane 0 has zero syndrome and is inactive in iteration `u = 1`; before
it `elp[1][0] = 1` and `u_lu[2] = 0` in lane 0, after it `elp[1][0] = 0` (line 210, the
conversion to index form without mask) and `u_lu[2] = 1` (line 214, written without
mask). -/
theorem inactive_lane_entries_written :
    (afterRounds bch15 junk0 (allocate bch15 0) (cw ++ flip cw [0]) 0).map
        (fun p => (p.2, rd2 p.1.elp 1 0, rd p.1.u_lu 2))
      = some ([false, true], some [1, 1], some [0, 0]) ∧
    (afterRounds bch15 junk0 (allocate bch15 0) (cw ++ flip cw [0]) 1).map
        (fun p => (rd2 p.1.elp 1 0, rd p.1.u_lu 2))
      = some (some [0, 0], some [1, 0]) := by
  decide

/-- C20 (the code does not do it): a coefficient of a lane in the undefined branch is
converted twice. In the batch `flip cw [0, 1, 4] ++ flip cw [0]` both lanes are active in
iteration `u = 1`, lane 0 with `discrepancy[1] = -1`, lane 1 with `discrepancy[1] = 0`;
before it `l[1] = 0` and `elp[1][0] = 1` in lane 0. After it `l[2] = 0` and `elp[2][0] = 1`
in lane 0, but `elp[1][0] = -1 = index_of[index_of[1]]` (lines 156 and 210), not
`index_of[1] = 0`. -/
theorem undefined_branch_converted_twice :
    (afterRounds bch15 junk0 (allocate bch15 0) (flip cw [0, 1, 4] ++ flip cw [0]) 0).map
        (fun p => (p.2, rd p.1.discrepancy 1, rd p.1.l 1, rd2 p.1.elp 1 0))
      = some ([true, true], some [-1, 0], some [0, 0], some [1, 1]) ∧
    (afterRounds bch15 junk0 (allocate bch15 0) (flip cw [0, 1, 4] ++ flip cw [0]) 1).map
        (fun p => (rd p.1.l 2, rd2 p.1.elp 2 0, rd2 p.1.elp 1 0))
      = some (some [0, 1], some [1, 1], some [-1, 0]) ∧
    rdI bch15.index_of 1 = some 0 := by
  decide

/-! ## What an iteration writes -/

/-- The loop of the undefined-discrepancy branch writes into `elp` only. -/
theorem whileLu_frame (d : Decoder) (u : Nat) (m_disc : Msk) :
    ∀ (fuel i : Nat) (st st' : Scratch), whileLu d u m_disc fuel i st = some st' →
      st'.l = st.l ∧ st'.u_lu = st.u_lu ∧ st'.discrepancy = st.discrepancy ∧ st'.s = st.s
  | 0, _, _, _, h => by simp [whileLu] at h
  | fuel + 1, i, st, st', h => by
    simp only [whileLu, Option.bind_eq_bind, Option.bind_eq_some] at h
    obtain ⟨lu, _, h⟩ := h
    split at h
    · simp only [Option.pure_def, Option.some.injEq] at h
      subst h
      exact ⟨rfl, rfl, rfl, rfl⟩
    · simp only [Option.bind_eq_some] at h
      obtain ⟨_, _, _, _, _, _, _, _, _, _, _, _, h⟩ := h
      have ih := whileLu_frame d u m_disc fuel (i + 1) _ st' h
      exact ih

/-- The undefined-discrepancy branch writes `l[u+1]` and entries of `elp`. -/
theorem discBranch_frame (d : Decoder) (u : Nat) (m_disc : Msk) (st st' : Scratch)
    (h : discBranch d u m_disc st = some st') :
    (∃ lu lu1, rd st.l u = some lu ∧ rd st.l (u + 1) = some lu1 ∧ u + 1 < st.l.length ∧
      st'.l = st.l.set (u + 1) (blend lu lu1 m_disc)) ∧
    st'.u_lu = st.u_lu ∧ st'.discrepancy = st.discrepancy ∧ st'.s = st.s := by
  simp only [discBranch, Option.bind_eq_bind, Option.bind_eq_some] at h
  obtain ⟨lu, hlu, lu1, hlu1, l', hl', h⟩ := h
  obtain ⟨hlt, hset⟩ := wr_eq_some hl'
  obtain ⟨h1, h2, h3, h4⟩ := whileLu_frame d u m_disc _ _ _ _ h
  exact ⟨⟨lu, lu1, hlu, hlu1, hlt, by rw [h1]; exact hset⟩, h2, h3, h4⟩

/-- The defined-discrepancy branch writes `l[u+1]` and entries of `elp`. -/
theorem notDiscBranch_frame (d : Decoder) (junk : Reg) (u : Nat) (m_not_disc : Msk)
    (st st' : Scratch) (h : notDiscBranch d junk u m_not_disc st = some st') :
    (∃ ref lu lu1, searchQ d junk (u - 1) m_not_disc st = some ref ∧ rd st.l u = some lu ∧
      rd st.l (u + 1) = some lu1 ∧ u + 1 < st.l.length ∧
      st'.l = st.l.set (u + 1) (blend (newDegree d u ref lu) lu1 m_not_disc)) ∧
    st'.u_lu = st.u_lu ∧ st'.discrepancy = st.discrepancy ∧ st'.s = st.s := by
  simp only [notDiscBranch, Option.bind_eq_bind, Option.bind_eq_some] at h
  obtain ⟨ref, href, lu, hlu, lu1, hlu1, l', hl', _, _, _, _, _, _, _, _, h⟩ := h
  obtain ⟨hlt, hset⟩ := wr_eq_some hl'
  simp only [Option.pure_def, Option.some.injEq] at h
  subst h
  exact ⟨⟨ref, lu, lu1, href, hlu, hlu1, hlt, hset⟩, rfl, rfl, rfl⟩

/-- Forming the next discrepancy writes `discrepancy[u+1]` only. -/
theorem formDiscrepancy_frame (d : Decoder) (u : Nat) (m_process m_not_disc : Msk)
    (st st' : Scratch) (h : formDiscrepancy d u m_process m_not_disc st = some st') :
    st'.l = st.l ∧ st'.u_lu = st.u_lu ∧ st'.elp = st.elp ∧ st'.s = st.s := by
  simp only [formDiscrepancy, Option.bind_eq_bind, Option.bind_eq_some] at h
  obtain ⟨_, _, _, _, _, _, _, _, _, _, _, _, _, _, _, _, _, _, h⟩ := h
  simp only [Option.pure_def, Option.some.injEq] at h
  subst h
  exact ⟨rfl, rfl, rfl, rfl⟩

/-- The table initialisation sets `l[0] = l[1] = 0`, `u_lu[0] = -1`, `u_lu[1] = 0`. -/
theorem initTables_l_u_lu (d : Decoder) (st st' : Scratch) (h : initTables d st = some st') :
    rd st'.l 0 = some (r_zero d) ∧ rd st'.l 1 = some (r_zero d) ∧
    rd st'.u_lu 0 = some (r_mone d) ∧ rd st'.u_lu 1 = some (r_zero d) := by
  simp only [initTables, Option.bind_eq_bind, Option.bind_eq_some] at h
  obtain ⟨_, _, _, _, _, _, _, _, _, _, _, _, l1, hl1, l2, hl2, u1, hu1, u2, hu2, h⟩ := h
  simp only [Option.pure_def, Option.some.injEq] at h
  subst h
  obtain ⟨a1, rfl⟩ := wr_eq_some hl1
  obtain ⟨a2, rfl⟩ := wr_eq_some hl2
  obtain ⟨b1, rfl⟩ := wr_eq_some hu1
  obtain ⟨b2, rfl⟩ := wr_eq_some hu2
  simp only [List.length_set] at a2 b2
  simp [rd, List.get?_eq_getElem?, List.getElem?_set, a1, a2, b1, b2]

/-- One round of the solver loop as a chain of steps, each fed into the next. -/
theorem solverIter_eq (d : Decoder) (junk : Reg) (u : Nat) (m_process : Msk) (st : Scratch) :
    solverIter d junk u m_process st =
      (rd st.discrepancy u).bind fun du =>
      (if testz (mand (req du (r_mone d)) m_process) then some st
        else discBranch d u (mand (req du (r_mone d)) m_process) st).bind fun sa =>
      (if testz (mand (rne du (r_mone d)) m_process) then some sa
        else notDiscBranch d junk u (mand (rne du (r_mone d)) m_process) sa).bind fun sb =>
      (rd sb.l (u + 1)).bind fun lu1 =>
      (wr sb.u_lu (u + 1) (rsub d.wB (d.cst u) lu1)).bind fun ul =>
      (if u < d.t2 then
          formDiscrepancy d u m_process (mand (rne du (r_mone d)) m_process) { sb with u_lu := ul }
        else some { sb with u_lu := ul }).bind fun sc =>
      (rd sc.l (u + 1)).bind fun lu1' =>
      some (sc, mand m_process (rle lu1' (d.cst d.t))) := by
  unfold solverIter
  simp only [Option.bind_eq_bind, Option.pure_def]
  cases rd st.discrepancy u with
  | none => rfl
  | some du =>
    by_cases c1 : testz (mand (req du (r_mone d)) m_process) = true <;>
    by_cases c2 : testz (mand (rne du (r_mone d)) m_process) = true <;>
    by_cases c3 : u < d.t2 <;>
    simp only [c1, c2, c3, if_true, if_false, Option.some_bind, Bool.false_eq_true]

/-- One round of the solver loop writes `l` and `u_lu` at index `u + 1` only, and leaves
`u_lu[u+1] = r_u - l[u+1]` there. -/
theorem solverIter_l_u_lu (d : Decoder) (junk : Reg) (u : Nat) (m_process m' : Msk)
    (st st' : Scratch) (h : solverIter d junk u m_process st = some (st', m')) :
    (∃ lu1, rd st'.l (u + 1) = some lu1 ∧
      rd st'.u_lu (u + 1) = some (rsub d.wB (d.cst u) lu1)) ∧
    (∀ k, k ≠ u + 1 → rd st'.l k = rd st.l k ∧ rd st'.u_lu k = rd st.u_lu k) := by
  rw [solverIter_eq] at h
  simp only [Option.bind_eq_some] at h
  obtain ⟨du, _, sa, hsa, sb, hsb, lu1, hlu1, ul, hul, sc, hsc, lu1', _, h⟩ := h
  simp only [Option.some.injEq, Prod.mk.injEq] at h
  obtain ⟨rfl, _⟩ := h
  -- the two branches
  have ha : (∀ k, k ≠ u + 1 → rd sa.l k = rd st.l k) ∧ sa.u_lu = st.u_lu := by
    split at hsa
    · simp only [Option.some.injEq] at hsa
      subst hsa
      exact ⟨fun _ _ => rfl, rfl⟩
    · obtain ⟨⟨_, _, _, _, _, hl⟩, hu, _, _⟩ := discBranch_frame d u _ st sa hsa
      refine ⟨fun k hk => ?_, hu⟩
      rw [hl]
      simp [rd, List.get?_eq_getElem?, List.getElem?_set_ne (Ne.symm hk)]
  have hb : (∀ k, k ≠ u + 1 → rd sb.l k = rd sa.l k) ∧ sb.u_lu = sa.u_lu := by
    split at hsb
    · simp only [Option.some.injEq] at hsb
      subst hsb
      exact ⟨fun _ _ => rfl, rfl⟩
    · obtain ⟨⟨_, _, _, _, _, _, _, hl⟩, hu, _, _⟩ := notDiscBranch_frame d junk u _ sa sb hsb
      refine ⟨fun k hk => ?_, hu⟩
      rw [hl]
      simp [rd, List.get?_eq_getElem?, List.getElem?_set_ne (Ne.symm hk)]
  have hc : sc.l = sb.l ∧ sc.u_lu = ul := by
    split at hsc
    · obtain ⟨h1, h2, _, _⟩ := formDiscrepancy_frame d u _ _ _ sc hsc
      exact ⟨h1, h2⟩
    · simp only [Option.some.injEq] at hsc
      subst hsc
      exact ⟨rfl, rfl⟩
  obtain ⟨hlt, hset⟩ := wr_eq_some hul
  refine ⟨⟨lu1, by rw [hc.1]; exact hlu1, ?_⟩, fun k hk => ⟨?_, ?_⟩⟩
  · rw [hc.2, hset]
    simp [rd, List.get?_eq_getElem?, List.getElem?_set, hlt]
  · rw [hc.1, hb.1 k hk, ha.1 k hk]
  · rw [hc.2, hset, hb.2, ha.2]
    simp [rd, List.get?_eq_getElem?, List.getElem?_set_ne (Ne.symm hk)]

/-- The invariant of `u_lu` along the rounds of the solver loop. -/
theorem rounds_u_lu (d : Decoder) (junk : Nat → Reg) (p : Scratch × Msk)
    (h0 : rd p.1.l 0 = some (r_zero d) ∧ rd p.1.l 1 = some (r_zero d) ∧
      rd p.1.u_lu 0 = some (r_mone d) ∧ rd p.1.u_lu 1 = some (r_zero d)) :
    ∀ (n : Nat) (q : Scratch × Msk), rounds d junk n p = some q →
      ∀ k, k ≤ n + 1 → ∃ lk, rd q.1.l k = some lk ∧
        rd q.1.u_lu k = some (rsub d.wB (d.cst ((k : Int) - 1)) lk)
  | 0, q, h, k, hk => by
    simp only [rounds, Option.some.injEq] at h
    subst h
    obtain ⟨a, b, c, e⟩ := h0
    have hk' : k = 0 ∨ k = 1 := by omega
    rcases hk' with rfl | rfl
    · refine ⟨r_zero d, a, ?_⟩
      rw [c]
      have hc : ((0 : Nat) : Int) - 1 = -1 := by norm_num
      rw [hc]
      unfold r_mone r_zero Decoder.cst
      rw [rsub_bcast, toB_zero, sub_zero, toB_toB]
      rfl
    · refine ⟨r_zero d, b, ?_⟩
      rw [e]
      have hc : ((1 : Nat) : Int) - 1 = 0 := by norm_num
      rw [hc]
      unfold r_zero Decoder.cst
      rw [rsub_bcast, toB_zero, sub_zero, toB_zero]
      simp [bcast, toB_zero]
  | n + 1, q, h, k, hk => by
    simp only [rounds, Option.bind_eq_bind, Option.bind_eq_some] at h
    obtain ⟨⟨st, m⟩, hprev, h⟩ := h
    simp only at h
    split at h
    · obtain ⟨st', m'⟩ := q
      obtain ⟨⟨lu1, h1, h2⟩, hframe⟩ := solverIter_l_u_lu d _ (n + 1) m m' st st' h
      by_cases hkk : k = n + 1 + 1
      · subst hkk
        refine ⟨lu1, h1, ?_⟩
        rw [h2]
        congr 3
        push_cast
        ring
      · obtain ⟨lk, h3, h4⟩ := rounds_u_lu d junk p h0 n (st, m) hprev k (by omega)
        obtain ⟨f1, f2⟩ := hframe k hkk
        exact ⟨lk, by rw [f1]; exact h3, by rw [f2]; exact h4⟩
    · cases h

/-- C18 (counterexample): in the batch `flip cw [0] ++ cw`, after iteration `u = 1` the
active lane 0 has `l[2] = 1` and `u_lu[2] = 0`, which is `u - l[2]` and not
`(u + 1) - l[2] = 1`; and the initial entries are `l[0] = 0`, `u_lu[0] = -1`. -/
theorem u_lu_is_not_index_minus_degree :
    (afterRounds bch15 junk0 (allocate bch15 0) (flip cw [0] ++ cw) 1).map
        (fun p => (p.2, rd p.1.l 2, rd p.1.u_lu 2, rd p.1.l 0, rd p.1.u_lu 0))
      = some ([true, false], some [1, 0], some [0, 1], some [0, 0], some [-1, -1]) := by
  decide

/-- C18 (amended): after every round `u` of the solver loop `u_lu[u+1] = u - l[u+1]` in
every lane, computed on `B`; with the initial entries `u_lu[0] = -1`, `u_lu[1] = 0`,
`l[0] = l[1] = 0` this gives `u_lu[k] = (k - 1) - l[k]` for every index `k` written so
far. -/
theorem u_lu_is_round_minus_degree (d : Decoder) (junk : Nat → Reg) (st : Scratch)
    (Y_N : List Int) (n : Nat) (st' : Scratch) (m : Msk)
    (h : afterRounds d junk st Y_N n = some (st', m)) :
    ∀ k, k ≤ n + 1 → ∃ lk, rd st'.l k = some lk ∧
      rd st'.u_lu k = some (rsub d.wB (d.cst ((k : Int) - 1)) lk) := by
  simp only [afterRounds, Option.bind_eq_bind, Option.bind_eq_some] at h
  obtain ⟨p, hp, h⟩ := h
  have h0 : rd p.1.l 0 = some (r_zero d) ∧ rd p.1.l 1 = some (r_zero d) ∧
      rd p.1.u_lu 0 = some (r_mone d) ∧ rd p.1.u_lu 1 = some (r_zero d) := by
    simp only [enterSolver, Option.bind_eq_bind, Option.bind_eq_some] at hp
    obtain ⟨Y, _, ⟨s, syn⟩, _, hp⟩ := hp
    simp only at hp
    split at hp
    · cases hp
    · simp only [Option.bind_eq_some, Option.pure_def, Option.some.injEq] at hp
      obtain ⟨st1, hinit, rfl⟩ := hp
      exact initTables_l_u_lu d _ st1 hinit
  exact rounds_u_lu d junk p h0 n (st', m) h

/-- Witness of `u_lu_is_round_minus_degree`: two rounds on a frame with one flipped bit. -/
theorem u_lu_is_round_minus_degree_witness :
    ∃ st' m, afterRounds bch15 junk0 (allocate bch15 0) (flip cw [0] ++ cw) 2 = some (st', m) ∧
      ∀ k, k ≤ 2 + 1 → ∃ lk, rd st'.l k = some lk ∧
        rd st'.u_lu k = some (rsub bch15.wB (bch15.cst ((k : Int) - 1)) lk) := by
  have hs : (afterRounds bch15 junk0 (allocate bch15 0) (flip cw [0] ++ cw) 2).isSome = true := by
    decide
  obtain ⟨⟨st', m⟩, h⟩ := Option.isSome_iff_exists.mp hs
  exact ⟨st', m, h, u_lu_is_round_minus_degree bch15 junk0 _ _ 2 st' m h⟩

/-! ## The degree update -/

/-- The reference registers stay those of one iteration `q <= u - 1`: in every lane, `r_q`
holds an iteration index `q` and `r_l_q` holds `l[q]` of that lane. -/
theorem searchQ_selected (d : Decoder) (junk : Reg) (u_m1 : Nat) (m_not_disc : Msk)
    (st : Scratch) (ref : Ref) (h : searchQ d junk u_m1 m_not_disc st = some ref) :
    ∀ (k : Nat) (v b : Int), ref.r_q[k]? = some v → ref.r_l_q[k]? = some b →
      ∃ q : Nat, q ≤ u_m1 ∧ v = toB d.wB q ∧ ∃ lq : Reg, rd st.l q = some lq ∧ lq[k]? = some b := by
  simp only [searchQ, Option.bind_eq_bind, Option.bind_eq_some] at h
  obtain ⟨r_l_q, hl, r_u_lu_q, _, r_elp_q, _, h⟩ := h
  refine foldlM_inv _ (fun (r : Ref) => ∀ (k : Nat) (v b : Int), r.r_q[k]? = some v →
      r.r_l_q[k]? = some b →
      ∃ q : Nat, q ≤ u_m1 ∧ v = toB d.wB q ∧ ∃ lq : Reg, rd st.l q = some lq ∧ lq[k]? = some b)
    _ ?_ _ ref ?_ h
  · intro r q r' hq hI hstep k v b hv hb
    simp only [Option.bind_eq_some, Option.pure_def, Option.some.injEq] at hstep
    obtain ⟨dq, _, uq, _, lq, hlq, re, _, rfl⟩ := hstep
    simp only at hv hb
    obtain ⟨x, y, c, hx, hy, hc, rfl⟩ := (blend_lane _ _ _ k v).mp hv
    obtain ⟨x', y', c', hx', hy', hc', rfl⟩ := (blend_lane _ _ _ k b).mp hb
    have hcc : c' = c := by rw [hc] at hc'; exact (Option.some.inj hc').symm
    subst hcc
    have hqlt : q < u_m1 := by
      have := List.mem_reverse.mp hq
      exact List.mem_range.mp this
    cases c' with
    | true =>
      refine ⟨q, le_of_lt hqlt, ?_, lq, hlq, ?_⟩
      · simpa using bcast_lane _ _ _ _ _ hx
      · simpa using hx'
    | false =>
      simpa using hI k y y' hy hy'
  · intro k v b hv hb
    refine ⟨u_m1, le_refl _, ?_, r_l_q, hl, hb⟩
    exact bcast_lane _ _ _ _ _ hv

/-- C19 (degree update). When the defined-discrepancy branch of iteration `u` returns, in
every lane `k` of its mask `m_not_disc` the new `l[u+1]` is `max(l[u], l[q] + u - q)`, where
`q <= u - 1` is the iteration held by the reference register `r_q` of that lane and the sum
is formed in `B` (`toB`); when `u`, `q`, `l[q] + u` and `l[q] + u - q` are values of `B` it
is the integer `max(l[u], l[q] + u - q)`. -/
theorem degree_update (d : Decoder) (junk : Reg) (u : Nat) (m_not_disc : Msk)
    (st st' : Scratch) (h : notDiscBranch d junk u m_not_disc st = some st') :
    ∃ (ref : Ref) (lu lnew : Reg), searchQ d junk (u - 1) m_not_disc st = some ref ∧
      rd st.l u = some lu ∧ rd st'.l (u + 1) = some lnew ∧
      ∀ (k : Nat) (v : Int), m_not_disc[k]? = some true → lnew[k]? = some v →
        ∃ (q : Nat) (lq : Reg) (a b : Int), q ≤ u - 1 ∧ ref.r_q[k]? = some (toB d.wB q) ∧
          rd st.l q = some lq ∧ lq[k]? = some b ∧ lu[k]? = some a ∧
          v = max a (toB d.wB (toB d.wB (b + toB d.wB u) - toB d.wB q)) ∧
          (1 ≤ d.wB → fitsB d.wB u → fitsB d.wB q → fitsB d.wB (b + u) →
            fitsB d.wB (b + u - q) → v = max a (b + u - q)) := by
  obtain ⟨⟨ref, lu, lu1, hs, hlu, hlu1, hlt, hl⟩, _, _, _⟩ :=
    notDiscBranch_frame d junk u m_not_disc st st' h
  refine ⟨ref, lu, blend (newDegree d u ref lu) lu1 m_not_disc, hs, hlu, ?_, ?_⟩
  · rw [hl]
    simp [rd, List.getElem?_set, hlt]
  · intro k v hm hv
    obtain ⟨x, y, c, hx, hy, hc, rfl⟩ := (blend_lane _ _ _ k v).mp hv
    rw [hm] at hc
    cases Option.some.inj hc
    simp only [if_true]
    unfold newDegree at hx
    obtain ⟨x1, a, c1, hx1, ha, hc1, rfl⟩ := (blend_lane _ _ _ k x).mp hx
    obtain ⟨a', x1', ha', hx1', hc1'⟩ := (zipWith_lane _ _ _ k c1).mp hc1
    rw [ha] at ha'
    cases Option.some.inj ha'
    rw [hx1] at hx1'
    cases Option.some.inj hx1'
    obtain ⟨s1, vq, hs1, hvq, rfl⟩ := (zipWith_lane _ _ _ k x1).mp hx1
    obtain ⟨b, cu, hb, hcu, rfl⟩ := (zipWith_lane _ _ _ k s1).mp hs1
    have hcu' : cu = toB d.wB u := bcast_lane _ _ _ _ _ hcu
    subst hcu'
    obtain ⟨q, hq, rfl, lq, hlq, hlqk⟩ := searchQ_selected d junk (u - 1) m_not_disc st ref hs
      k vq b hvq hb
    have hmax : (if c1 = true then toB d.wB (toB d.wB (b + toB d.wB u) - toB d.wB q) else a) =
        max a (toB d.wB (toB d.wB (b + toB d.wB u) - toB d.wB q)) := by
      rw [← hc1']
      by_cases hle : a ≤ toB d.wB (toB d.wB (b + toB d.wB u) - toB d.wB q)
      · simp [hle]
      · simp only [hle, decide_False, Bool.false_eq_true, if_false]
        exact (max_eq_left (le_of_lt (not_le.mp hle))).symm
    refine ⟨q, lq, a, b, hq, hvq, hlq, hlqk, ha, hmax, ?_⟩
    intro hw fu fq fbu fbuq
    rw [hmax, toB_of_fitsB _ _ hw fu, toB_of_fitsB _ _ hw fq, toB_of_fitsB _ _ hw fbu,
      toB_of_fitsB _ _ hw fbuq]

/-- The theorem `degree_update` at the first iteration of the (15,5) decoder on a frame
with one error next to a codeword: the branch returns, with `l[2] = 1` in the lane of the
frame in error. -/
theorem degree_update_witness :
    ∃ st st', afterRounds bch15 junk0 (allocate bch15 0) (flip cw [0] ++ cw) 0 =
        some (st, [true, false]) ∧
      notDiscBranch bch15 (junk0 1) 1 [true, false] st = some st' ∧
      rd st'.l 2 = some [1, 0] ∧
      ∃ (ref : Ref) (lu lnew : Reg), searchQ bch15 (junk0 1) (1 - 1) [true, false] st = some ref ∧
        rd st.l 1 = some lu ∧ rd st'.l (1 + 1) = some lnew ∧
        ∀ (k : Nat) (v : Int), [true, false][k]? = some true → lnew[k]? = some v →
          ∃ (q : Nat) (lq : Reg) (a b : Int), q ≤ 1 - 1 ∧
            ref.r_q[k]? = some (toB bch15.wB q) ∧
            rd st.l q = some lq ∧ lq[k]? = some b ∧ lu[k]? = some a ∧
            v = max a (toB bch15.wB (toB bch15.wB (b + toB bch15.wB (1 : Nat)) -
              toB bch15.wB q)) ∧
            (1 ≤ bch15.wB → fitsB bch15.wB (1 : Nat) → fitsB bch15.wB q →
              fitsB bch15.wB (b + (1 : Nat)) →
              fitsB bch15.wB (b + (1 : Nat) - q) → v = max a (b + (1 : Nat) - q)) := by
  have hs : ((afterRounds bch15 junk0 (allocate bch15 0) (flip cw [0] ++ cw) 0).bind
      (fun p => if p.2 = [true, false] then
        (notDiscBranch bch15 (junk0 1) 1 [true, false] p.1).bind
          (fun st' => if rd st'.l 2 = some [1, 0] then some (p.1, st') else none)
        else none)).isSome = true := by decide
  obtain ⟨⟨st, st'⟩, hp⟩ := Option.isSome_iff_exists.mp hs
  simp only [Option.bind_eq_some] at hp
  obtain ⟨⟨st0, m⟩, h0, hp⟩ := hp
  simp only at hp
  split at hp
  · rename_i hm
    simp only [Option.bind_eq_some] at hp
    obtain ⟨st1, h1, hp⟩ := hp
    split at hp
    · rename_i h2
      have hm' : m = [true, false] := hm
      subst hm'
      exact ⟨st0, st1, h0, h1, h2, degree_update bch15 (junk0 1) 1 [true, false] st0 st1 h1⟩
    · cases hp
  · cases hp

/-! ## The register modulo -/

/-- The bit pattern of `x` as an integer is `x mod 2^w`. -/
theorem bits_cast (w : Nat) (x : Int) : ((bits w x : Nat) : Int) = x % (2 : Int) ^ w := by
  unfold bits
  have hn2 : ((2 ^ w : Nat) : Int) = (2 : Int) ^ w := by push_cast; rfl
  have hpos : (0 : Int) < (2 : Int) ^ w := by positivity
  rw [hn2, Int.toNat_of_nonneg (Int.emod_nonneg x (ne_of_gt hpos))]

/-- The value `x & (2^n - 1)` formed on `w > n` bits is `x mod 2^n`, for every value `x`. -/
theorem and_mask_val (w n : Nat) (hw : n < w) (x : Int) :
    toB w ((Nat.land (bits w x) (bits w (toB w ((2 : Int) ^ n - 1))) : Nat) : Int)
      = x % (2 : Int) ^ n := by
  have hpn : (0 : Int) < (2 : Int) ^ n := by positivity
  have hle : (2 : Int) ^ n ≤ 2 ^ (w - 1) := pow_le_pow_right₀ (by norm_num) (by omega)
  have hle2 : (2 : Int) ^ (w - 1) ≤ 2 ^ w := pow_le_pow_right₀ (by norm_num) (by omega)
  have hb : bits w (toB w ((2 : Int) ^ n - 1)) = 2 ^ n - 1 := by
    rw [bits_toB]
    have h1 : ((bits w ((2 : Int) ^ n - 1) : Nat) : Int) = ((2 ^ n - 1 : Nat) : Int) := by
      rw [bits_cast, Int.emod_eq_of_lt (by omega) (by omega)]
      have : 1 ≤ 2 ^ n := Nat.one_le_two_pow
      push_cast [this]
      rfl
    exact_mod_cast h1
  rw [hb]
  have hand : Nat.land (bits w x) (2 ^ n - 1) = bits w x % 2 ^ n :=
    Nat.and_pow_two_sub_one_eq_mod _ _
  rw [hand]
  have hv : (((bits w x % 2 ^ n : Nat)) : Int) = x % (2 : Int) ^ n := by
    push_cast
    rw [bits_cast]
    exact Int.emod_emod_of_dvd x (pow_dvd_pow 2 (le_of_lt hw))
  rw [hv]
  have h0 := Int.emod_nonneg x (ne_of_gt hpn)
  have h1 := Int.emod_lt_of_pos x hpn
  have hp : (0 : Int) < 2 ^ (w - 1) := by positivity
  exact toB_of_fitsB w _ (by omega) ⟨by omega, by omega⟩

/-- A lane of `operator%(r, 2^n - 1)`: the value `x mod 2^n`. -/
theorem regMod_lane (w W n : Nat) (hw : n < w) (r : Reg) (k : Nat) (x : Int) (hk : k < W)
    (hx : r[k]? = some x) :
    (regMod w W r ((2 : Int) ^ n - 1))[k]? = some (x % (2 : Int) ^ n) := by
  unfold regMod rand
  exact (zipWith_lane _ _ _ k _).mpr ⟨x, _, hx, bcast_lane_lt _ _ _ _ hk, and_mask_val w n hw x⟩

/-- C22 (the code does not do it): the lane-wise `operator%(r, mod)` with `mod = 2^n - 1` on
a type `B` of more than `n` bits returns `r mod 2^n` in every lane, and for every lane value
`r` with `mod <= r < 2 * mod` this is not the remainder `r mod (2^n - 1)` (for `r = mod` it
is `mod`, not 0). -/
theorem register_modulo_is_bitwise_and (w W n : Nat) (r : Reg) (k : Nat) (x : Int)
    (hn : 1 ≤ n) (hw : n < w) (hk : k < W) (hx : r[k]? = some x) :
    (regMod w W r ((2 : Int) ^ n - 1))[k]? = some (x % (2 : Int) ^ n) ∧
    ((2 : Int) ^ n - 1 ≤ x → x < 2 * ((2 : Int) ^ n - 1) →
      x % (2 : Int) ^ n ≠ x % ((2 : Int) ^ n - 1)) := by
  refine ⟨regMod_lane w W n hw r k x hk hx, ?_⟩
  intro h1 h2
  have hp : (2 : Int) ≤ (2 : Int) ^ n := by
    calc (2 : Int) = 2 ^ 1 := by norm_num
      _ ≤ 2 ^ n := pow_le_pow_right₀ (by norm_num) hn
  by_cases hx0 : x = (2 : Int) ^ n - 1
  · rw [hx0, Int.emod_self, Int.emod_eq_of_lt (by omega) (by omega)]
    omega
  · have ha : x % (2 : Int) ^ n = x - 2 ^ n := by
      rw [Int.emod_eq_sub_self_emod]
      exact Int.emod_eq_of_lt (by omega) (by omega)
    have hb : x % ((2 : Int) ^ n - 1) = x - (2 ^ n - 1) := by
      rw [Int.emod_eq_sub_self_emod]
      exact Int.emod_eq_of_lt (by omega) (by omega)
    rw [ha, hb]
    omega

/-- The theorem `register_modulo_is_bitwise_and` at the modulus 15 of the (15,5) decoder:
the lane value 15 comes back as 15, the lane value 20 as 4. -/
theorem register_modulo_is_bitwise_and_witness :
    bch15.modq [15, 20] = [15, 4] ∧
    ((regMod 64 2 [15, 20] ((2 : Int) ^ 4 - 1))[0]? = some (15 % (2 : Int) ^ 4) ∧
      ((2 : Int) ^ 4 - 1 ≤ 15 → (15 : Int) < 2 * ((2 : Int) ^ 4 - 1) →
        (15 : Int) % (2 : Int) ^ 4 ≠ 15 % ((2 : Int) ^ 4 - 1))) :=
  ⟨by decide, register_modulo_is_bitwise_and 64 2 4 [15, 20] 0 15 (by decide) (by decide)
    (by decide) (by decide)⟩

/-! ## The rounds of the solver loop -/

/-- Round `n + 1` of the solver loop runs on the result of round `n` when the loop
condition holds (always for the first round). -/
theorem rounds_succ (d : Decoder) (junk : Nat → Reg) (n : Nat) (p : Scratch × Msk) :
    rounds d junk (n + 1) p =
      (rounds d junk n p).bind fun q =>
        if n = 0 ∨ (n < d.t2 ∧ ¬ testz q.2 = true) then
          solverIter d (junk (n + 1)) (n + 1) q.2 q.1
        else none := by
  simp only [rounds, Option.bind_eq_bind]

/-- The new `m_process` of a round is the old one AND `l[u+1] <= t`, with `l` as the round
leaves it. -/
theorem solverIter_mask (d : Decoder) (junk : Reg) (u : Nat) (m_process m' : Msk)
    (st st' : Scratch) (h : solverIter d junk u m_process st = some (st', m')) :
    ∃ lu1, rd st'.l (u + 1) = some lu1 ∧ m' = mand m_process (rle lu1 (d.cst d.t)) := by
  rw [solverIter_eq] at h
  simp only [Option.bind_eq_some] at h
  obtain ⟨du, _, sa, _, sb, _, lu1, _, ul, _, sc, _, lu1', hl, h⟩ := h
  simp only [Option.some.injEq, Prod.mk.injEq] at h
  obtain ⟨rfl, rfl⟩ := h
  exact ⟨lu1', hl, rfl⟩

/-- The lane-active predicate after `n` rounds. -/
theorem rounds_mask (d : Decoder) (junk : Nat → Reg) (p : Scratch × Msk) :
    ∀ (n : Nat) (q : Scratch × Msk), rounds d junk n p = some q →
      ∀ (k : Nat) (c : Bool), q.2[k]? = some c → ∃ b, p.2[k]? = some b ∧
        (c = true ↔ (b = true ∧ ∀ v, 1 ≤ v → v ≤ n → ∃ (row : Reg) (x : Int),
          rd q.1.l (v + 1) = some row ∧ row[k]? = some x ∧ x ≤ toB d.wB d.t))
  | 0, q, h, k, c, hc => by
    simp only [rounds, Option.some.injEq] at h
    subst h
    refine ⟨c, hc, ?_⟩
    constructor
    · intro h1
      exact ⟨h1, fun v hv1 hv0 => by omega⟩
    · intro h1
      exact h1.1
  | n + 1, q, h, k, c, hc => by
    rw [rounds_succ] at h
    simp only [Option.bind_eq_some] at h
    obtain ⟨⟨st, m⟩, hprev, h⟩ := h
    split at h
    · obtain ⟨st', m'⟩ := q
      simp only at h hc
      obtain ⟨lu1, hl1, rfl⟩ := solverIter_mask d _ (n + 1) m m' st st' h
      obtain ⟨_, hframe⟩ := solverIter_l_u_lu d _ (n + 1) m _ st st' h
      obtain ⟨c0, y, hc0, hy, rfl⟩ := (zipWith_lane _ _ _ k c).mp hc
      obtain ⟨x, tt, hx, htt, rfl⟩ := (zipWith_lane _ _ _ k y).mp hy
      have htt' : tt = toB d.wB d.t := bcast_lane _ _ _ _ _ htt
      subst htt'
      obtain ⟨b, hb, hiff⟩ := rounds_mask d junk p n (st, m) hprev k c0 hc0
      refine ⟨b, hb, ?_⟩
      simp only [Bool.and_eq_true, decide_eq_true_eq]
      rw [hiff]
      constructor
      · rintro ⟨⟨hb1, hall⟩, hx1⟩
        refine ⟨hb1, fun v hv1 hv2 => ?_⟩
        by_cases hv : v = n + 1
        · subst hv
          exact ⟨lu1, x, hl1, hx, hx1⟩
        · obtain ⟨row, x', hrow, hx', hle⟩ := hall v hv1 (by omega)
          exact ⟨row, x', by rw [(hframe (v + 1) (by omega)).1]; exact hrow, hx', hle⟩
      · rintro ⟨hb1, hall⟩
        refine ⟨⟨hb1, fun v hv1 hv2 => ?_⟩, ?_⟩
        · obtain ⟨row, x', hrow, hx', hle⟩ := hall v hv1 (by omega)
          exact ⟨row, x', by rw [← (hframe (v + 1) (by omega)).1]; exact hrow, hx', hle⟩
        · obtain ⟨row, x', hrow, hx', hle⟩ := hall (n + 1) (by omega) (le_refl _)
          rw [hl1] at hrow
          cases Option.some.inj hrow
          rw [hx] at hx'
          cases Option.some.inj hx'
          exact hle
    · cases h

/-- A lane that is active after a round was active before it. -/
theorem rounds_mask_mono (d : Decoder) (junk : Nat → Reg) (p : Scratch × Msk) (n : Nat)
    (q q' : Scratch × Msk) (h : rounds d junk n p = some q)
    (h' : rounds d junk (n + 1) p = some q') (k : Nat) (hk : q'.2[k]? = some true) :
    q.2[k]? = some true := by
  rw [rounds_succ, h] at h'
  simp only [Option.some_bind] at h'
  split at h'
  · obtain ⟨st', m'⟩ := q'
    obtain ⟨lu1, _, rfl⟩ := solverIter_mask d _ (n + 1) q.2 m' q.1 st' h'
    obtain ⟨c0, y, hc0, _, hcy⟩ := (zipWith_lane _ _ _ k true).mp hk
    have : c0 = true := by
      cases c0
      · simp at hcy
      · rfl
    rw [hc0, this]
  · cases h'

/-- The rounds before round `n` ran, each under the loop condition. -/
theorem rounds_prefix (d : Decoder) (junk : Nat → Reg) (p : Scratch × Msk) :
    ∀ (n : Nat) (q : Scratch × Msk), rounds d junk n p = some q →
      ∀ v, v < n → ∃ qv, rounds d junk v p = some qv ∧
        (v = 0 ∨ (v < d.t2 ∧ testz qv.2 = false))
  | 0, _, _, v, hv => by omega
  | n + 1, q, h, v, hv => by
    rw [rounds_succ] at h
    simp only [Option.bind_eq_some] at h
    obtain ⟨qn, hprev, h⟩ := h
    by_cases hvn : v = n
    · subst hvn
      refine ⟨qn, hprev, ?_⟩
      split at h
      · rename_i hc
        rcases hc with hc | ⟨hc1, hc2⟩
        · exact Or.inl hc
        · exact Or.inr ⟨hc1, by simpa using hc2⟩
      · cases h
    · exact rounds_prefix d junk p n qn hprev v (by omega)

/-- The solver loop, entered after `u` rounds with enough fuel: a result is the state of
the first round `n > u` after which the loop condition fails, and there is no result only
when a round has none. -/
theorem solverLoop_rounds (d : Decoder) (junk : Nat → Reg) (p : Scratch × Msk) :
    ∀ (fuel u : Nat) (st : Scratch) (m : Msk), rounds d junk u p = some (st, m) →
      (u = 0 ∨ (u < d.t2 ∧ testz m = false)) → max 1 d.t2 ≤ fuel + u →
      (∀ n m' st', solverLoop d junk fuel u m st = some (n, m', st') →
        u < n ∧ n ≤ max 1 d.t2 ∧ rounds d junk n p = some (st', m') ∧
          ¬ (n < d.t2 ∧ testz m' = false)) ∧
      (solverLoop d junk fuel u m st = none →
        ∃ n sv mv, n < max 1 d.t2 ∧ rounds d junk n p = some (sv, mv) ∧
          (n = 0 ∨ (n < d.t2 ∧ testz mv = false)) ∧
          solverIter d (junk (n + 1)) (n + 1) mv sv = none)
  | 0, u, st, m, _, hc, hf => by
    exfalso
    rcases hc with hc | ⟨hc, _⟩
    · subst hc
      have := le_max_left 1 d.t2
      omega
    · have := le_max_right 1 d.t2
      omega
  | fuel + 1, u, st, m, hr, hc, hf => by
    have hu : u < max 1 d.t2 := by
      rcases hc with hc | ⟨hc, _⟩
      · subst hc
        exact lt_of_lt_of_le Nat.zero_lt_one (le_max_left 1 d.t2)
      · exact lt_of_lt_of_le hc (le_max_right 1 d.t2)
    have hcond : (u = 0 ∨ (u < d.t2 ∧ ¬ testz m = true)) := by
      rcases hc with hc | ⟨hc1, hc2⟩
      · exact Or.inl hc
      · exact Or.inr ⟨hc1, by simp [hc2]⟩
    have hnext : rounds d junk (u + 1) p = solverIter d (junk (u + 1)) (u + 1) m st := by
      rw [rounds_succ, hr]
      simp only [Option.some_bind]
      rw [if_pos hcond]
    cases hit : solverIter d (junk (u + 1)) (u + 1) m st with
    | none =>
      have hloop : solverLoop d junk (fuel + 1) u m st = none := by
        simp [solverLoop, hit]
      refine ⟨fun n m' st' h => ?_, fun _ => ⟨u, st, m, hu, hr, hc, hit⟩⟩
      rw [hloop] at h
      cases h
    | some q =>
      obtain ⟨st1, m1⟩ := q
      rw [hit] at hnext
      by_cases hgo : u + 1 < d.t2 ∧ ¬ testz m1 = true
      · have hloop : solverLoop d junk (fuel + 1) u m st =
            solverLoop d junk fuel (u + 1) m1 st1 := by
          simp only [solverLoop, hit, Option.bind_eq_bind, Option.some_bind]
          rw [if_pos hgo]
        have hc' : (u + 1 = 0 ∨ (u + 1 < d.t2 ∧ testz m1 = false)) :=
          Or.inr ⟨hgo.1, by simpa using hgo.2⟩
        obtain ⟨ih1, ih2⟩ := solverLoop_rounds d junk p fuel (u + 1) st1 m1 hnext hc'
          (by omega)
        rw [hloop]
        refine ⟨fun n m' st' h => ?_, ih2⟩
        obtain ⟨a, b, c, e⟩ := ih1 n m' st' h
        exact ⟨by omega, b, c, e⟩
      · have hloop : solverLoop d junk (fuel + 1) u m st = some (u + 1, m1, st1) := by
          simp only [solverLoop, hit, Option.bind_eq_bind, Option.some_bind]
          rw [if_neg hgo]
          rfl
        rw [hloop]
        refine ⟨fun n m' st' h => ?_, fun h => by cases h⟩
        simp only [Option.some.injEq, Prod.mk.injEq] at h
        obtain ⟨rfl, rfl, rfl⟩ := h
        refine ⟨by omega, by omega, hnext, ?_⟩
        intro hx
        exact hgo ⟨hx.1, by simp [hx.2]⟩

/-- A write into a row of `elp` keeps the length of every row. -/
theorem wr2_rows (a a' : List (List Reg)) (u i : Nat) (v : Reg) (n : Nat)
    (h : wr2 a u i v = some a') (hrows : ∀ row ∈ a, row.length ≤ n) :
    ∀ row ∈ a', row.length ≤ n := by
  simp only [wr2, Option.bind_eq_bind, Option.bind_eq_some] at h
  obtain ⟨r, hr, r', hr', h⟩ := h
  obtain ⟨_, rfl⟩ := wr_eq_some hr'
  obtain ⟨_, rfl⟩ := wr_eq_some h
  intro row hrow
  rcases List.mem_or_eq_of_mem_set hrow with h1 | h1
  · exact hrows row h1
  · subst h1
    rw [List.length_set]
    exact hrows r (List.get?_mem hr)

/-- The loop `while(!mipp::testz(m_lu))` does not depend on the bound of its rounds: on
rows of at most `N_p2_1` entries a round at `i >= N_p2_1` leaves the loop or the array. -/
theorem whileLu_fuel (d : Decoder) (u : Nat) (m_disc : Msk) :
    ∀ (F i : Nat) (st : Scratch), (∀ row ∈ st.elp, row.length ≤ d.N_p2_1) → 1 ≤ F →
      d.N_p2_1 + 1 ≤ F + i →
      whileLu d u m_disc (F + 1) i st = whileLu d u m_disc F i st
  | 0, _, _, _, hF, _ => by omega
  | F + 1, i, st, hrows, _, hFi => by
    rw [whileLu]
    conv_rhs => rw [whileLu]
    simp only [Option.bind_eq_bind]
    cases hl : rd st.l u with
    | none => rfl
    | some lu =>
      simp only [Option.some_bind]
      split
      · rfl
      · cases he : rd2 st.elp u i with
        | none => rfl
        | some eu =>
          simp only [Option.some_bind]
          cases he1 : rd2 st.elp (u + 1) i with
          | none => rfl
          | some eu1 =>
            simp only [Option.some_bind]
            cases hw1 : wr2 st.elp (u + 1) i (blend eu eu1 (mand (rge lu (d.cst i)) m_disc)) with
            | none => rfl
            | some elp1 =>
              simp only [Option.some_bind]
              cases he2 : rd2 elp1 u i with
              | none => rfl
              | some eu' =>
                simp only [Option.some_bind]
                cases hcv : read_array d.index_of (d.modq eu') with
                | none => rfl
                | some conv =>
                  simp only [Option.some_bind]
                  cases hw2 : wr2 elp1 u i (blend conv eu' (mand (rge lu (d.cst i)) m_disc)) with
                  | none => rfl
                  | some elp2 =>
                    simp only [Option.some_bind]
                    have hr1 := wr2_rows _ _ _ _ _ _ hw1 hrows
                    have hr2 := wr2_rows _ _ _ _ _ _ hw2 hr1
                    have hi : i < d.N_p2_1 := by
                      simp only [rd2, Option.bind_eq_bind, Option.bind_eq_some] at he
                      obtain ⟨row, hrow, hx⟩ := he
                      have h1 := hrows row (List.get?_mem hrow)
                      unfold rd at hx
                      have h2 : i < row.length := by
                        by_contra hcon
                        rw [List.get?_eq_none.mpr (by omega)] at hx
                        cases hx
                      omega
                    exact whileLu_fuel d u m_disc F (i + 1) _ hr2 (by omega) (by omega)

/-! ## Sizes of registers and arrays -/

/-- The width of `blend`. -/
theorem length_blend : ∀ (a b : Reg) (m : Msk),
    (blend a b m).length = min a.length (min b.length m.length)
  | [], _, _ => by simp [blend]
  | _ :: _, [], _ => by simp [blend]
  | _ :: _, _ :: _, [] => by simp [blend]
  | x :: a, y :: b, c :: m => by
    simp only [blend, List.length_cons, length_blend a b m]
    omega

/-- The width of a constant register. -/
theorem length_bcast (w W : Nat) (x : Int) : (bcast w W x).length = W := by
  simp [bcast]

/-- A table lookup in every lane succeeds when every lane holds an index of the table. -/
theorem read_array_total (table : List Int) : ∀ (r : Reg),
    (∀ x ∈ r, 0 ≤ x ∧ x < (table.length : Int)) →
    ∃ vs, read_array table r = some vs ∧ vs.length = r.length
  | [], _ => ⟨[], rfl, rfl⟩
  | i :: is, h => by
    obtain ⟨h0, h1⟩ := h i (List.mem_cons_self i is)
    obtain ⟨vs, hvs, hl⟩ := read_array_total table is
      (fun x hx => h x (List.mem_cons_of_mem i hx))
    have hlt : i.toNat < table.length := by omega
    refine ⟨table[i.toNat] :: vs, ?_, by simp [hl]⟩
    simp [read_array, rdI, h0, hvs, List.get?_eq_getElem?, List.getElem?_eq_getElem hlt]

/-- Reading inside an array. -/
theorem rd_of_lt {α : Type} (a : List α) (i : Nat) (h : i < a.length) :
    rd a i = some a[i] := by
  simp [rd, List.get?_eq_getElem?, List.getElem?_eq_getElem h]

/-- Writing inside an array. -/
theorem wr_of_lt {α : Type} (a : List α) (i : Nat) (v : α) (h : i < a.length) :
    wr a i v = some (a.set i v) := by
  simp [wr, h]

/-- Reading a register of a sized array. -/
theorem rd_regs (d : Decoder) (n : Nat) (a : List Reg) (i : Nat) (h : Regs d n a)
    (hi : i < n) : ∃ r, rd a i = some r ∧ r.length = d.W := by
  have hlt : i < a.length := by rw [h.1]; exact hi
  exact ⟨a[i], rd_of_lt a i hlt, h.2 _ (List.getElem_mem hlt)⟩

/-- A register read from a sized array has `W` lanes. -/
theorem length_of_rd (d : Decoder) (n : Nat) (a : List Reg) (i : Nat) (r : Reg)
    (h : Regs d n a) (hr : rd a i = some r) : r.length = d.W :=
  h.2 r (List.get?_mem hr)

/-- Replacing a register of a sized array by one of `W` lanes. -/
theorem regs_set (d : Decoder) (n : Nat) (a : List Reg) (i : Nat) (v : Reg) (h : Regs d n a)
    (hv : v.length = d.W) : Regs d n (a.set i v) := by
  refine ⟨by rw [List.length_set]; exact h.1, fun r hr => ?_⟩
  rcases List.mem_or_eq_of_mem_set hr with h1 | h1
  · exact h.2 r h1
  · rw [h1]; exact hv

/-- Writing a register of `W` lanes into a sized array. -/
theorem wr_regs (d : Decoder) (n : Nat) (a : List Reg) (i : Nat) (v : Reg) (h : Regs d n a)
    (hi : i < n) (hv : v.length = d.W) : ∃ a', wr a i v = some a' ∧ Regs d n a' :=
  ⟨a.set i v, wr_of_lt a i v (by rw [h.1]; exact hi), regs_set d n a i v h hv⟩

/-- The rows of `elp`: `n` rows of `c` registers. -/
theorem rows_set (d : Decoder) (n c : Nat) (a : List (List Reg)) (u : Nat) (row : List Reg)
    (h : a.length = n ∧ ∀ r ∈ a, Regs d c r) (hrow : Regs d c row) :
    (a.set u row).length = n ∧ ∀ r ∈ a.set u row, Regs d c r := by
  refine ⟨by rw [List.length_set]; exact h.1, fun r hr => ?_⟩
  rcases List.mem_or_eq_of_mem_set hr with h1 | h1
  · exact h.2 r h1
  · rw [h1]; exact hrow

/-- Reading an entry of `elp`. -/
theorem rd2_rows (d : Decoder) (n c : Nat) (a : List (List Reg)) (u i : Nat)
    (h : a.length = n ∧ ∀ r ∈ a, Regs d c r) (hu : u < n) (hi : i < c) :
    ∃ r, rd2 a u i = some r ∧ r.length = d.W := by
  have hlt : u < a.length := by rw [h.1]; exact hu
  obtain ⟨r, hr, hl⟩ := rd_regs d c a[u] i (h.2 _ (List.getElem_mem hlt)) hi
  exact ⟨r, by simp [rd2, rd_of_lt a u hlt, hr], hl⟩

/-- Writing an entry of `elp`. -/
theorem wr2_rows_total (d : Decoder) (n c : Nat) (a : List (List Reg)) (u i : Nat) (v : Reg)
    (h : a.length = n ∧ ∀ r ∈ a, Regs d c r) (hu : u < n) (hi : i < c) (hv : v.length = d.W) :
    ∃ a', wr2 a u i v = some a' ∧ (a'.length = n ∧ ∀ r ∈ a', Regs d c r) := by
  have hlt : u < a.length := by rw [h.1]; exact hu
  have hrow := h.2 _ (List.getElem_mem hlt)
  obtain ⟨row', hw, hrow'⟩ := wr_regs d c a[u] i v hrow hi hv
  refine ⟨a.set u row', ?_, rows_set d n c a u row' h hrow'⟩
  simp [wr2, rd_of_lt a u hlt, hw, wr_of_lt a u row' hlt]

/-- A loop in the `Option` monad returns when every round returns; an invariant of the
rounds holds for the result. -/
theorem foldlM_total {σ α : Type} (f : σ → α → Option σ) (I : σ → Prop) :
    ∀ (l : List α), (∀ s a, a ∈ l → I s → ∃ s', f s a = some s' ∧ I s') →
      ∀ init, I init → ∃ r, l.foldlM f init = some r ∧ I r
  | [], _, init, hi => ⟨init, rfl, hi⟩
  | a :: l, hstep, init, hi => by
    obtain ⟨s1, h1, hi1⟩ := hstep init a (List.mem_cons_self a l) hi
    obtain ⟨r, hr, hir⟩ := foldlM_total f I l
      (fun s b hb => hstep s b (List.mem_cons_of_mem a hb)) s1 hi1
    exact ⟨r, by simp [List.foldlM_cons, h1, hr], hir⟩

/-- A mask that is not empty has a lane that holds. -/
theorem exists_of_testz_false (m : Msk) (h : ¬ testz m = true) :
    ∃ k : Nat, m[k]? = some true := by
  unfold testz at h
  simp only [List.all_eq_true, Bool.not_eq_true', not_forall] at h
  obtain ⟨x, hx, hne⟩ := h
  have hx' : x = true := by
    cases x
    · exact absurd rfl hne
    · rfl
  subst hx'
  obtain ⟨k, hk⟩ := List.mem_iff_getElem?.mp hx
  exact ⟨k, hk⟩

/-- The horizontal maximum of lanes bounded by `b >= 0`. -/
theorem hmax_le (r : Reg) (b : Int) (hb : 0 ≤ b) (h : ∀ x ∈ r, x ≤ b) : hmax r ≤ b := by
  cases r with
  | nil => exact hb
  | cons x xs =>
    unfold hmax
    have : ∀ (ys : List Int) (acc : Int), acc ≤ b → (∀ y ∈ ys, y ≤ b) → ys.foldl max acc ≤ b := by
      intro ys
      induction ys with
      | nil => intro acc ha _; exact ha
      | cons y ys ih =>
        intro acc ha hy
        simp only [List.foldl_cons]
        exact ih (max acc y) (max_le ha (hy y (List.mem_cons_self y ys)))
          (fun z hz => hy z (List.mem_cons_of_mem y hz))
    exact this xs x (h x (List.mem_cons_self x xs)) (fun y hy => h y (List.mem_cons_of_mem x hy))

/-- The horizontal maximum of lanes that are all zero. -/
theorem hmax_zero (r : Reg) (h : ∀ x ∈ r, x = 0) : hmax r = 0 := by
  cases r with
  | nil => rfl
  | cons x xs =>
    unfold hmax
    have : ∀ (ys : List Int), (∀ y ∈ ys, y = 0) → ys.foldl max 0 = 0 := by
      intro ys
      induction ys with
      | nil => intro _; rfl
      | cons y ys ih =>
        intro hy
        simp only [List.foldl_cons]
        rw [hy y (List.mem_cons_self y ys), max_self]
        exact ih (fun z hz => hy z (List.mem_cons_of_mem y hz))
    rw [h x (List.mem_cons_self x xs)]
    exact this xs (fun y hy => h y (List.mem_cons_of_mem x hy))

/-- A natural number below `2^(w-1)` is its own conversion to `B`. -/
theorem toB_nat (w n : Nat) (hw : 1 ≤ w) (h : (n : Int) < (2 : Int) ^ (w - 1)) :
    toB w (n : Int) = n := by
  have hp : (0 : Int) < 2 ^ (w - 1) := by positivity
  exact toB_of_fitsB w _ hw ⟨by omega, h⟩

/-- The value `-1` of `B`. -/
theorem toB_neg_one (w : Nat) (hw : 1 ≤ w) : toB w (-1) = -1 := by
  have hp : (0 : Int) < 2 ^ (w - 1) := by positivity
  exact toB_of_fitsB w _ hw ⟨by omega, by omega⟩

/-- A lane-wise operation on two registers of `W` lanes gives `W` lanes. -/
theorem length_zipWith_eq {α β γ : Type} (f : α → β → γ) (a : List α) (b : List β) (W : Nat)
    (ha : a.length = W) (hb : b.length = W) : (List.zipWith f a b).length = W := by
  simp [List.length_zipWith, ha, hb]

/-- Selection between registers of `W` lanes gives `W` lanes. -/
theorem length_blend_eq (a b : Reg) (m : Msk) (W : Nat) (ha : a.length = W)
    (hb : b.length = W) (hm : m.length = W) : (blend a b m).length = W := by
  simp [length_blend, ha, hb, hm]

/-- An element of a lane-wise operation comes from two lanes. -/
theorem mem_zipWith_elim {α β γ : Type} (f : α → β → γ) (a : List α) (b : List β) (z : γ)
    (h : z ∈ List.zipWith f a b) : ∃ x y, x ∈ a ∧ y ∈ b ∧ f x y = z := by
  obtain ⟨k, hk⟩ := List.mem_iff_getElem?.mp h
  obtain ⟨x, y, hx, hy, hf⟩ := (zipWith_lane f a b k z).mp hk
  exact ⟨x, y, List.getElem?_mem hx, List.getElem?_mem hy, hf⟩

/-- A lane of `blend` is a lane of one of the two registers. -/
theorem mem_blend (a b : Reg) (m : Msk) (z : Int) (h : z ∈ blend a b m) : z ∈ a ∨ z ∈ b := by
  obtain ⟨k, hk⟩ := List.mem_iff_getElem?.mp h
  obtain ⟨x, y, c, hx, hy, _, rfl⟩ := (blend_lane a b m k z).mp hk
  cases c
  · exact Or.inr (List.getElem?_mem hy)
  · exact Or.inl (List.getElem?_mem hx)

/-- A lane of a constant register is the constant. -/
theorem mem_bcast (w W : Nat) (x z : Int) (h : z ∈ bcast w W x) : z = toB w x := by
  unfold bcast at h
  exact (List.mem_replicate.mp h).2

/-- The constants of an accepted configuration. -/
theorem accepted_bounds (d : Decoder) (m : Nat) (ha : Accepted d m) :
    1 ≤ d.wB ∧ ((d.N_p2_1 : Nat) : Int) = (2 : Int) ^ m - 1 ∧
      (2 : Int) ^ m ≤ (2 : Int) ^ (d.wB - 1) ∧ d.t2 < d.N_p2_1 ∧ 2 ≤ d.t2 ∧
      ((d.N_p2_1 : Nat) : Int) < (2 : Int) ^ (d.wB - 1) := by
  obtain ⟨hN, hm, hw, ht, htK, _, _, _, _⟩ := ha
  have hodd : d.t2 ≠ d.N_p2_1 := by
    intro h
    cases m with
    | zero =>
      unfold Decoder.t2 at h
      simp only [pow_zero] at hm
      omega
    | succ m' =>
      rw [pow_succ] at hm
      unfold Decoder.t2 at h
      omega
  have h1 : ((d.N_p2_1 : Nat) : Int) = (2 : Int) ^ m - 1 := by
    have : ((d.N_p2_1 + 1 : Nat) : Int) = ((2 ^ m : Nat) : Int) := by rw [hm]
    push_cast at this
    omega
  have h2 : (2 : Int) ^ m ≤ (2 : Int) ^ (d.wB - 1) :=
    pow_le_pow_right₀ (by norm_num) (by omega)
  refine ⟨by omega, h1, h2, by omega, by unfold Decoder.t2; omega, by omega⟩

/-- Every lane of `r % N_p2_1` is an index of the tables: it lies in `[0, 2^m - 1]`,
whatever `r` holds. -/
theorem modq_mem (d : Decoder) (m : Nat) (ha : Accepted d m) (r : Reg) :
    ∀ x ∈ d.modq r, 0 ≤ x ∧ x < (2 : Int) ^ m := by
  obtain ⟨_, hN, _, _, _, _⟩ := accepted_bounds d m ha
  intro x hx
  unfold Decoder.modq regMod rand at hx
  obtain ⟨y, z, _, hz, rfl⟩ := mem_zipWith_elim _ _ _ _ hx
  have hz' := mem_bcast _ _ _ _ hz
  subst hz'
  rw [hN, and_mask_val d.wB m ha.2.2.1 y]
  have hp : (0 : Int) < (2 : Int) ^ m := by positivity
  exact ⟨Int.emod_nonneg y (ne_of_gt hp), Int.emod_lt_of_pos y hp⟩

/-- The width of `r % N_p2_1`. -/
theorem length_modq (d : Decoder) (r : Reg) (h : r.length = d.W) : (d.modq r).length = d.W := by
  unfold Decoder.modq regMod rand
  exact length_zipWith_eq _ _ _ _ h (length_bcast _ _ _)

/-- A table lookup at `r % N_p2_1` succeeds in every lane. -/
theorem read_array_modq (d : Decoder) (m : Nat) (ha : Accepted d m) (table : List Int)
    (ht : table.length = 2 ^ m) (r : Reg) (h : r.length = d.W) :
    ∃ vs, read_array table (d.modq r) = some vs ∧ vs.length = d.W := by
  obtain ⟨vs, hvs, hl⟩ := read_array_total table (d.modq r) (fun x hx => by
    have := modq_mem d m ha r x hx
    rw [ht]
    push_cast
    exact this)
  exact ⟨vs, hvs, by rw [hl]; exact length_modq d r h⟩

/-- The XOR of two values in `[0, 2^n - 1]`, formed on `w > n` bits, is in `[0, 2^n - 1]`. -/
theorem xor_range (w n : Nat) (hn : n < w) (x y : Int) (hx0 : 0 ≤ x) (hx1 : x < (2 : Int) ^ n)
    (hy0 : 0 ≤ y) (hy1 : y < (2 : Int) ^ n) :
    0 ≤ toB w ((Nat.xor (bits w x) (bits w y) : Nat) : Int) ∧
      toB w ((Nat.xor (bits w x) (bits w y) : Nat) : Int) < (2 : Int) ^ n := by
  have hle : (2 : Int) ^ n ≤ 2 ^ (w - 1) := pow_le_pow_right₀ (by norm_num) (by omega)
  obtain ⟨he, h0, _⟩ := xor_lane_val w (by omega) x y hx0 (by omega) hy0 (by omega)
  rw [he]
  refine ⟨h0, ?_⟩
  unfold fxor
  have hxn : x.toNat < 2 ^ n := by
    have : ((x.toNat : Nat) : Int) < ((2 ^ n : Nat) : Int) := by
      rw [Int.toNat_of_nonneg hx0]; push_cast; exact hx1
    exact_mod_cast this
  have hyn : y.toNat < 2 ^ n := by
    have : ((y.toNat : Nat) : Int) < ((2 ^ n : Nat) : Int) := by
      rw [Int.toNat_of_nonneg hy0]; push_cast; exact hy1
    exact_mod_cast this
  have hlt : Nat.xor x.toNat y.toNat < 2 ^ n := Nat.xor_lt_two_pow hxn hyn
  exact_mod_cast hlt

/-- The inner loop of the syndromes returns a register of `W` lanes with values in
`[0, 2^m - 1]`. -/
theorem synInner_total (d : Decoder) (m : Nat) (ha : Accepted d m) (Y : List Reg)
    (hY : Regs d d.N Y) (i : Nat) (si : Reg) (hsi : si.length = d.W)
    (hval : ∀ x ∈ si, 0 ≤ x ∧ x < (2 : Int) ^ m) :
    ∃ acc, synInner d Y i si = some acc ∧ acc.length = d.W ∧
      ∀ x ∈ acc, 0 ≤ x ∧ x < (2 : Int) ^ m := by
  obtain ⟨hw, hN, hle, ht2, _, _⟩ := accepted_bounds d m ha
  have hp : (0 : Int) < (2 : Int) ^ m := by positivity
  unfold synInner
  refine foldlM_total _ (fun acc => acc.length = d.W ∧ ∀ x ∈ acc, 0 ≤ x ∧ x < (2 : Int) ^ m)
    _ ?_ si ⟨hsi, hval⟩
  intro acc j hj ⟨hlen, hv⟩
  have hjN : j < d.N := List.mem_range.mp hj
  have hidx : (i * j) % d.N_p2_1 < d.alpha_to.length := by
    rw [ha.2.2.2.2.2.1, ← ha.2.1]
    exact Nat.lt_succ_of_lt (Nat.mod_lt _ (by omega))
  obtain ⟨y, hy, hyl⟩ := rd_regs d d.N Y j hY hjN
  have hamem : d.alpha_to[(i * j) % d.N_p2_1] ∈ d.alpha_to := List.getElem_mem hidx
  obtain ⟨a0, a1⟩ := ha.2.2.2.2.2.2.2.1 _ hamem
  refine ⟨rxor d.wB acc (blend (d.cst d.alpha_to[(i * j) % d.N_p2_1]) (r_zero d)
    (rne y (r_zero d))), by simp only [rd_of_lt _ _ hidx, hy, Option.bind_eq_bind,
    Option.some_bind, Option.pure_def], ?_, ?_⟩
  · unfold rxor
    exact length_zipWith_eq _ _ _ _ hlen (length_blend_eq _ _ _ _ (length_bcast _ _ _)
      (length_bcast _ _ _) (length_zipWith_eq _ _ _ _ hyl (length_bcast _ _ _)))
  · intro x hx
    unfold rxor at hx
    obtain ⟨p, q, hp', hq, rfl⟩ := mem_zipWith_elim _ _ _ _ hx
    obtain ⟨p0, p1⟩ := hv p hp'
    have hq' : 0 ≤ q ∧ q < (2 : Int) ^ m := by
      rcases mem_blend _ _ _ _ hq with h1 | h1
      · have := mem_bcast _ _ _ _ h1
        rw [this, toB_of_fitsB d.wB _ hw ⟨by
          have : (0 : Int) < 2 ^ (d.wB - 1) := by positivity
          omega, by omega⟩]
        exact ⟨a0, a1⟩
      · have := mem_bcast _ _ _ _ h1
        rw [this, toB_zero]
        exact ⟨le_refl 0, hp⟩
    exact xor_range d.wB m ha.2.2.1 p q p0 p1 hq'.1 hq'.2

/-- The lanes of the zero register. -/
theorem mem_r_zero (d : Decoder) (x : Int) (h : x ∈ r_zero d) : x = 0 := by
  unfold r_zero at h
  rw [mem_bcast _ _ _ _ h, toB_zero]

/-- The syndrome loop returns after its rounds `1..n`, for `n <= 2t`. -/
theorem formSyndromes_total_rounds (d : Decoder) (m : Nat) (ha : Accepted d m) (st : Scratch)
    (hY : Regs d d.N st.Y_N_reorderered) (hs : st.s.length = d.t2 + 1) :
    ∀ (n : Nat), n ≤ d.t2 → ∃ (s : List Reg) (syn : Msk),
      (List.range' 1 n).foldlM (fun (p : List Reg × Msk) (i : Nat) => do
        let si ← rd p.1 i
        let si ← synInner d st.Y_N_reorderered i si
        let syn_error := mor p.2 (rne si (r_zero d))
        let sidx ← read_array d.index_of si
        let s ← wr p.1 i sidx
        pure (s, syn_error))
        (List.replicate st.s.length (r_zero d), rne (r_zero d) (r_zero d)) = some (s, syn) ∧
      Regs d (d.t2 + 1) s ∧ syn.length = d.W ∧
      ∀ i, n < i → i < d.t2 + 1 → s[i]? = some (r_zero d)
  | 0, _ => by
    refine ⟨List.replicate st.s.length (r_zero d), rne (r_zero d) (r_zero d), rfl, ?_, ?_, ?_⟩
    · refine ⟨by simp [hs], fun r hr => ?_⟩
      rw [(List.mem_replicate.mp hr).2]
      exact length_bcast _ _ _
    · unfold rne
      exact length_zipWith_eq _ _ _ _ (length_bcast _ _ _) (length_bcast _ _ _)
    · intro i _ hi
      rw [List.getElem?_replicate, if_pos (by rw [hs]; exact hi)]
  | n + 1, hn => by
    obtain ⟨s0, syn0, h0, hregs, hsyn, hrest⟩ :=
      formSyndromes_total_rounds d m ha st hY hs n (by omega)
    have hp : (0 : Int) < (2 : Int) ^ m := by positivity
    have hlt : n + 1 < s0.length := by rw [hregs.1]; omega
    have hsi : rd s0 (n + 1) = some (r_zero d) := by
      unfold rd
      rw [List.get?_eq_getElem?]
      exact hrest (n + 1) (by omega) (by omega)
    obtain ⟨acc, hacc, hal, hav⟩ := synInner_total d m ha st.Y_N_reorderered hY (n + 1)
      (r_zero d) (length_bcast _ _ _) (fun x hx => by
        rw [mem_r_zero d x hx]
        exact ⟨le_refl 0, hp⟩)
    obtain ⟨sidx, hsidx, hsl⟩ := read_array_total d.index_of acc (fun x hx => by
      have := hav x hx
      rw [ha.2.2.2.2.2.2.1]
      push_cast
      exact this)
    refine ⟨s0.set (n + 1) sidx, mor syn0 (rne acc (r_zero d)), ?_, ?_, ?_, ?_⟩
    · have h1 : 1 + 1 * n = n + 1 := by omega
      rw [List.range'_concat, List.foldlM_append, h0, h1]
      simp only [Option.bind_eq_bind, Option.some_bind, List.foldlM_cons, List.foldlM_nil,
        hsi, hacc, hsidx, wr_of_lt s0 (n + 1) sidx hlt, Option.pure_def]
    · exact regs_set d _ s0 (n + 1) sidx hregs (by rw [hsl]; exact hal)
    · unfold mor rne
      exact length_zipWith_eq _ _ _ _ hsyn
        (length_zipWith_eq _ _ _ _ hal (length_bcast _ _ _))
    · intro i hi hi2
      rw [List.getElem?_set, if_neg (by omega)]
      exact hrest i (by omega) hi2

/-- The syndromes are formed without leaving an array; `s` keeps its size and `syn_error`
has `W` lanes. -/
theorem formSyndromes_total (d : Decoder) (m : Nat) (ha : Accepted d m) (st : Scratch)
    (hY : Regs d d.N st.Y_N_reorderered) (hs : st.s.length = d.t2 + 1) :
    ∃ (s : List Reg) (syn : Msk), formSyndromes d st = some (s, syn) ∧
      Regs d (d.t2 + 1) s ∧ syn.length = d.W := by
  obtain ⟨s, syn, h, h1, h2, _⟩ := formSyndromes_total_rounds d m ha st hY hs d.t2 (le_refl _)
  exact ⟨s, syn, h, h1, h2⟩

/-- The table entries are initialised without leaving an array; the arrays keep their
sizes, and `l[0] = 0`, `u_lu[0] = -1`, `discrepancy[0] = 0`, `l[1] = 0`, `u_lu[1] = 0` in
every lane. -/
theorem initTables_total (d : Decoder) (m : Nat) (ha : Accepted d m) (st : Scratch)
    (hst : Sized d st) :
    ∃ st', initTables d st = some st' ∧ Sized d st' ∧ st'.s = st.s ∧
      rd st'.discrepancy 0 = some (r_zero d) := by
  obtain ⟨hw, hN, hle, ht2, ht22, _⟩ := accepted_bounds d m ha
  obtain ⟨hY, help, hdisc, hl, hul, hs, hreg⟩ := hst
  have hz : (r_zero d).length = d.W := length_bcast _ _ _
  have ho : (r_one d).length = d.W := length_bcast _ _ _
  have hmo : (r_mone d).length = d.W := length_bcast _ _ _
  obtain ⟨dc1, hdc1, hdc1r⟩ := wr_regs d _ st.discrepancy 0 (r_zero d) hdisc (by omega) hz
  obtain ⟨s1, hs1, hs1l⟩ := rd_regs d _ st.s 1 hs (by omega)
  obtain ⟨dc2, hdc2, hdc2r⟩ := wr_regs d _ dc1 1 s1 hdc1r (by omega) hs1l
  obtain ⟨e1, he1, he1r⟩ := wr2_rows_total d _ _ st.elp 0 0 (r_zero d) help (by omega)
    (by omega) hz
  obtain ⟨e2, he2, he2r⟩ := wr2_rows_total d _ _ e1 1 0 (r_one d) he1r (by omega) (by omega) ho
  obtain ⟨e3, he3, he3r⟩ := foldlM_total (fun e (i : Nat) => do
      let e ← wr2 e 0 i (r_mone d)
      wr2 e 1 i (r_zero d))
    (fun e => e.length = d.N_p2_1 + 2 ∧ ∀ r ∈ e, Regs d d.N_p2_1 r) (List.range' 1 (d.t2 - 1))
    (fun e i hi he => by
      have hi' : i < d.N_p2_1 := by
        have := (List.mem_range'_1.mp hi).2
        omega
      obtain ⟨ea, hea, hear⟩ := wr2_rows_total d _ _ e 0 i (r_mone d) he (by omega) hi' hmo
      obtain ⟨eb, heb, hebr⟩ := wr2_rows_total d _ _ ea 1 i (r_zero d) hear (by omega) hi' hz
      exact ⟨eb, by simp only [hea, heb, Option.bind_eq_bind, Option.some_bind], hebr⟩)
    e2 he2r
  obtain ⟨l1, hl1, hl1r⟩ := wr_regs d _ st.l 0 (r_zero d) hl (by omega) hz
  obtain ⟨l2, hl2, hl2r⟩ := wr_regs d _ l1 1 (r_zero d) hl1r (by omega) hz
  obtain ⟨u1, hu1, hu1r⟩ := wr_regs d _ st.u_lu 0 (r_mone d) hul (by omega) hmo
  obtain ⟨u2, hu2, hu2r⟩ := wr_regs d _ u1 1 (r_zero d) hu1r (by omega) hz
  simp only [Option.bind_eq_bind] at he3
  refine ⟨{ st with discrepancy := dc2, elp := e3, l := l2, u_lu := u2 }, ?_,
    ⟨hY, he3r, hdc2r, hl2r, hu2r, hs, hreg⟩, rfl, ?_⟩
  · simp only [initTables, hdc1, hs1, hdc2, he1, he2, he3, hl1, hl2, hu1, hu2,
      Option.bind_eq_bind, Option.some_bind, Option.pure_def]
  · obtain ⟨a1, rfl⟩ := wr_eq_some hdc1
    obtain ⟨a2, rfl⟩ := wr_eq_some hdc2
    simp [rd, List.get?_eq_getElem?, List.getElem?_set, a1]

/-- A lane of a mask of `W` lanes. -/
theorem lane_lt_of_some {α : Type} (a : List α) (k : Nat) (x : α) (h : a[k]? = some x) :
    k < a.length := by
  by_contra hcon
  rw [List.getElem?_eq_none (by omega)] at h
  cases h

/-- A lane of the conjunction of two masks. -/
theorem mand_lane (a b : Msk) (k : Nat) (h : (mand a b)[k]? = some true) :
    a[k]? = some true ∧ b[k]? = some true := by
  unfold mand at h
  obtain ⟨x, y, hx, hy, hxy⟩ := (zipWith_lane _ _ _ k true).mp h
  simp only [Bool.and_eq_true] at hxy
  rw [hx, hy, hxy.1, hxy.2]
  exact ⟨rfl, rfl⟩

/-- The loop `while(!mipp::testz(m_lu))` returns without leaving an array when the lanes of
`m_disc` have `l[u] < N_p2_1`. -/
theorem whileLu_total (d : Decoder) (m : Nat) (ha : Accepted d m) (u : Nat) (m_disc : Msk)
    (hu : u + 1 < d.N_p2_1 + 2) (hm : m_disc.length = d.W) :
    ∀ (fuel i : Nat) (st : Scratch), Sized d st → i + fuel = d.N_p2_1 + 1 → 1 ≤ fuel →
      (∀ (lu : Reg) (k : Nat) (x : Int), rd st.l u = some lu → m_disc[k]? = some true →
        lu[k]? = some x → x ≤ (d.N_p2_1 : Int) - 1) →
      ∃ st', whileLu d u m_disc fuel i st = some st' ∧ Sized d st'
  | 0, _, _, _, _, hf, _ => by omega
  | fuel + 1, i, st, hst, hif, _, hb => by
    obtain ⟨hw, hN, hle, ht2, _, hNlt⟩ := accepted_bounds d m ha
    obtain ⟨hY, help, hdisc, hl, hul, hs, hreg⟩ := hst
    obtain ⟨lu, hlu, hlul⟩ := rd_regs d _ st.l u hl (by omega)
    rw [whileLu]
    simp only [hlu, Option.bind_eq_bind, Option.some_bind]
    by_cases htz : testz (mand (rge lu (d.cst i)) m_disc) = true
    · rw [if_pos htz]
      exact ⟨st, rfl, ⟨hY, help, hdisc, hl, hul, hs, hreg⟩⟩
    · rw [if_neg htz]
      obtain ⟨k, hk⟩ := exists_of_testz_false _ htz
      obtain ⟨hk1, hk2⟩ := mand_lane _ _ k hk
      unfold rge at hk1
      obtain ⟨x, y, hx, hy, hxy⟩ := (zipWith_lane _ _ _ k true).mp hk1
      have hy' : y = toB d.wB (i : Int) := bcast_lane _ _ _ _ _ hy
      have hxb := hb lu k x hlu hk2 hx
      have hiN : (i : Int) ≤ d.N_p2_1 := by
        have : i ≤ d.N_p2_1 := by omega
        exact_mod_cast this
      rw [hy', toB_nat d.wB i hw (by omega)] at hxy
      simp only [decide_eq_true_eq] at hxy
      have hi : i < d.N_p2_1 := by
        have : (i : Int) < d.N_p2_1 := by omega
        exact_mod_cast this
      have hml : (mand (rge lu (d.cst i)) m_disc).length = d.W := by
        unfold mand rge
        exact length_zipWith_eq _ _ _ _
          (length_zipWith_eq _ _ _ _ hlul (length_bcast _ _ _)) hm
      obtain ⟨eu, heu, heul⟩ := rd2_rows d _ _ st.elp u i help (by omega) hi
      obtain ⟨eu1, heu1, heu1l⟩ := rd2_rows d _ _ st.elp (u + 1) i help hu hi
      obtain ⟨e1, he1, he1r⟩ := wr2_rows_total d _ _ st.elp (u + 1) i
        (blend eu eu1 (mand (rge lu (d.cst i)) m_disc)) help hu hi
        (length_blend_eq _ _ _ _ heul heu1l hml)
      obtain ⟨eu', heu', heul'⟩ := rd2_rows d _ _ e1 u i he1r (by omega) hi
      obtain ⟨conv, hconv, hconvl⟩ := read_array_modq d m ha d.index_of ha.2.2.2.2.2.2.1
        eu' heul'
      obtain ⟨e2, he2, he2r⟩ := wr2_rows_total d _ _ e1 u i
        (blend conv eu' (mand (rge lu (d.cst i)) m_disc)) he1r (by omega) hi
        (length_blend_eq _ _ _ _ hconvl heul' hml)
      simp only [heu, heu1, he1, heu', hconv, he2, Option.some_bind]
      exact whileLu_total d m ha u m_disc hu hm fuel (i + 1) _
        ⟨hY, he2r, hdisc, hl, hul, hs, hreg⟩ (by omega) (by omega) hb

/-- The undefined-discrepancy branch returns without leaving an array when the lanes of
`m_disc` have `l[u] < N_p2_1`; the arrays keep their sizes. -/
theorem discBranch_total (d : Decoder) (m : Nat) (ha : Accepted d m) (u : Nat) (m_disc : Msk)
    (st : Scratch) (hu : u + 1 < d.N_p2_1 + 2) (hm : m_disc.length = d.W) (hst : Sized d st)
    (hb : ∀ (lu : Reg) (k : Nat) (x : Int), rd st.l u = some lu → m_disc[k]? = some true →
        lu[k]? = some x → x ≤ (d.N_p2_1 : Int) - 1) :
    ∃ st', discBranch d u m_disc st = some st' ∧ Sized d st' := by
  obtain ⟨hY, help, hdisc, hl, hul, hs, hreg⟩ := hst
  obtain ⟨lu, hlu, hlul⟩ := rd_regs d _ st.l u hl (by omega)
  obtain ⟨lu1, hlu1, hlu1l⟩ := rd_regs d _ st.l (u + 1) hl hu
  obtain ⟨l', hl', hl'r⟩ := wr_regs d _ st.l (u + 1) (blend lu lu1 m_disc) hl hu
    (length_blend_eq _ _ _ _ hlul hlu1l hm)
  unfold discBranch
  simp only [hlu, hlu1, hl', Option.bind_eq_bind, Option.some_bind]
  refine whileLu_total d m ha u m_disc hu hm (d.N_p2_1 + 1) 0 _
    ⟨hY, help, hdisc, hl'r, hul, hs, hreg⟩ (by omega) (by omega) ?_
  intro lu' k x hlu' hk hx
  obtain ⟨_, rfl⟩ := wr_eq_some hl'
  have : rd (st.l.set (u + 1) (blend lu lu1 m_disc)) u = rd st.l u := by
    simp [rd, List.get?_eq_getElem?, List.getElem?_set_ne]
  simp only at hlu'
  rw [this] at hlu'
  exact hb lu' k x hlu' hk hx

/-- The search for the reference iteration is the loop of `searchStep` over
`q = u_m1 - 1, ..., 0`. -/
theorem searchQ_eq (d : Decoder) (junk : Reg) (u_m1 : Nat) (m_not_disc : Msk) (st : Scratch) :
    searchQ d junk u_m1 m_not_disc st =
      (rd st.l u_m1).bind fun r_l_q =>
      (rd st.u_lu u_m1).bind fun r_u_lu_q =>
      (rd st.elp u_m1).bind fun r_elp_q =>
      (List.range u_m1).reverse.foldlM (searchStep d m_not_disc st)
        { r_disc_q := junk, r_l_q := r_l_q, r_u_lu_q := r_u_lu_q, r_q := d.cst u_m1,
          r_elp_q := r_elp_q } := rfl

/-- A lane inside a register. -/
theorem lane_of_lt {α : Type} (a : List α) (k : Nat) (h : k < a.length) :
    ∃ x, a[k]? = some x := ⟨a[k], List.getElem?_eq_getElem h⟩

/-- A lane of a lane-wise operation, from the lanes of its operands. -/
theorem zipWith_lane_mk {α β γ : Type} (f : α → β → γ) (a : List α) (b : List β) (k : Nat)
    (x : α) (y : β) (hx : a[k]? = some x) (hy : b[k]? = some y) :
    (List.zipWith f a b)[k]? = some (f x y) :=
  (zipWith_lane f a b k _).mpr ⟨x, y, hx, hy, rfl⟩

/-- A lane of `blend`, from the lanes of its operands. -/
theorem blend_lane_mk (a b : Reg) (m : Msk) (k : Nat) (x y : Int) (c : Bool)
    (hx : a[k]? = some x) (hy : b[k]? = some y) (hc : m[k]? = some c) :
    (blend a b m)[k]? = some (if c = true then x else y) :=
  (blend_lane a b m k _).mpr ⟨x, y, c, hx, hy, hc, rfl⟩

/-- One round of the search loop returns; the registers keep their sizes and are the
selections of lines 174-177. -/
theorem searchStep_total (d : Decoder) (m_not_disc : Msk) (st : Scratch) (r : Ref) (q : Nat)
    (hst : Sized d st) (hm : m_not_disc.length = d.W) (hr : RefSized d r)
    (hq : q < d.N_p2_1 + 2) :
    ∃ (r' : Ref) (dq uq lq : Reg), searchStep d m_not_disc st r q = some r' ∧ RefSized d r' ∧
      rd st.discrepancy q = some dq ∧ rd st.u_lu q = some uq ∧ rd st.l q = some lq ∧
      r'.r_u_lu_q = blend uq r.r_u_lu_q
        (mand (mand m_not_disc (rne dq (r_mone d))) (rgt r.r_u_lu_q uq)) ∧
      r'.r_l_q = blend lq r.r_l_q
        (mand (mand m_not_disc (rne dq (r_mone d))) (rgt r.r_u_lu_q uq)) ∧
      r'.r_q = blend (d.cst q) r.r_q
        (mand (mand m_not_disc (rne dq (r_mone d))) (rgt r.r_u_lu_q uq)) := by
  obtain ⟨hY, help, hdisc, hl, hul, hs, hreg⟩ := hst
  obtain ⟨hrq, hrl, hrd, hru, hre⟩ := hr
  obtain ⟨dq, hdq, hdql⟩ := rd_regs d _ st.discrepancy q hdisc hq
  obtain ⟨uq, huq, huql⟩ := rd_regs d _ st.u_lu q hul hq
  obtain ⟨lq, hlq, hlql⟩ := rd_regs d _ st.l q hl hq
  have hml : (mand (mand m_not_disc (rne dq (r_mone d))) (rgt r.r_u_lu_q uq)).length = d.W := by
    unfold mand rne rgt
    exact length_zipWith_eq _ _ _ _
      (length_zipWith_eq _ _ _ _ hm (length_zipWith_eq _ _ _ _ hdql (length_bcast _ _ _)))
      (length_zipWith_eq _ _ _ _ hru huql)
  obtain ⟨re, hre', hrer⟩ := foldlM_total (fun re (i : Nat) =>
      (rd2 st.elp q i).bind fun e => (rd re i).bind fun old =>
        wr re i (blend e old (mand (mand m_not_disc (rne dq (r_mone d))) (rgt r.r_u_lu_q uq))))
    (fun re => Regs d d.N_p2_1 re) (List.range r.r_elp_q.length)
    (fun re i hi hre0 => by
      have hi' : i < d.N_p2_1 := by
        have := List.mem_range.mp hi
        rw [hre.1] at this
        exact this
      obtain ⟨e, he, hel⟩ := rd2_rows d _ _ st.elp q i help hq hi'
      obtain ⟨old, hold, holdl⟩ := rd_regs d _ re i hre0 hi'
      obtain ⟨re', hw, hre'r⟩ := wr_regs d _ re i
        (blend e old (mand (mand m_not_disc (rne dq (r_mone d))) (rgt r.r_u_lu_q uq))) hre0 hi'
        (length_blend_eq _ _ _ _ hel holdl hml)
      exact ⟨re', by simp only [he, hold, hw, Option.some_bind], hre'r⟩)
    r.r_elp_q hre
  refine ⟨{ r_disc_q := blend dq r.r_disc_q
                (mand (mand m_not_disc (rne dq (r_mone d))) (rgt r.r_u_lu_q uq)),
            r_l_q := blend lq r.r_l_q
                (mand (mand m_not_disc (rne dq (r_mone d))) (rgt r.r_u_lu_q uq)),
            r_u_lu_q := blend uq r.r_u_lu_q
                (mand (mand m_not_disc (rne dq (r_mone d))) (rgt r.r_u_lu_q uq)),
            r_q := blend (d.cst q) r.r_q
                (mand (mand m_not_disc (rne dq (r_mone d))) (rgt r.r_u_lu_q uq)),
            r_elp_q := re }, dq, uq, lq, ?_, ⟨?_, ?_, ?_, ?_, hrer⟩, hdq, huq, hlq, rfl, rfl,
    rfl⟩
  · simp only [searchStep, hdq, huq, hlq, Option.bind_eq_bind, Option.some_bind, hre',
      Option.pure_def]
  · exact length_blend_eq _ _ _ _ (length_bcast _ _ _) hrq hml
  · exact length_blend_eq _ _ _ _ hlql hrl hml
  · exact length_blend_eq _ _ _ _ hdql hrd hml
  · exact length_blend_eq _ _ _ _ huql hru hml

/-- The search for the reference iteration returns without leaving an array; its registers
have their sizes. -/
theorem searchQ_total (d : Decoder) (junk : Reg) (u_m1 : Nat) (m_not_disc : Msk)
    (st : Scratch) (hst : Sized d st) (hm : m_not_disc.length = d.W) (hj : junk.length = d.W)
    (hu : u_m1 < d.N_p2_1 + 2) :
    ∃ ref, searchQ d junk u_m1 m_not_disc st = some ref ∧ RefSized d ref := by
  obtain ⟨hY, help, hdisc, hl, hul, hs, hreg⟩ := hst
  obtain ⟨l0, hl0, hl0l⟩ := rd_regs d _ st.l u_m1 hl hu
  obtain ⟨u0, hu0, hu0l⟩ := rd_regs d _ st.u_lu u_m1 hul hu
  have hlt : u_m1 < st.elp.length := by rw [help.1]; exact hu
  have he0 : rd st.elp u_m1 = some st.elp[u_m1] := rd_of_lt _ _ hlt
  have he0r : Regs d d.N_p2_1 st.elp[u_m1] := help.2 _ (List.getElem_mem hlt)
  rw [searchQ_eq]
  simp only [hl0, hu0, he0, Option.some_bind]
  refine foldlM_total _ (fun r => RefSized d r) _ ?_ _
    ⟨length_bcast _ _ _, hl0l, hj, hu0l, he0r⟩
  intro r q hq hr
  have hq' : q < d.N_p2_1 + 2 := by
    have := List.mem_range.mp (List.mem_reverse.mp hq)
    omega
  obtain ⟨r', _, _, _, h1, h2, _⟩ := searchStep_total d m_not_disc st r q
    ⟨hY, help, hdisc, hl, hul, hs, hreg⟩ hm hr hq'
  exact ⟨r', h1, h2⟩

/-- A lane of the zero register. -/
theorem r_zero_lane (d : Decoder) (k : Nat) (hk : k < d.W) : (r_zero d)[k]? = some 0 := by
  unfold r_zero
  rw [bcast_lane_lt _ _ _ _ hk, toB_zero]

/-- A lane of the register of `-1`. -/
theorem r_mone_lane (d : Decoder) (hw : 1 ≤ d.wB) (k : Nat) (hk : k < d.W) :
    (r_mone d)[k]? = some (-1) := by
  unfold r_mone
  rw [bcast_lane_lt _ _ _ _ hk, toB_neg_one _ hw]

/-- The search ends on the iteration `q = 0` in every lane of `m_not_disc` whose `u_lu[v]`
is nonnegative for `v` in `1..u_m1`: there `r_l_q = l[0] = 0` and `r_q = 0`. -/
theorem searchQ_zero (d : Decoder) (hw : 1 ≤ d.wB) (junk : Reg) (u_m1 : Nat)
    (m_not_disc : Msk) (st : Scratch) (ref : Ref) (hst : Sized d st)
    (hm : m_not_disc.length = d.W) (hj : junk.length = d.W) (hu : u_m1 < d.N_p2_1 + 2)
    (h : searchQ d junk u_m1 m_not_disc st = some ref)
    (hl0 : rd st.l 0 = some (r_zero d)) (hd0 : rd st.discrepancy 0 = some (r_zero d))
    (hu0 : rd st.u_lu 0 = some (r_mone d))
    (hpos : ∀ (k : Nat), m_not_disc[k]? = some true → ∀ v, 1 ≤ v → v ≤ u_m1 →
      ∀ (uv : Reg) (x : Int), rd st.u_lu v = some uv → uv[k]? = some x → 0 ≤ x) :
    ∀ (k : Nat), m_not_disc[k]? = some true →
      ref.r_l_q[k]? = some 0 ∧ ref.r_q[k]? = some 0 := by
  intro k hk
  have hkW : k < d.W := by rw [← hm]; exact lane_lt_of_some _ _ _ hk
  have hst' := hst
  obtain ⟨hY, help, hdisc, hl, hul, hs, hreg⟩ := hst
  obtain ⟨l0, hl0', hl0l⟩ := rd_regs d _ st.l u_m1 hl hu
  obtain ⟨u0, hu0', hu0l⟩ := rd_regs d _ st.u_lu u_m1 hul hu
  have hlt : u_m1 < st.elp.length := by rw [help.1]; exact hu
  have he0 : rd st.elp u_m1 = some st.elp[u_m1] := rd_of_lt _ _ hlt
  have he0r : Regs d d.N_p2_1 st.elp[u_m1] := help.2 _ (List.getElem_mem hlt)
  rw [searchQ_eq] at h
  simp only [hl0', hu0', he0, Option.some_bind] at h
  cases u_m1 with
  | zero =>
    simp only [List.range_zero, List.reverse_nil, List.foldlM_nil, Option.pure_def,
      Option.some.injEq] at h
    subst h
    rw [hl0] at hl0'
    cases Option.some.inj hl0'
    refine ⟨r_zero_lane d k hkW, ?_⟩
    show (bcast d.wB d.W ((0 : Nat) : Int))[k]? = some 0
    rw [bcast_lane_lt _ _ _ _ hkW, Nat.cast_zero, toB_zero]
  | succ n =>
    rw [List.range_succ_eq_map, List.reverse_cons, List.foldlM_append] at h
    simp only [Option.bind_eq_bind, Option.bind_eq_some, List.foldlM_cons, List.foldlM_nil,
      Option.pure_def] at h
    obtain ⟨r1, hr1, r2, hr2, hr2'⟩ := h
    cases Option.some.inj hr2'
    have hI : RefSized d r1 ∧ ∀ (k : Nat), m_not_disc[k]? = some true →
        ∃ x, r1.r_u_lu_q[k]? = some x ∧ 0 ≤ x := by
      refine foldlM_inv _ (fun (r : Ref) => RefSized d r ∧
          ∀ (k : Nat), m_not_disc[k]? = some true → ∃ x, r.r_u_lu_q[k]? = some x ∧ 0 ≤ x)
        _ ?_ _ r1 ?_ hr1
      · intro r q r' hq ⟨hr, hrp⟩ hstep
        obtain ⟨j, hj, rfl⟩ := List.mem_map.mp (List.mem_reverse.mp hq)
        have hjn : j < n := List.mem_range.mp hj
        obtain ⟨r'', dq, uq, lq, h1, h2, hdq, huq, hlq, hru, _, _⟩ :=
          searchStep_total d m_not_disc st r (j + 1) hst' hm hr (by omega)
        rw [h1] at hstep
        cases Option.some.inj hstep
        refine ⟨h2, fun k' hk' => ?_⟩
        have hk'W : k' < d.W := by rw [← hm]; exact lane_lt_of_some _ _ _ hk'
        obtain ⟨z, hz⟩ := lane_of_lt r'.r_u_lu_q k' (by rw [h2.2.2.2.1]; exact hk'W)
        refine ⟨z, hz, ?_⟩
        rw [hru] at hz
        obtain ⟨x, y, c, hx, hy, _, rfl⟩ := (blend_lane _ _ _ k' z).mp hz
        cases c
        · obtain ⟨y', hy', hy0⟩ := hrp k' hk'
          rw [hy] at hy'
          cases Option.some.inj hy'
          simpa using hy0
        · have := hpos k' hk' (j + 1) (by omega) (by omega) uq x huq hx
          simpa using this
      · refine ⟨⟨length_bcast _ _ _, hl0l, hj, hu0l, he0r⟩, fun k' hk' => ?_⟩
        have hk'W : k' < d.W := by rw [← hm]; exact lane_lt_of_some _ _ _ hk'
        obtain ⟨z, hz⟩ := lane_of_lt u0 k' (by rw [hu0l]; exact hk'W)
        exact ⟨z, hz, hpos k' hk' (n + 1) (by omega) (le_refl _) u0 z hu0' hz⟩
    obtain ⟨r'', dq, uq, lq, h1, h2, hdq, huq, hlq, _, hrl, hrq⟩ :=
      searchStep_total d m_not_disc st r1 0 hst' hm hI.1 (by omega)
    rw [h1] at hr2
    cases Option.some.inj hr2
    rw [hd0] at hdq
    cases Option.some.inj hdq
    rw [hu0] at huq
    cases Option.some.inj huq
    rw [hl0] at hlq
    cases Option.some.inj hlq
    obtain ⟨x, hx, hx0⟩ := hI.2 k hk
    have hM : (mand (mand m_not_disc (rne (r_zero d) (r_mone d)))
        (rgt r1.r_u_lu_q (r_mone d)))[k]? = some true := by
      have h3 : (rne (r_zero d) (r_mone d))[k]? = some true := by
        unfold rne
        rw [zipWith_lane_mk _ _ _ k 0 (-1) (r_zero_lane d k hkW) (r_mone_lane d hw k hkW)]
        simp
      have h4 : (rgt r1.r_u_lu_q (r_mone d))[k]? = some true := by
        unfold rgt
        rw [zipWith_lane_mk _ _ _ k x (-1) hx (r_mone_lane d hw k hkW)]
        simp only [Option.some.injEq, decide_eq_true_eq]
        omega
      unfold mand
      rw [zipWith_lane_mk _ _ _ k true true
        (by rw [zipWith_lane_mk _ _ _ k true true hk h3]; rfl) h4]
      rfl
    obtain ⟨y, hy⟩ := lane_of_lt r1.r_l_q k (by rw [hI.1.2.1]; exact hkW)
    obtain ⟨y2, hy2⟩ := lane_of_lt r1.r_q k (by rw [hI.1.1]; exact hkW)
    constructor
    · rw [hrl, blend_lane_mk _ _ _ k 0 y true (r_zero_lane d k hkW) hy hM]
      rfl
    · rw [hrq, blend_lane_mk _ _ _ k 0 y2 true ?_ hy2 hM]
      · rfl
      · show (bcast d.wB d.W ((0 : Nat) : Int))[k]? = some 0
        rw [bcast_lane_lt _ _ _ _ hkW, Nat.cast_zero, toB_zero]

/-- A list of naturals read as integers, element by element. -/
theorem cast_list_eq_map (l : List Nat) :
    (do let a ← l; pure (a : Int) : List Int) = l.map (fun (a : Nat) => (a : Int)) := by
  induction l with
  | nil => rfl
  | cons x xs ih =>
    simp only [List.bind_eq_flatMap, List.pure_def, List.flatMap_cons, List.map_cons,
      List.singleton_append] at ih ⊢
    rw [ih]

/-- The function `write_array` returns without leaving the array when every lane of
`r_idx`, masked or not, holds an index of the array; the array keeps its size. -/
theorem write_array_total (d : Decoder) (c : Nat) (arr : List Reg) (r_idx : Reg) (m_idx : Msk)
    (vals : Reg) (harr : Regs d c arr) (hi : r_idx.length = d.W) (hm : m_idx.length = d.W)
    (hv : vals.length = d.W) (hidx : ∀ x ∈ r_idx, 0 ≤ x ∧ x < (c : Int)) :
    ∃ arr', write_array d.wB d.W arr r_idx m_idx vals = some arr' ∧ Regs d c arr' := by
  unfold write_array
  refine foldlM_total _ (fun a => Regs d c a) _ ?_ arr harr
  intro a j hj ha
  have hjW : j < d.W := List.mem_range.mp hj
  have hjl : j < r_idx.length := by rw [hi]; exact hjW
  obtain ⟨x0, x1⟩ := hidx _ (List.getElem_mem hjl)
  have hlt : (r_idx[j]).toNat < a.length := by rw [ha.1]; omega
  have hold : a[(r_idx[j]).toNat].length = d.W := ha.2 _ (List.getElem_mem hlt)
  simp only [rd_of_lt r_idx j hjl, Option.bind_eq_bind, Option.some_bind, rdI, wrI, x0, if_true,
    List.get?_eq_getElem?, List.getElem?_eq_getElem hlt, wr_of_lt a _ _ hlt]
  refine ⟨_, rfl, regs_set d c a _ _ ha (length_blend_eq _ _ _ _ hv hold ?_)⟩
  unfold mand req
  refine length_zipWith_eq _ _ _ _ hm (length_zipWith_eq _ _ _ _ ?_ (length_bcast _ _ _))
  rw [cast_list_eq_map]
  simp

/-- A step that returns, followed by a step that returns on every such result. -/
theorem bind_total {α β : Type} (x : Option α) (f : α → Option β) (I : α → Prop)
    (P : β → Prop) (hx : ∃ a, x = some a ∧ I a) (hf : ∀ a, I a → ∃ b, f a = some b ∧ P b) :
    ∃ b, x.bind f = some b ∧ P b := by
  obtain ⟨a, ha, hi⟩ := hx
  obtain ⟨b, hb, hp⟩ := hf a hi
  exact ⟨b, by rw [ha]; exact hb, hp⟩

/-- A lane of `blend` with the lanes it comes from. -/
theorem mem_blend_lane (a b : Reg) (m : Msk) (z : Int) (h : z ∈ blend a b m) :
    ∃ (k : Nat) (x y : Int) (c : Bool), a[k]? = some x ∧ b[k]? = some y ∧ m[k]? = some c ∧
      z = if c = true then x else y := by
  obtain ⟨k, hk⟩ := List.mem_iff_getElem?.mp h
  obtain ⟨x, y, c, hx, hy, hc, hz⟩ := (blend_lane a b m k z).mp hk
  exact ⟨k, x, y, c, hx, hy, hc, hz⟩

/-- An index of a loop over `0..l_max`. -/
theorem lt_of_mem_range_toNat (i : Nat) (l_max : Int) (b : Nat)
    (h : i ∈ List.range (l_max + 1).toNat) (hb : l_max ≤ (b : Int) - 1) : i < b := by
  have h1 := List.mem_range.mp h
  have h2 : (i : Int) < l_max + 1 := Int.lt_toNat.mp h1
  have : (i : Int) < b := by omega
  exact_mod_cast this

/-- The defined-discrepancy branch returns without leaving an array, in an iteration
`1 <= u <= 2t`, when in the lanes of `m_not_disc` the entries `u_lu[v]`, `v` in `1..u-1`,
are nonnegative and `l[u] < N_p2_1`; the arrays keep their sizes. -/
theorem notDiscBranch_total (d : Decoder) (m : Nat) (ha : Accepted d m) (junk : Reg) (u : Nat)
    (m_not_disc : Msk) (st : Scratch) (hst : Sized d st) (hu1 : 1 ≤ u) (hu2 : u ≤ d.t2)
    (hm : m_not_disc.length = d.W) (hj : junk.length = d.W)
    (hl0 : rd st.l 0 = some (r_zero d)) (hd0 : rd st.discrepancy 0 = some (r_zero d))
    (hu0 : rd st.u_lu 0 = some (r_mone d))
    (hpos : ∀ (k : Nat), m_not_disc[k]? = some true → ∀ v, 1 ≤ v → v ≤ u - 1 →
      ∀ (uv : Reg) (x : Int), rd st.u_lu v = some uv → uv[k]? = some x → 0 ≤ x)
    (hlu : ∀ (lu : Reg) (k : Nat) (x : Int), rd st.l u = some lu →
      m_not_disc[k]? = some true → lu[k]? = some x → x ≤ (d.N_p2_1 : Int) - 1) :
    ∃ st', notDiscBranch d junk u m_not_disc st = some st' ∧ Sized d st' := by
  obtain ⟨hw, hN, hle, ht2, _, hNlt⟩ := accepted_bounds d m ha
  have hst' := hst
  obtain ⟨hY, help, hdisc, hl, hul, hs, hreg⟩ := hst
  obtain ⟨ref, href, hrs⟩ := searchQ_total d junk (u - 1) m_not_disc st hst' hm hj (by omega)
  have hsel := searchQ_selected d junk (u - 1) m_not_disc st ref href
  have hzero := searchQ_zero d hw junk (u - 1) m_not_disc st ref hst' hm hj (by omega) href
    hl0 hd0 hu0 hpos
  obtain ⟨hrq, hrl, hrd, hru, hre⟩ := hrs
  obtain ⟨lu, hlu', hlul⟩ := rd_regs d _ st.l u hl (by omega)
  obtain ⟨lu1, hlu1, hlu1l⟩ := rd_regs d _ st.l (u + 1) hl (by omega)
  have hz : (r_zero d).length = d.W := length_bcast _ _ _
  have hcst : ∀ x : Int, (d.cst x).length = d.W := fun x => length_bcast _ _ _
  have huN : u < d.N_p2_1 := by omega
  have hlmax2 : hmax (blend ref.r_l_q (r_zero d) m_not_disc) = 0 := by
    refine hmax_zero _ (fun z hz' => ?_)
    obtain ⟨k, x, y, c, hx, hy, hc, rfl⟩ := mem_blend_lane _ _ _ _ hz'
    cases c
    · have hk : k < d.W := by rw [← hz]; exact lane_lt_of_some _ _ _ hy
      rw [r_zero_lane d k hk] at hy
      simpa using (Option.some.inj hy).symm
    · have := (hzero k hc).1
      rw [hx] at this
      simpa using Option.some.inj this
  have hlmax3 : hmax (blend lu (r_zero d) m_not_disc) ≤ (d.N_p2_1 : Int) - 1 := by
    refine hmax_le _ _ (by omega) (fun z hz' => ?_)
    obtain ⟨k, x, y, c, hx, hy, hc, rfl⟩ := mem_blend_lane _ _ _ _ hz'
    cases c
    · have hk : k < d.W := by rw [← hz]; exact lane_lt_of_some _ _ _ hy
      rw [r_zero_lane d k hk] at hy
      cases Option.some.inj hy
      simp only [Bool.false_eq_true, if_false]
      omega
    · simpa using hlu lu k x hlu' hc hx
  unfold notDiscBranch
  simp only [Option.bind_eq_bind, Option.pure_def, href, hlu', hlu1, Option.some_bind]
  -- the degree
  refine bind_total _ _ (fun l => Regs d (d.N_p2_1 + 2) l ∧ rd l u = some lu) _ ?_ ?_
  · refine ⟨_, wr_of_lt _ _ _ (by rw [hl.1]; omega), regs_set d _ _ _ _ hl ?_, ?_⟩
    · unfold rsub radd rle
      exact length_blend_eq _ _ _ _ (length_blend_eq _ _ _ _
        (length_zipWith_eq _ _ _ _ (length_zipWith_eq _ _ _ _ hrl (hcst _)) hrq) hlul
        (length_zipWith_eq _ _ _ _ hlul
          (length_zipWith_eq _ _ _ _ (length_zipWith_eq _ _ _ _ hrl (hcst _)) hrq))) hlu1l hm
    · rw [← hlu']
      simp [rd, List.get?_eq_getElem?, List.getElem?_set_ne]
  intro l ⟨hlr, hlu''⟩
  -- the new row is set to zero
  refine bind_total _ _ (fun e => e.length = d.N_p2_1 + 2 ∧ ∀ r ∈ e, Regs d d.N_p2_1 r) _
    (foldlM_total _ _ _ ?_ _ help) ?_
  · intro e i hi he
    have hi' : i < d.N_p2_1 := by
      have := List.mem_range.mp hi
      omega
    obtain ⟨x, hx, hxl⟩ := rd2_rows d _ _ e (u + 1) i he (by omega) hi'
    obtain ⟨e', he', he'r⟩ := wr2_rows_total d _ _ e (u + 1) i (blend (r_zero d) x m_not_disc)
      he (by omega) hi' (length_blend_eq _ _ _ _ hz hxl hm)
    exact ⟨e', by simp only [hx, he', Option.some_bind], he'r⟩
  intro e1 he1
  -- the correction term
  refine bind_total _ _ (fun e => e.length = d.N_p2_1 + 2 ∧ ∀ r ∈ e, Regs d d.N_p2_1 r) _
    (foldlM_total _ _ _ ?_ _ he1) ?_
  · intro e i hi he
    rw [hlmax2] at hi
    have hi0 : i = 0 := by
      have := List.mem_range.mp hi
      simp at this
      exact this
    subst hi0
    obtain ⟨rq, hrq', hrql⟩ := rd_regs d _ ref.r_elp_q 0 hre (by omega)
    simp only [hrq', Option.some_bind]
    split
    · exact ⟨e, rfl, he⟩
    · obtain ⟨du, hdu, hdul⟩ := rd_regs d _ st.discrepancy u hdisc (by omega)
      obtain ⟨vals, hvals, hvalsl⟩ := read_array_modq d m ha d.alpha_to ha.2.2.2.2.2.1
        (radd d.wB (radd d.wB (rsub d.wB rq ref.r_disc_q) du) (d.cst d.N_p2_1)) (by
          unfold radd rsub
          exact length_zipWith_eq _ _ _ _ (length_zipWith_eq _ _ _ _
            (length_zipWith_eq _ _ _ _ hrql hrd) hdul) (hcst _))
      have hlt : u + 1 < e.length := by rw [he.1]; omega
      have hrow : Regs d d.N_p2_1 e[u + 1] := he.2 _ (List.getElem_mem hlt)
      obtain ⟨row', hrow', hrow'r⟩ := write_array_total d d.N_p2_1 e[u + 1]
        (rsub d.wB (radd d.wB (d.cst ((0 : Nat) : Int)) (d.cst u)) ref.r_q)
        (mand (mand m_not_disc (rne rq (r_mone d))) (rge ref.r_l_q (d.cst ((0 : Nat) : Int))))
        vals hrow
        (by
          unfold rsub radd
          exact length_zipWith_eq _ _ _ _ (length_zipWith_eq _ _ _ _ (hcst _) (hcst _)) hrq)
        (by
          unfold mand rne rge
          exact length_zipWith_eq _ _ _ _ (length_zipWith_eq _ _ _ _ hm
            (length_zipWith_eq _ _ _ _ hrql (length_bcast _ _ _)))
            (length_zipWith_eq _ _ _ _ hrl (hcst _)))
        hvalsl
        (by
          intro x hx
          unfold rsub radd at hx
          obtain ⟨p, q, hp, hq, rfl⟩ := mem_zipWith_elim _ _ _ _ hx
          obtain ⟨p1, p2, hp1, hp2, rfl⟩ := mem_zipWith_elim _ _ _ _ hp
          have e1 := mem_bcast _ _ _ _ hp1
          have e2 := mem_bcast _ _ _ _ hp2
          obtain ⟨k, hk⟩ := List.mem_iff_getElem?.mp hq
          have hkW : k < d.W := by rw [← hrq]; exact lane_lt_of_some _ _ _ hk
          obtain ⟨b, hb⟩ := lane_of_lt ref.r_l_q k (by rw [hrl]; exact hkW)
          obtain ⟨q', hq', rfl, _⟩ := hsel k q b hk hb
          have hq'' : (q' : Int) ≤ (u : Int) - 1 := by
            have : q' + 1 ≤ u := by omega
            have : ((q' + 1 : Nat) : Int) ≤ (u : Int) := by exact_mod_cast this
            push_cast at this
            omega
          have huI : (u : Int) < d.N_p2_1 := by exact_mod_cast huN
          rw [e1, e2, Nat.cast_zero, toB_zero, toB_nat d.wB u hw (by omega), zero_add,
            toB_nat d.wB u hw (by omega), toB_nat d.wB q' hw (by omega)]
          have hp : (0 : Int) < 2 ^ (d.wB - 1) := by positivity
          rw [toB_of_fitsB d.wB _ hw ⟨by omega, by omega⟩]
          constructor <;> omega)
      obtain ⟨e', he', he'r⟩ : ∃ e', wr e (u + 1) row' = some e' ∧
          (e'.length = d.N_p2_1 + 2 ∧ ∀ r ∈ e', Regs d d.N_p2_1 r) :=
        ⟨_, wr_of_lt _ _ _ hlt, rows_set d _ _ e (u + 1) row' he hrow'r⟩
      exact ⟨e', by simp only [hdu, hvals, rd_of_lt e (u + 1) hlt, hrow', he',
        Option.some_bind], he'r⟩
  intro e2 he2
  rw [hlu'']
  simp only [Option.some_bind]
  -- the sum with the previous polynomial
  refine bind_total _ _ (fun e => e.length = d.N_p2_1 + 2 ∧ ∀ r ∈ e, Regs d d.N_p2_1 r) _
    (foldlM_total _ _ _ ?_ _ he2) ?_
  · intro e i hi he
    have hi' : i < d.N_p2_1 := lt_of_mem_range_toNat i _ _ hi hlmax3
    obtain ⟨eu, heu, heul⟩ := rd2_rows d _ _ e u i he (by omega) hi'
    obtain ⟨eu1, heu1, heu1l⟩ := rd2_rows d _ _ e (u + 1) i he (by omega) hi'
    obtain ⟨ea, hea, hear⟩ := wr2_rows_total d _ _ e (u + 1) i
      (blend (rxor d.wB eu eu1) eu1 (mand m_not_disc (rge lu (d.cst i)))) he (by omega) hi'
      (by
        unfold rxor mand rge
        exact length_blend_eq _ _ _ _ (length_zipWith_eq _ _ _ _ heul heu1l) heu1l
          (length_zipWith_eq _ _ _ _ hm (length_zipWith_eq _ _ _ _ hlul (hcst _))))
    obtain ⟨eu', heu', heul'⟩ := rd2_rows d _ _ ea u i hear (by omega) hi'
    obtain ⟨conv, hconv, hconvl⟩ := read_array_modq d m ha d.index_of ha.2.2.2.2.2.2.1
      eu' heul'
    obtain ⟨eb, heb, hebr⟩ := wr2_rows_total d _ _ ea u i conv hear (by omega) hi' hconvl
    exact ⟨eb, by simp only [heu, heu1, hea, heu', hconv, heb, Option.some_bind], hebr⟩
  intro e3 he3
  exact ⟨_, rfl, ⟨hY, he3, hdisc, hlr, hul, hs, hreg⟩⟩

/-- An index of a loop over `1..l_max`. -/
theorem lt_of_mem_range'_toNat (i : Nat) (l_max : Int) (b : Nat)
    (h : i ∈ List.range' 1 l_max.toNat) (hb : l_max ≤ (b : Int) - 1) : 1 ≤ i ∧ i < b := by
  obtain ⟨h1, h2⟩ := List.mem_range'_1.mp h
  have h3 : i - 1 < l_max.toNat := by omega
  have h4 : ((i - 1 : Nat) : Int) < l_max := Int.lt_toNat.mp h3
  have h5 : ((i - 1 : Nat) : Int) = (i : Int) - 1 := by
    push_cast [h1]
    rfl
  rw [h5] at h4
  refine ⟨h1, ?_⟩
  have : (i : Int) < b := by omega
  exact_mod_cast this

/-- The next discrepancy is formed without leaving an array, in an iteration `u < 2t`, when
the lanes of `m_not_disc` have `l[u+1] < N_p2_1`; the arrays keep their sizes. -/
theorem formDiscrepancy_total (d : Decoder) (m : Nat) (ha : Accepted d m) (u : Nat)
    (m_process m_not_disc : Msk) (st : Scratch) (hst : Sized d st) (hu : u < d.t2)
    (hmp : m_process.length = d.W)
    (hlu : ∀ (lu1 : Reg) (k : Nat) (x : Int), rd st.l (u + 1) = some lu1 →
      m_not_disc[k]? = some true → lu1[k]? = some x → x ≤ (d.N_p2_1 : Int) - 1) :
    ∃ st', formDiscrepancy d u m_process m_not_disc st = some st' ∧ Sized d st' := by
  obtain ⟨hw, hN, hle, ht2, _, hNlt⟩ := accepted_bounds d m ha
  obtain ⟨hY, help, hdisc, hl, hul, hs, hreg⟩ := hst
  have hz : (r_zero d).length = d.W := length_bcast _ _ _
  have hcst : ∀ x : Int, (d.cst x).length = d.W := fun x => length_bcast _ _ _
  obtain ⟨su1, hsu1, hsu1l⟩ := rd_regs d _ st.s (u + 1) hs (by omega)
  have hms : (rne su1 (d.cst (-1))).length = d.W := by
    unfold rne
    exact length_zipWith_eq _ _ _ _ hsu1l (hcst _)
  obtain ⟨r_read, hread, hreadl⟩ := read_array_modq d m ha d.alpha_to ha.2.2.2.2.2.1
    (blend su1 (r_zero d) (rne su1 (d.cst (-1)))) (length_blend_eq _ _ _ _ hsu1l hz hms)
  obtain ⟨du1, hdu1, hdu1l⟩ := rd_regs d _ st.discrepancy (u + 1) hdisc (by omega)
  obtain ⟨dc1, hdc1, hdc1r⟩ := wr_regs d _ st.discrepancy (u + 1)
    (blend (blend r_read (r_zero d) (rne su1 (d.cst (-1)))) du1 m_process) hdisc (by omega)
    (length_blend_eq _ _ _ _ (length_blend_eq _ _ _ _ hreadl hz hms) hdu1l hmp)
  obtain ⟨lu1, hlu1, hlu1l⟩ := rd_regs d _ st.l (u + 1) hl (by omega)
  have hlmax : hmax (blend lu1 (r_zero d) m_not_disc) ≤ (d.N_p2_1 : Int) - 1 := by
    refine hmax_le _ _ (by omega) (fun z hz' => ?_)
    obtain ⟨k, x, y, c, hx, hy, hc, rfl⟩ := mem_blend_lane _ _ _ _ hz'
    cases c
    · have hk : k < d.W := by rw [← hz]; exact lane_lt_of_some _ _ _ hy
      rw [r_zero_lane d k hk] at hy
      cases Option.some.inj hy
      simp only [Bool.false_eq_true, if_false]
      omega
    · simpa using hlu lu1 k x hlu1 hc hx
  unfold formDiscrepancy
  simp only [Option.bind_eq_bind, Option.pure_def, hsu1, hread, hdu1, hdc1, hlu1,
    Option.some_bind]
  refine bind_total _ _ (fun dc => Regs d (d.N_p2_1 + 2) dc) _
    (foldlM_total _ _ _ ?_ _ hdc1r) ?_
  · intro dc i hi hdc
    obtain ⟨hi1, hi2⟩ := lt_of_mem_range'_toNat i _ _ hi hlmax
    obtain ⟨sv, hsv, hsvl⟩ := rd_regs d _ st.s (u + 1 - i) hs (by omega)
    obtain ⟨e, he, hel⟩ := rd2_rows d _ _ st.elp (u + 1) i help (by omega) hi2
    simp only [hsv, he, Option.some_bind]
    split
    · exact ⟨dc, rfl, hdc⟩
    · obtain ⟨io, hio, hiol⟩ := read_array_modq d m ha d.index_of ha.2.2.2.2.2.2.1 e hel
      obtain ⟨r_alpha, hra, hral⟩ := read_array_modq d m ha d.alpha_to ha.2.2.2.2.2.1
        (radd d.wB sv io) (by
          unfold radd
          exact length_zipWith_eq _ _ _ _ hsvl hiol)
      obtain ⟨cur, hcur, hcurl⟩ := rd_regs d _ dc (u + 1) hdc (by omega)
      obtain ⟨dc', hdc', hdc'r⟩ := wr_regs d _ dc (u + 1)
        (blend (rxor d.wB cur r_alpha) cur
          (mand (mand (mand m_process (rne sv (r_mone d))) (rne e (r_zero d)))
            (rge lu1 (d.cst i)))) hdc (by omega) (by
          unfold rxor mand rne rge
          exact length_blend_eq _ _ _ _ (length_zipWith_eq _ _ _ _ hcurl hral) hcurl
            (length_zipWith_eq _ _ _ _ (length_zipWith_eq _ _ _ _
              (length_zipWith_eq _ _ _ _ hmp
                (length_zipWith_eq _ _ _ _ hsvl (length_bcast _ _ _)))
              (length_zipWith_eq _ _ _ _ hel hz))
              (length_zipWith_eq _ _ _ _ hlu1l (hcst _))))
      exact ⟨dc', by simp only [hio, hra, hcur, hdc', Option.some_bind], hdc'r⟩
  intro dc2 hdc2
  obtain ⟨cur, hcur, hcurl⟩ := rd_regs d _ dc2 (u + 1) hdc2 (by omega)
  obtain ⟨conv, hconv, hconvl⟩ := read_array_modq d m ha d.index_of ha.2.2.2.2.2.2.1
    cur hcurl
  obtain ⟨dc3, hdc3, hdc3r⟩ := wr_regs d _ dc2 (u + 1) (blend conv cur m_process) hdc2
    (by omega) (length_blend_eq _ _ _ _ hconvl hcurl hmp)
  exact ⟨{ st with discrepancy := dc3 }, by simp only [hcur, hconv, hdc3, Option.some_bind],
    ⟨hY, help, hdc3r, hl, hul, hs, hreg⟩⟩

/-- Reading an array after a write at another index. -/
theorem rd_set_ne {α : Type} (a : List α) (i j : Nat) (v : α) (h : i ≠ j) :
    rd (a.set i v) j = rd a j := by
  simp [rd, List.get?_eq_getElem?, List.getElem?_set_ne h]

/-- Reading an array after a write at the same index. -/
theorem rd_set_eq {α : Type} (a : List α) (i : Nat) (v : α) (h : i < a.length) :
    rd (a.set i v) i = some v := by
  simp [rd, List.get?_eq_getElem?, List.getElem?_set, h]

/-- No lane of an empty mask holds. -/
theorem lane_of_testz (m : Msk) (h : testz m = true) (k : Nat) (hk : m[k]? = some true) :
    False := by
  unfold testz at h
  rw [List.all_eq_true] at h
  have := h true (List.getElem?_mem hk)
  simp at this

/-- The entry `u_lu[0]` of the invariant is `-1`. -/
theorem rsub_mone_zero (d : Decoder) :
    rsub d.wB (d.cst (((0 : Nat) : Int) - 1)) (r_zero d) = r_mone d := by
  have hc : ((0 : Nat) : Int) - 1 = -1 := by norm_num
  rw [hc]
  unfold r_mone r_zero Decoder.cst
  rw [rsub_bcast, toB_zero, sub_zero, toB_toB]
  rfl

/-- The new degree in a lane whose reference is the iteration 0: it is `u`. -/
theorem newDegree_lane (d : Decoder) (hw : 1 ≤ d.wB) (u : Nat)
    (hu : (u : Int) < (2 : Int) ^ (d.wB - 1)) (ref : Ref) (lu : Reg) (k : Nat) (a : Int)
    (hk : k < d.W) (h1 : ref.r_l_q[k]? = some 0) (h2 : ref.r_q[k]? = some 0)
    (h3 : lu[k]? = some a) (h4 : a ≤ u) : (newDegree d u ref lu)[k]? = some (u : Int) := by
  have hc : (d.cst (u : Int))[k]? = some (u : Int) := by
    unfold Decoder.cst
    rw [bcast_lane_lt _ _ _ _ hk, toB_nat d.wB u hw hu]
  have hcand : (rsub d.wB (radd d.wB ref.r_l_q (d.cst u)) ref.r_q)[k]? = some (u : Int) := by
    unfold rsub radd
    rw [zipWith_lane_mk _ _ _ k _ _ (zipWith_lane_mk _ _ _ k _ _ h1 hc) h2]
    simp only [zero_add, sub_zero, toB_nat d.wB u hw hu]
  unfold newDegree
  have hm : (rle lu (rsub d.wB (radd d.wB ref.r_l_q (d.cst u)) ref.r_q))[k]? = some true := by
    unfold rle
    rw [zipWith_lane_mk _ _ _ k _ _ h3 hcand]
    simp [h4]
  rw [blend_lane_mk _ _ _ k _ _ _ hcand h3 hm]
  rfl

/-- The entries `u_lu[v]`, `v` in `1..n+1`, of an active lane are nonnegative. -/
theorem solverInv_u_lu_nonneg (d : Decoder) (m : Nat) (ha : Accepted d m) (n : Nat)
    (st : Scratch) (mp : Msk) (hinv : SolverInv d n st mp) (hn : n + 1 ≤ d.t2) (k : Nat)
    (hk : mp[k]? = some true) (v : Nat) (hv1 : 1 ≤ v) (hv2 : v ≤ n + 1) (uv : Reg) (x : Int)
    (huv : rd st.u_lu v = some uv) (hx : uv[k]? = some x) : 0 ≤ x := by
  obtain ⟨hw, hN, hle, ht2, _, hNlt⟩ := accepted_bounds d m ha
  obtain ⟨hst, hmp, hl0, hd0, hform, hlanes⟩ := hinv
  obtain ⟨lv, hlv, huv'⟩ := hform v hv2
  rw [huv] at huv'
  cases Option.some.inj huv'
  unfold rsub at hx
  obtain ⟨c, y, hc, hy, rfl⟩ := (zipWith_lane _ _ _ k x).mp hx
  have hc' := bcast_lane _ _ _ _ _ hc
  obtain ⟨y0, y1⟩ := hlanes k hk v hv1 hv2 lv y hlv hy
  have hvI : (v : Int) ≤ d.N_p2_1 := by
    have : v ≤ d.N_p2_1 := by omega
    exact_mod_cast this
  have hv1I : (1 : Int) ≤ v := by exact_mod_cast hv1
  have hp : (0 : Int) < 2 ^ (d.wB - 1) := by positivity
  have h1 : toB d.wB ((v : Int) - 1) = (v : Int) - 1 :=
    toB_of_fitsB d.wB _ hw ⟨by omega, by omega⟩
  rw [hc', h1, toB_of_fitsB d.wB _ hw ⟨by omega, by omega⟩]
  omega

/-- The part `if (discrepancy[u] == -1)` of an iteration returns without leaving an array;
it leaves `l[u+1] = l[u]` in the lanes of `m_disc` and writes no other entry of `l`,
`u_lu`, `discrepancy` and `s`. -/
theorem discPart_total (d : Decoder) (m : Nat) (ha : Accepted d m) (u : Nat) (m_disc : Msk)
    (st : Scratch) (hst : Sized d st) (hu : u + 1 < d.N_p2_1 + 2) (hm : m_disc.length = d.W)
    (hb : ∀ (lu : Reg) (k : Nat) (x : Int), rd st.l u = some lu → m_disc[k]? = some true →
        lu[k]? = some x → x ≤ (d.N_p2_1 : Int) - 1) :
    ∃ sa, (if testz m_disc = true then some st else discBranch d u m_disc st) = some sa ∧
      Sized d sa ∧ sa.u_lu = st.u_lu ∧ sa.discrepancy = st.discrepancy ∧ sa.s = st.s ∧
      (∀ v, v ≠ u + 1 → rd sa.l v = rd st.l v) ∧
      (∀ (k : Nat), m_disc[k]? = some true → ∀ (lu : Reg) (a : Int), rd st.l u = some lu →
        lu[k]? = some a → ∀ (lu1 : Reg) (b : Int), rd sa.l (u + 1) = some lu1 →
        lu1[k]? = some b → b = a) ∧
      (∀ (k : Nat), m_disc[k]? = some false → ∀ (lu1 : Reg) (b : Int),
        rd st.l (u + 1) = some lu1 → lu1[k]? = some b → ∀ (lu1' : Reg) (b' : Int),
        rd sa.l (u + 1) = some lu1' → lu1'[k]? = some b' → b' = b) := by
  by_cases htz : testz m_disc = true
  · rw [if_pos htz]
    refine ⟨st, rfl, hst, rfl, rfl, rfl, fun _ _ => rfl, ?_, ?_⟩
    · intro k hk
      exact absurd hk (fun h => lane_of_testz m_disc htz k h)
    · intro k _ lu1 b h1 h2 lu1' b' h3 h4
      rw [h1] at h3
      cases Option.some.inj h3
      rw [h2] at h4
      exact (Option.some.inj h4).symm
  · rw [if_neg htz]
    obtain ⟨sa, hsa, hsz⟩ := discBranch_total d m ha u m_disc st hu hm hst hb
    obtain ⟨⟨lu, lu1, hlu, hlu1, hlt, hl⟩, h2, h3, h4⟩ := discBranch_frame d u m_disc st sa hsa
    have hnew : rd sa.l (u + 1) = some (blend lu lu1 m_disc) := by
      rw [hl]
      exact rd_set_eq _ _ _ hlt
    refine ⟨sa, hsa, hsz, h2, h3, h4, fun v hv => ?_, ?_, ?_⟩
    · rw [hl]
      exact rd_set_ne _ _ _ _ (Ne.symm hv)
    · intro k hk lu' a hlu' ha' lu1' b hlu1' hb'
      rw [hlu] at hlu'
      cases Option.some.inj hlu'
      rw [hnew] at hlu1'
      cases Option.some.inj hlu1'
      obtain ⟨x, y, c, hx, _, hc, rfl⟩ := (blend_lane _ _ _ k b).mp hb'
      rw [hk] at hc
      cases Option.some.inj hc
      rw [ha'] at hx
      cases Option.some.inj hx
      rfl
    · intro k hk lu1' b hlu1' hb' lu1'' b' hlu1'' hb''
      rw [hlu1] at hlu1'
      cases Option.some.inj hlu1'
      rw [hnew] at hlu1''
      cases Option.some.inj hlu1''
      obtain ⟨x, y, c, _, hy, hc, rfl⟩ := (blend_lane _ _ _ k b').mp hb''
      rw [hk] at hc
      cases Option.some.inj hc
      rw [hb'] at hy
      cases Option.some.inj hy
      rfl

/-- The part `if (discrepancy[u] != -1)` of an iteration `1 <= u <= 2t` returns without
leaving an array; it leaves `l[u+1] = u` in the lanes of `m_not_disc`, where the reference
is the iteration 0, and writes no other entry of `l`, `u_lu`, `discrepancy` and `s`. -/
theorem notDiscPart_total (d : Decoder) (m : Nat) (ha : Accepted d m) (junk : Reg) (u : Nat)
    (m_not_disc : Msk) (st : Scratch) (hst : Sized d st) (hu1 : 1 ≤ u) (hu2 : u ≤ d.t2)
    (hm : m_not_disc.length = d.W) (hj : junk.length = d.W)
    (hl0 : rd st.l 0 = some (r_zero d)) (hd0 : rd st.discrepancy 0 = some (r_zero d))
    (hu0 : rd st.u_lu 0 = some (r_mone d))
    (hpos : ∀ (k : Nat), m_not_disc[k]? = some true → ∀ v, 1 ≤ v → v ≤ u - 1 →
      ∀ (uv : Reg) (x : Int), rd st.u_lu v = some uv → uv[k]? = some x → 0 ≤ x)
    (hlu : ∀ (lu : Reg) (k : Nat) (x : Int), rd st.l u = some lu →
      m_not_disc[k]? = some true → lu[k]? = some x → x ≤ (u : Int) - 1) :
    ∃ sb, (if testz m_not_disc = true then some st
        else notDiscBranch d junk u m_not_disc st) = some sb ∧
      Sized d sb ∧ sb.u_lu = st.u_lu ∧ sb.discrepancy = st.discrepancy ∧ sb.s = st.s ∧
      (∀ v, v ≠ u + 1 → rd sb.l v = rd st.l v) ∧
      (∀ (k : Nat), m_not_disc[k]? = some true → ∀ (lu1 : Reg) (b : Int),
        rd sb.l (u + 1) = some lu1 → lu1[k]? = some b → b = u) ∧
      (∀ (k : Nat), m_not_disc[k]? = some false → ∀ (lu1 : Reg) (b : Int),
        rd st.l (u + 1) = some lu1 → lu1[k]? = some b → ∀ (lu1' : Reg) (b' : Int),
        rd sb.l (u + 1) = some lu1' → lu1'[k]? = some b' → b' = b) := by
  obtain ⟨hw, hN, hle, ht2, _, hNlt⟩ := accepted_bounds d m ha
  by_cases htz : testz m_not_disc = true
  · rw [if_pos htz]
    refine ⟨st, rfl, hst, rfl, rfl, rfl, fun _ _ => rfl, ?_, ?_⟩
    · intro k hk
      exact absurd hk (fun h => lane_of_testz m_not_disc htz k h)
    · intro k _ lu1 b h1 h2 lu1' b' h3 h4
      rw [h1] at h3
      cases Option.some.inj h3
      rw [h2] at h4
      exact (Option.some.inj h4).symm
  · rw [if_neg htz]
    have huI : (u : Int) < d.N_p2_1 := by
      have : u < d.N_p2_1 := by omega
      exact_mod_cast this
    obtain ⟨sb, hsb, hsz⟩ := notDiscBranch_total d m ha junk u m_not_disc st hst hu1 hu2 hm hj
      hl0 hd0 hu0 hpos (fun lu k x h1 h2 h3 => by
        have := hlu lu k x h1 h2 h3
        omega)
    obtain ⟨⟨ref, lu, lu1, href, hlu', hlu1, hlt, hl⟩, h2, h3, h4⟩ :=
      notDiscBranch_frame d junk u m_not_disc st sb hsb
    have hzero := searchQ_zero d hw junk (u - 1) m_not_disc st ref hst hm hj (by omega) href
      hl0 hd0 hu0 hpos
    have hnew : rd sb.l (u + 1) = some (blend (newDegree d u ref lu) lu1 m_not_disc) := by
      rw [hl]
      exact rd_set_eq _ _ _ hlt
    refine ⟨sb, hsb, hsz, h2, h3, h4, fun v hv => ?_, ?_, ?_⟩
    · rw [hl]
      exact rd_set_ne _ _ _ _ (Ne.symm hv)
    · intro k hk lu1' b hlu1' hb'
      rw [hnew] at hlu1'
      cases Option.some.inj hlu1'
      obtain ⟨x, y, c, hx, _, hc, rfl⟩ := (blend_lane _ _ _ k b).mp hb'
      rw [hk] at hc
      cases Option.some.inj hc
      have hkW : k < d.W := by rw [← hm]; exact lane_lt_of_some _ _ _ hk
      obtain ⟨a, ha'⟩ := lane_of_lt lu k (by
        rw [length_of_rd d _ st.l u lu hst.2.2.2.1 hlu']; exact hkW)
      have hau := hlu lu k a hlu' hk ha'
      rw [newDegree_lane d hw u (by omega) ref lu k a hkW (hzero k hk).1 (hzero k hk).2 ha'
        (by omega)] at hx
      simpa using (Option.some.inj hx).symm
    · intro k hk lu1' b hlu1' hb' lu1'' b' hlu1'' hb''
      rw [hlu1] at hlu1'
      cases Option.some.inj hlu1'
      rw [hnew] at hlu1''
      cases Option.some.inj hlu1''
      obtain ⟨x, y, c, _, hy, hc, rfl⟩ := (blend_lane _ _ _ k b').mp hb''
      rw [hk] at hc
      cases Option.some.inj hc
      rw [hb'] at hy
      cases Option.some.inj hy
      rfl

/-- The discrepancy of iteration `u + 1` is the only entry of `discrepancy` that
`formDiscrepancy` writes. -/
theorem formDiscrepancy_disc_frame (d : Decoder) (u : Nat) (m_process m_not_disc : Msk)
    (st st' : Scratch) (h : formDiscrepancy d u m_process m_not_disc st = some st') :
    ∀ k, k ≠ u + 1 → rd st'.discrepancy k = rd st.discrepancy k := by
  simp only [formDiscrepancy, Option.bind_eq_bind, Option.bind_eq_some] at h
  obtain ⟨su1, _, r_read, _, du1, _, dc1, hdc1, lu1, _, dc2, hdc2, cur, _, conv, _, dc3, hdc3,
    h⟩ := h
  simp only [Option.pure_def, Option.some.injEq] at h
  subst h
  intro k hk
  obtain ⟨_, rfl⟩ := wr_eq_some hdc1
  obtain ⟨_, rfl⟩ := wr_eq_some hdc3
  have h2 : ∀ k, k ≠ u + 1 → rd dc2 k = rd st.discrepancy k := by
    refine foldlM_inv _ (fun (dc : List Reg) => ∀ k, k ≠ u + 1 → rd dc k = rd st.discrepancy k)
      _ ?_ _ dc2 ?_ hdc2
    · intro dc i dc' _ hI hstep
      simp only [Option.bind_eq_some] at hstep
      obtain ⟨sv, _, e, _, hstep⟩ := hstep
      split at hstep
      · simp only [Option.pure_def, Option.some.injEq] at hstep
        subst hstep
        exact hI
      · simp only [Option.bind_eq_some] at hstep
        obtain ⟨_, _, _, _, _, _, hstep⟩ := hstep
        obtain ⟨_, rfl⟩ := wr_eq_some hstep
        intro k hk
        rw [rd_set_ne _ _ _ _ (Ne.symm hk)]
        exact hI k hk
    · intro k hk
      exact rd_set_ne _ _ _ _ (Ne.symm hk)
  show rd (dc2.set (u + 1) _) k = rd st.discrepancy k
  rw [rd_set_ne _ _ _ _ (Ne.symm hk)]
  exact h2 k hk

/-- One round of the solver loop, entered under the invariant after `n < 2t` rounds, returns
without leaving an array and keeps the invariant; in every lane active at its start
`0 <= l[u] <= l[u+1] <= u` holds after it, for `u = n + 1`. -/
theorem solverIter_step (d : Decoder) (m : Nat) (ha : Accepted d m) (junk : Reg) (n : Nat)
    (st : Scratch) (mp : Msk) (hinv : SolverInv d n st mp) (hn : n + 1 ≤ d.t2)
    (hj : junk.length = d.W) :
    ∃ (st' : Scratch) (m' : Msk), solverIter d junk (n + 1) mp st = some (st', m') ∧
      SolverInv d (n + 1) st' m' ∧
      ∀ (k : Nat), mp[k]? = some true → ∃ (lu lu1 : Reg) (a b : Int),
        rd st'.l (n + 1) = some lu ∧ lu[k]? = some a ∧ rd st'.l (n + 2) = some lu1 ∧
        lu1[k]? = some b ∧ 0 ≤ a ∧ a ≤ b ∧ b ≤ (n : Int) + 1 := by
  obtain ⟨hw, hN, hle, ht2, _, hNlt⟩ := accepted_bounds d m ha
  have hinv' := hinv
  obtain ⟨hst, hmp, hl0, hd0, hform, hlanes⟩ := hinv
  have hst' := hst
  obtain ⟨hY, help, hdisc, hl, hul, hs, hreg⟩ := hst
  obtain ⟨du, hdu, hdul⟩ := rd_regs d _ st.discrepancy (n + 1) hdisc (by omega)
  have hmone : (r_mone d).length = d.W := length_bcast _ _ _
  have hmd : (mand (req du (r_mone d)) mp).length = d.W := by
    unfold mand req
    exact length_zipWith_eq _ _ _ _ (length_zipWith_eq _ _ _ _ hdul hmone) hmp
  have hmn : (mand (rne du (r_mone d)) mp).length = d.W := by
    unfold mand rne
    exact length_zipWith_eq _ _ _ _ (length_zipWith_eq _ _ _ _ hdul hmone) hmp
  have hnI : (n : Int) + 1 ≤ (d.N_p2_1 : Int) - 1 := by
    have : n + 1 + 1 ≤ d.N_p2_1 := by omega
    have : ((n + 1 + 1 : Nat) : Int) ≤ (d.N_p2_1 : Int) := by exact_mod_cast this
    push_cast at this
    omega
  have hu0 : rd st.u_lu 0 = some (r_mone d) := by
    obtain ⟨lv, hlv, huv⟩ := hform 0 (by omega)
    rw [hl0] at hlv
    cases Option.some.inj hlv
    rw [huv, rsub_mone_zero]
  -- the undefined branch
  obtain ⟨sa, hsa, hsaz, hsau, hsad, hsas, hsal, hsa1, hsa2⟩ :=
    discPart_total d m ha (n + 1) (mand (req du (r_mone d)) mp) st hst' (by omega) hmd
      (fun lu k x h1 h2 h3 => by
        have := (hlanes k (mand_lane _ _ k h2).2 (n + 1) (by omega) (le_refl _) lu x h1 h3).2
        push_cast at this
        omega)
  -- the defined branch
  obtain ⟨sb, hsb, hsbz, hsbu, hsbd, hsbs, hsbl, hsb1, hsb2⟩ :=
    notDiscPart_total d m ha junk (n + 1) (mand (rne du (r_mone d)) mp) sa hsaz (by omega) hn
      hmn hj (by rw [hsal 0 (by omega)]; exact hl0) (by rw [hsad]; exact hd0)
      (by rw [hsau]; exact hu0)
      (fun k hk v hv1 hv2 uv x huv hx => by
        rw [hsau] at huv
        exact solverInv_u_lu_nonneg d m ha n st mp hinv' hn k (mand_lane _ _ k hk).2 v hv1
          (by omega) uv x huv hx)
      (fun lu k x h1 h2 h3 => by
        rw [hsal (n + 1) (by omega)] at h1
        have := (hlanes k (mand_lane _ _ k h2).2 (n + 1) (by omega) (le_refl _) lu x h1 h3).2
        push_cast at this
        omega)
  obtain ⟨hbY, hbelp, hbdisc, hbl, hbul, hbs, hbreg⟩ := hsbz
  obtain ⟨lu1, hlu1, hlu1l⟩ := rd_regs d _ sb.l (n + 1 + 1) hbl (by omega)
  obtain ⟨ul, hul', hulr⟩ := wr_regs d _ sb.u_lu (n + 1 + 1)
    (rsub d.wB (d.cst ((n + 1 : Nat) : Int)) lu1) hbul (by omega) (by
      unfold rsub
      exact length_zipWith_eq _ _ _ _ (length_bcast _ _ _) hlu1l)
  -- the degrees of an active lane
  have hdeg : ∀ (k : Nat), mp[k]? = some true → ∃ (lu : Reg) (a b : Int),
      rd st.l (n + 1) = some lu ∧ lu[k]? = some a ∧ lu1[k]? = some b ∧ 0 ≤ a ∧ a ≤ b ∧
        b ≤ (n : Int) + 1 ∧
        ((mand (rne du (r_mone d)) mp)[k]? = some true → b = ((n + 1 : Nat) : Int)) := by
    intro k hk
    have hkW : k < d.W := by rw [← hmp]; exact lane_lt_of_some _ _ _ hk
    obtain ⟨lu, hlu, hlul⟩ := rd_regs d _ st.l (n + 1) hl (by omega)
    obtain ⟨a, ha'⟩ := lane_of_lt lu k (by rw [hlul]; exact hkW)
    obtain ⟨b, hb⟩ := lane_of_lt lu1 k (by rw [hlu1l]; exact hkW)
    obtain ⟨x, hx⟩ := lane_of_lt du k (by rw [hdul]; exact hkW)
    obtain ⟨a0, a1⟩ := hlanes k hk (n + 1) (by omega) (le_refl _) lu a hlu ha'
    push_cast at a1
    have hmdk : (mand (req du (r_mone d)) mp)[k]? = some (decide (x = -1) && true) := by
      unfold mand req
      exact zipWith_lane_mk _ _ _ k _ _
        (zipWith_lane_mk _ _ _ k _ _ hx (r_mone_lane d hw k hkW)) hk
    have hmnk : (mand (rne du (r_mone d)) mp)[k]? = some (decide (x ≠ -1) && true) := by
      unfold mand rne
      exact zipWith_lane_mk _ _ _ k _ _
        (zipWith_lane_mk _ _ _ k _ _ hx (r_mone_lane d hw k hkW)) hk
    by_cases hx1 : x = -1
    · have h1 : (mand (req du (r_mone d)) mp)[k]? = some true := by rw [hmdk]; simp [hx1]
      have h2 : (mand (rne du (r_mone d)) mp)[k]? = some false := by rw [hmnk]; simp [hx1]
      obtain ⟨la, hla, hlal⟩ := rd_regs d _ sa.l (n + 1 + 1) hsaz.2.2.2.1 (by omega)
      obtain ⟨c, hc⟩ := lane_of_lt la k (by rw [hlal]; exact hkW)
      have e1 := hsa1 k h1 lu a hlu ha' la c hla hc
      have e2 := hsb2 k h2 la c hla hc lu1 b hlu1 hb
      refine ⟨lu, a, b, hlu, ha', hb, a0, by omega, by omega, ?_⟩
      intro h3
      rw [h2] at h3
      cases Option.some.inj h3
    · have h2 : (mand (rne du (r_mone d)) mp)[k]? = some true := by rw [hmnk]; simp [hx1]
      have e1 := hsb1 k h2 lu1 b hlu1 hb
      refine ⟨lu, a, b, hlu, ha', hb, a0, ?_, ?_, fun _ => e1⟩
      · rw [e1]; push_cast; omega
      · rw [e1]; push_cast; omega
  -- the next discrepancy
  have hsc : ∃ sc, (if n + 1 < d.t2 then
        formDiscrepancy d (n + 1) mp (mand (rne du (r_mone d)) mp) { sb with u_lu := ul }
      else some { sb with u_lu := ul }) = some sc ∧ Sized d sc ∧ sc.l = sb.l ∧ sc.u_lu = ul ∧
      rd sc.discrepancy 0 = rd sb.discrepancy 0 := by
    by_cases hlt : n + 1 < d.t2
    · rw [if_pos hlt]
      obtain ⟨sc, hsc, hscz⟩ := formDiscrepancy_total d m ha (n + 1) mp
        (mand (rne du (r_mone d)) mp) { sb with u_lu := ul }
        ⟨hbY, hbelp, hbdisc, hbl, hulr, hbs, hbreg⟩ hlt hmp (fun lu1' k x h1 h2 h3 => by
          have h1' : rd sb.l (n + 1 + 1) = some lu1' := h1
          rw [hlu1] at h1'
          cases Option.some.inj h1'
          obtain ⟨_, _, b, _, _, hb, _, _, hb2, _⟩ := hdeg k (mand_lane _ _ k h2).2
          rw [h3] at hb
          cases Option.some.inj hb
          omega)
      obtain ⟨f1, f2, _, _⟩ := formDiscrepancy_frame d (n + 1) _ _ _ sc hsc
      exact ⟨sc, hsc, hscz, f1, f2,
        formDiscrepancy_disc_frame d (n + 1) _ _ _ sc hsc 0 (by omega)⟩
    · rw [if_neg hlt]
      exact ⟨_, rfl, ⟨hbY, hbelp, hbdisc, hbl, hulr, hbs, hbreg⟩, rfl, rfl, rfl⟩
  obtain ⟨sc, hsc, hscz, hscl, hscu, hscd⟩ := hsc
  have hfin : solverIter d junk (n + 1) mp st =
      some (sc, mand mp (rle lu1 (d.cst d.t))) := by
    rw [solverIter_eq]
    simp only [hdu, Option.some_bind, hsa, hsb, hlu1, hul', hsc, hscl]
  obtain ⟨_, rfl⟩ := wr_eq_some hul'
  refine ⟨sc, mand mp (rle lu1 (d.cst d.t)), hfin, ⟨hscz, ?_, ?_, ?_, ?_, ?_⟩, ?_⟩
  · unfold mand rle
    exact length_zipWith_eq _ _ _ _ hmp (length_zipWith_eq _ _ _ _ hlu1l (length_bcast _ _ _))
  · rw [hscl, hsbl 0 (by omega), hsal 0 (by omega)]
    exact hl0
  · rw [hscd, hsbd, hsad]
    exact hd0
  · intro v hv
    by_cases hv' : v = n + 1 + 1
    · subst hv'
      refine ⟨lu1, by rw [hscl]; exact hlu1, ?_⟩
      rw [hscu, rd_set_eq _ _ _ (by rw [hbul.1]; omega)]
      congr 3
      push_cast
      ring
    · obtain ⟨lv, hlv, huv⟩ := hform v (by omega)
      refine ⟨lv, ?_, ?_⟩
      · rw [hscl, hsbl v hv', hsal v hv']
        exact hlv
      · rw [hscu, rd_set_ne _ _ _ _ (Ne.symm hv'), hsbu, hsau]
        exact huv
  · intro k hk v hv1 hv2 lv x hlv hx
    have hk' := (mand_lane _ _ k hk).1
    by_cases hv' : v = n + 1 + 1
    · subst hv'
      rw [hscl, hlu1] at hlv
      cases Option.some.inj hlv
      obtain ⟨_, a, b, _, _, hb, a0, hab, hb2, _⟩ := hdeg k hk'
      rw [hx] at hb
      cases Option.some.inj hb
      push_cast
      constructor <;> omega
    · rw [hscl, hsbl v hv', hsal v hv'] at hlv
      exact hlanes k hk' v hv1 (by omega) lv x hlv hx
  · intro k hk
    obtain ⟨lu, a, b, hlu, ha', hb, a0, hab, hb2, _⟩ := hdeg k hk
    refine ⟨lu, lu1, a, b, ?_, ha', by rw [hscl]; exact hlu1, hb, a0, hab, hb2⟩
    rw [hscl, hsbl (n + 1) (by omega), hsal (n + 1) (by omega)]
    exact hlu

/-- The invariant holds when the solver loop is entered: after the table entries are
initialised, with `m_process = syn_error` of `W` lanes. -/
theorem solverInv_init (d : Decoder) (m : Nat) (ha : Accepted d m) (st st' : Scratch)
    (syn : Msk) (hst : Sized d st) (hsyn : syn.length = d.W)
    (h : initTables d st = some st') : SolverInv d 0 st' syn := by
  obtain ⟨hw, hN, hle, ht2, _, hNlt⟩ := accepted_bounds d m ha
  obtain ⟨st'', h', hsz, _, hd0⟩ := initTables_total d m ha st hst
  rw [h] at h'
  cases Option.some.inj h'
  obtain ⟨l0, l1, u0, u1⟩ := initTables_l_u_lu d st st' h
  refine ⟨hsz, hsyn, l0, hd0, ?_, ?_⟩
  · intro v hv
    have hv' : v = 0 ∨ v = 1 := by omega
    rcases hv' with rfl | rfl
    · exact ⟨r_zero d, l0, by rw [u0, rsub_mone_zero]⟩
    · refine ⟨r_zero d, l1, ?_⟩
      rw [u1]
      have hc : ((1 : Nat) : Int) - 1 = 0 := by norm_num
      rw [hc]
      unfold r_zero Decoder.cst
      rw [rsub_bcast, toB_zero, sub_zero, toB_zero]
      simp [bcast, toB_zero]
  · intro k hk v hv1 hv2 lv x hlv hx
    have hv' : v = 1 := by omega
    subst hv'
    rw [l1] at hlv
    cases Option.some.inj hlv
    have := mem_r_zero d x (List.getElem?_mem hx)
    subst this
    simp

/-- The invariant holds after every round of the solver loop. -/
theorem rounds_inv (d : Decoder) (m : Nat) (ha : Accepted d m) (junk : Nat → Reg)
    (hj : ∀ u, (junk u).length = d.W) (p : Scratch × Msk) (h0 : SolverInv d 0 p.1 p.2) :
    ∀ (n : Nat) (q : Scratch × Msk), rounds d junk n p = some q → SolverInv d n q.1 q.2
  | 0, q, h => by
    simp only [rounds, Option.some.injEq] at h
    subst h
    exact h0
  | n + 1, q, h => by
    rw [rounds_succ] at h
    simp only [Option.bind_eq_some] at h
    obtain ⟨q0, hprev, h⟩ := h
    have hinv := rounds_inv d m ha junk hj p h0 n q0 hprev
    have ht : 1 ≤ d.t2 := by
      have := (accepted_bounds d m ha).2.2.2.2.1
      omega
    split at h
    · rename_i hc
      have hn : n + 1 ≤ d.t2 := by
        rcases hc with hc | ⟨hc, _⟩
        · omega
        · omega
      obtain ⟨st', m', hs, hinv', _⟩ := solverIter_step d m ha (junk (n + 1)) n q0.1 q0.2 hinv
        hn (hj _)
      rw [hs] at h
      cases Option.some.inj h
      exact hinv'
    · cases h

/-- The solver loop returns without leaving an array, after `u <= 2t` rounds, with the
invariant. -/
theorem solverLoop_total (d : Decoder) (m : Nat) (ha : Accepted d m) (junk : Nat → Reg)
    (hj : ∀ u, (junk u).length = d.W) (st0 : Scratch) (syn : Msk)
    (h0 : SolverInv d 0 st0 syn) :
    ∃ (u : Nat) (m' : Msk) (st' : Scratch),
      solverLoop d junk (d.t2 + 1) 0 syn st0 = some (u, m', st') ∧ 1 ≤ u ∧ u ≤ d.t2 ∧
      rounds d junk u (st0, syn) = some (st', m') ∧ SolverInv d u st' m' := by
  have ht : 2 ≤ d.t2 := (accepted_bounds d m ha).2.2.2.2.1
  have ht2 : max 1 d.t2 = d.t2 := max_eq_right (by omega)
  have hloop := solverLoop_rounds d junk (st0, syn) (d.t2 + 1) 0 st0 syn rfl (Or.inl rfl)
    (by rw [ht2]; omega)
  rw [ht2] at hloop
  cases hres : solverLoop d junk (d.t2 + 1) 0 syn st0 with
  | none =>
    exfalso
    obtain ⟨n, sv, mv, hn, hr, _, hnone⟩ := hloop.2 hres
    have hinv := rounds_inv d m ha junk hj (st0, syn) h0 n (sv, mv) hr
    obtain ⟨st', m', hs, _⟩ := solverIter_step d m ha (junk (n + 1)) n sv mv hinv (by omega)
      (hj _)
    rw [hs] at hnone
    cases hnone
  | some r =>
    obtain ⟨u, m', st'⟩ := r
    obtain ⟨h1, h2, h3, _⟩ := hloop.1 u m' st' hres
    exact ⟨u, m', st', rfl, h1, h2, h3, rounds_inv d m ha junk hj (st0, syn) h0 u (st', m') h3⟩

/-- The locator evaluation of one step returns without leaving `reg` when `l_max <= t`. -/
theorem chienEval_total (d : Decoder) (reg : List Reg) (lu : Reg) (l_max : Int) (i : Nat)
    (hreg : Regs d (d.t + 1) reg) (hlu : lu.length = d.W) (hl : l_max ≤ (d.t : Int)) :
    ∃ q, chienEval d reg lu l_max i = some q ∧ q.length = d.W := by
  unfold chienEval
  refine foldlM_total _ (fun (q : Reg) => q.length = d.W) _ ?_ _ (length_bcast _ _ _)
  intro q j hj hq
  obtain ⟨_, hj2⟩ := lt_of_mem_range'_toNat j l_max (d.t + 1) hj (by push_cast; omega)
  obtain ⟨rj, hrj, hrjl⟩ := rd_regs d _ reg j hreg hj2
  refine ⟨_, by simp only [hrj, Option.bind_eq_bind, Option.some_bind, Option.pure_def]; rfl, ?_⟩
  unfold rxor rge
  exact length_blend_eq _ _ _ _ (length_zipWith_eq _ _ _ _ hq hrjl) (length_bcast _ _ _)
    (length_zipWith_eq _ _ _ _ hlu (length_bcast _ _ _))

/-- The Chien search returns without leaving an array, at an index `u <= 2t + 1`; the
arrays keep their sizes. -/
theorem chien_total (d : Decoder) (m : Nat) (ha : Accepted d m) (u : Nat) (syn : Msk)
    (st : Scratch) (hst : Sized d st) (hu : u ≤ d.t2 + 1) (hsyn : syn.length = d.W) :
    ∃ (r : Scratch × Msk), chien d u syn st = some r ∧ Sized d r.1 ∧ r.2.length = d.W := by
  obtain ⟨hw, hN, hle, ht2, ht22, hNlt⟩ := accepted_bounds d m ha
  obtain ⟨hY, help, hdisc, hl, hul, hs, hreg⟩ := hst
  have hz : (r_zero d).length = d.W := length_bcast _ _ _
  have ho : (r_one d).length = d.W := length_bcast _ _ _
  have hcst : ∀ x : Int, (d.cst x).length = d.W := fun x => length_bcast _ _ _
  have htt : d.t < d.N_p2_1 := by
    unfold Decoder.t2 at ht2
    omega
  have htI : (d.t : Int) < (2 : Int) ^ (d.wB - 1) := by
    have : (d.t : Int) < d.N_p2_1 := by exact_mod_cast htt
    omega
  obtain ⟨lu, hlu, hlul⟩ := rd_regs d _ st.l u hl (by omega)
  have hmc : (rle lu (d.cst d.t)).length = d.W := by
    unfold rle
    exact length_zipWith_eq _ _ _ _ hlul (hcst _)
  have hlmax : hmax (blend lu (r_zero d) (rle lu (d.cst d.t))) ≤ (d.t : Int) := by
    refine hmax_le _ _ (by omega) (fun z hz' => ?_)
    obtain ⟨k, x, y, c, hx, hy, hc, rfl⟩ := mem_blend_lane _ _ _ _ hz'
    unfold rle at hc
    obtain ⟨x', y', hx', hy', hxy⟩ := (zipWith_lane _ _ _ k c).mp hc
    rw [hx] at hx'
    cases Option.some.inj hx'
    have hy'' := bcast_lane _ _ _ _ _ hy'
    rw [toB_nat d.wB d.t hw htI] at hy''
    subst hy''
    cases c
    · have hk : k < d.W := by rw [← hz]; exact lane_lt_of_some _ _ _ hy
      rw [r_zero_lane d k hk] at hy
      cases Option.some.inj hy
      simp only [Bool.false_eq_true, if_false]
      omega
    · simpa using hxy
  unfold chien
  simp only [hlu, Option.bind_eq_bind, Option.some_bind, Option.pure_def]
  split
  · exact ⟨(st, syn), rfl, ⟨hY, help, hdisc, hl, hul, hs, hreg⟩, hsyn⟩
  · refine bind_total _ _ (fun (rg : List Reg) => Regs d (d.t + 1) rg)
      (fun (r : Scratch × Msk) => Sized d r.1 ∧ r.2.length = d.W)
      (foldlM_total _ _ _ ?_ _ hreg) ?_
    · intro rg i hi hrg
      obtain ⟨hi1, hi2⟩ := lt_of_mem_range'_toNat i _ (d.t + 1) hi (by push_cast; omega)
      obtain ⟨e, he, hel⟩ := rd2_rows d _ _ st.elp u i help (by omega) (by omega)
      obtain ⟨io, hio, hiol⟩ := read_array_modq d m ha d.index_of ha.2.2.2.2.2.2.1
        (blend e (r_zero d) (rge lu (d.cst i))) (by
          unfold rge
          exact length_blend_eq _ _ _ _ hel hz (length_zipWith_eq _ _ _ _ hlul (hcst _)))
      obtain ⟨v, hv, hvl⟩ := read_array_modq d m ha d.alpha_to ha.2.2.2.2.2.1
        (radd d.wB io (d.cst i)) (by
          unfold radd
          exact length_zipWith_eq _ _ _ _ hiol (hcst _))
      obtain ⟨rg', hrg', hrg'r⟩ := wr_regs d _ rg i v hrg hi2 hvl
      exact ⟨rg', by simp only [he, hio, hv, hrg', Option.some_bind], hrg'r⟩
    intro reg hregr
    refine bind_total _ _ (fun (p : List Reg × Reg) => Regs d d.N p.1 ∧ p.2.length = d.W)
      (fun (r : Scratch × Msk) => Sized d r.1 ∧ r.2.length = d.W)
      (foldlM_total _ _ _ ?_ _ ⟨hY, hz⟩) ?_
    · intro p i hi ⟨hp1, hp2⟩
      obtain ⟨hi1, hi2⟩ := List.mem_range'_1.mp hi
      obtain ⟨q, hq, hql⟩ := chienEval_total d reg lu _ i hregr hlul hlmax
      have hflip : (mand (req q (r_zero d)) (rle lu (d.cst d.t))).length = d.W := by
        unfold mand req
        exact length_zipWith_eq _ _ _ _ (length_zipWith_eq _ _ _ _ hql hz) hmc
      obtain ⟨y, hy, hyl⟩ := rd_regs d _ p.1 (d.N_p2_1 - i) hp1 (by rw [ha.1]; omega)
      obtain ⟨Y', hY', hY'r⟩ := wr_regs d _ p.1 (d.N_p2_1 - i)
        (blend (rxor d.wB y (r_one d)) y (mand (req q (r_zero d)) (rle lu (d.cst d.t)))) hp1
        (by rw [ha.1]; omega) (by
          unfold rxor
          exact length_blend_eq _ _ _ _ (length_zipWith_eq _ _ _ _ hyl ho) hyl hflip)
      refine ⟨(Y', radd d.wB p.2 (blend (r_one d) (r_zero d)
        (mand (req q (r_zero d)) (rle lu (d.cst d.t))))), by
          simp only [hq, hy, hY', Option.some_bind], hY'r, ?_⟩
      unfold radd
      exact length_zipWith_eq _ _ _ _ hp2 (length_blend_eq _ _ _ _ ho hz hflip)
    intro p ⟨hp1, hp2⟩
    obtain ⟨Y, count⟩ := p
    refine ⟨_, rfl, ⟨hp1, help, hdisc, hl, hul, hs, hregr⟩, ?_⟩
    unfold mand rne
    exact length_zipWith_eq _ _ _ _ hsyn (length_zipWith_eq _ _ _ _ hp2 hlul)

/-- The inverse reorder returns on an array of `N` registers of `W` lanes. -/
theorem reorder_rev_total (d : Decoder) (Y : List Reg) (hY : Regs d d.N Y) :
    ∃ out, reorder_rev d.W d.N Y = some out := by
  unfold reorder_rev
  have h : (List.range d.W).mapM' (fun f => (List.range d.N).mapM' (fun j => do
      let r ← rd Y j
      rd r f)) = some ((List.range d.W).map (fun f => (List.range d.N).map
        (fun j => (Y.getD j []).getD f 0))) := by
    apply mapM'_eq_some_map
    intro f hf
    apply mapM'_eq_some_map
    intro j hj
    have hj' : j < Y.length := by rw [hY.1]; exact List.mem_range.mp hj
    have hf' : f < Y[j].length := by
      rw [hY.2 _ (List.getElem_mem hj')]
      exact List.mem_range.mp hf
    simp [rd_of_lt Y j hj', rd_of_lt Y[j] f hf', List.getD_eq_getElem?_getD,
      List.getElem?_eq_getElem hj', List.getElem?_eq_getElem hf']
  exact ⟨_, by rw [h]; rfl⟩

/-- The forward reorder of a buffer of `W` frames gives `N` registers of `W` lanes. -/
theorem reorder_total (d : Decoder) (Y_N : List Int) (h : Y_N.length = d.W * d.N) :
    ∃ Y, reorder d.W d.N Y_N = some Y ∧ Regs d d.N Y := by
  refine ⟨_, reorder_eq d.W d.N Y_N h, by simp, ?_⟩
  intro r hr
  obtain ⟨j, _, rfl⟩ := List.mem_map.mp hr
  simp

/-- The part of `_decode` up to the syndromes returns without leaving an array. -/
theorem entry_total (d : Decoder) (m : Nat) (ha : Accepted d m) (st : Scratch)
    (Y_N : List Int) (hst : Sized d st) (hY : Y_N.length = d.W * d.N) :
    ∃ (Y s : List Reg) (syn : Msk), reorder d.W d.N Y_N = some Y ∧
      formSyndromes d { st with Y_N_reorderered := Y } = some (s, syn) ∧
      Sized d { { st with Y_N_reorderered := Y } with s := s } ∧ syn.length = d.W := by
  obtain ⟨Y, hre, hYr⟩ := reorder_total d Y_N hY
  obtain ⟨_, help, hdisc, hl, hul, hs, hreg⟩ := hst
  obtain ⟨s, syn, hfs, hsr, hsyn⟩ := formSyndromes_total d m ha { st with Y_N_reorderered := Y }
    hYr hs.1
  exact ⟨Y, s, syn, hre, hfs, ⟨hYr, help, hdisc, hl, hul, hsr, hreg⟩, hsyn⟩

/-- The state in which the solver loop is entered satisfies the invariant of the loop. -/
theorem enterSolver_inv (d : Decoder) (m : Nat) (ha : Accepted d m) (st : Scratch)
    (Y_N : List Int) (hst : Sized d st) (hY : Y_N.length = d.W * d.N) (p : Scratch × Msk)
    (h : enterSolver d st Y_N = some p) : SolverInv d 0 p.1 p.2 := by
  obtain ⟨Y, s, syn, hre, hfs, hsz, hsyn⟩ := entry_total d m ha st Y_N hst hY
  unfold enterSolver at h
  simp only [hre, hfs, Option.bind_eq_bind, Option.some_bind] at h
  split at h
  · cases h
  · simp only [Option.bind_eq_some, Option.pure_def, Option.some.injEq] at h
    obtain ⟨st', hinit, rfl⟩ := h
    exact solverInv_init d m ha _ st' syn hsz hsyn hinit

/-- The (15,5) code is a configuration of the kind of `Accepted`, with `m = 4`. -/
theorem bch15_accepted : Accepted bch15 4 := by
  unfold Accepted
  decide

/-- The arrays of the constructor have the sizes of `Sized`. -/
theorem allocate_sized : Sized bch15 (allocate bch15 0) := by
  unfold Sized Regs
  decide

/-! ## Loop control -/

/-- C21 (solver loop control). For a decoder with `t >= 1`, the solver loop entered with
the arrays `st0` and `m_process = syn` (the mask `syn_error`): (1) after `n` rounds the
lane-active predicate of a lane is its flag in `syn` AND `l[v+1] <= t` for every `v` in
`1..n`, so it starts equal to the flag; (2) a lane active after a round was active before
it; (3) a result of the loop is the state after `u` rounds with `1 <= u <= 2t`, where
`u = 2t` or no lane is active, and after every earlier round `v` some lane is active and
`v < 2t`; (4) the loop has no result only when one of its rounds has none, that is when an
index leaves its array; (5) the loop `while(!mipp::testz(m_lu))` does not depend on the
bound `N_p2_1 + 1` that the embedding puts on its rounds; (6) when the loop is entered by
`_decode`, for a configuration of the kind of `Accepted`, a batch of `W` frames and member
arrays of the sizes of the constructor, the loop returns. -/
theorem solver_loop_control (d : Decoder) (junk : Nat → Reg) (st0 : Scratch) (syn : Msk)
    (ht : 1 ≤ d.t) :
    (∀ (n : Nat) (q : Scratch × Msk), rounds d junk n (st0, syn) = some q →
      ∀ (k : Nat) (c : Bool), q.2[k]? = some c → ∃ b, syn[k]? = some b ∧
        (c = true ↔ (b = true ∧ ∀ v, 1 ≤ v → v ≤ n → ∃ (row : Reg) (x : Int),
          rd q.1.l (v + 1) = some row ∧ row[k]? = some x ∧ x ≤ toB d.wB d.t))) ∧
    (∀ (n : Nat) (q q' : Scratch × Msk), rounds d junk n (st0, syn) = some q →
      rounds d junk (n + 1) (st0, syn) = some q' →
      ∀ (k : Nat), q'.2[k]? = some true → q.2[k]? = some true) ∧
    (∀ (u : Nat) (m' : Msk) (st' : Scratch),
      solverLoop d junk (d.t2 + 1) 0 syn st0 = some (u, m', st') →
      1 ≤ u ∧ u ≤ d.t2 ∧ rounds d junk u (st0, syn) = some (st', m') ∧
        (u = d.t2 ∨ testz m' = true) ∧
        ∀ v, 1 ≤ v → v < u → ∃ qv, rounds d junk v (st0, syn) = some qv ∧
          v < d.t2 ∧ testz qv.2 = false) ∧
    (solverLoop d junk (d.t2 + 1) 0 syn st0 = none →
      ∃ (n : Nat) (sv : Scratch) (mv : Msk), n < d.t2 ∧
        rounds d junk n (st0, syn) = some (sv, mv) ∧ (n = 0 ∨ testz mv = false) ∧
        solverIter d (junk (n + 1)) (n + 1) mv sv = none) ∧
    (∀ (u : Nat) (m_disc : Msk) (F : Nat) (st : Scratch),
      (∀ row ∈ st.elp, row.length ≤ d.N_p2_1) → d.N_p2_1 + 1 ≤ F →
      whileLu d u m_disc F 0 st = whileLu d u m_disc (d.N_p2_1 + 1) 0 st) ∧
    (∀ (m : Nat) (st : Scratch) (Y_N : List Int), Accepted d m →
      (∀ u, (junk u).length = d.W) → Sized d st → Y_N.length = d.W * d.N →
      enterSolver d st Y_N = some (st0, syn) →
      ∃ (u : Nat) (m' : Msk) (st' : Scratch),
        solverLoop d junk (d.t2 + 1) 0 syn st0 = some (u, m', st')) := by
  have ht2 : max 1 d.t2 = d.t2 := by
    unfold Decoder.t2
    exact max_eq_right (by omega)
  have hloop := solverLoop_rounds d junk (st0, syn) (d.t2 + 1) 0 st0 syn rfl (Or.inl rfl)
    (by rw [ht2]; omega)
  rw [ht2] at hloop
  refine ⟨rounds_mask d junk (st0, syn), rounds_mask_mono d junk (st0, syn), ?_, ?_, ?_, ?_⟩
  · intro u m' st' h
    obtain ⟨h1, h2, h3, h4⟩ := hloop.1 u m' st' h
    refine ⟨h1, h2, h3, ?_, ?_⟩
    · by_cases hu : u = d.t2
      · exact Or.inl hu
      · right
        cases htz : testz m' with
        | true => rfl
        | false => exact absurd ⟨by omega, htz⟩ h4
    · intro v hv1 hv2
      obtain ⟨qv, hq, hc⟩ := rounds_prefix d junk (st0, syn) u (st', m') h3 v hv2
      rcases hc with hc | ⟨hc1, hc2⟩
      · omega
      · exact ⟨qv, hq, hc1, hc2⟩
  · intro h
    obtain ⟨n, sv, mv, h1, h2, h3, h4⟩ := hloop.2 h
    refine ⟨n, sv, mv, h1, h2, ?_, h4⟩
    rcases h3 with h3 | ⟨_, h3⟩
    · exact Or.inl h3
    · exact Or.inr h3
  · intro u m_disc F st hrows hF
    obtain ⟨e, rfl⟩ : ∃ e, F = d.N_p2_1 + 1 + e := ⟨F - (d.N_p2_1 + 1), by omega⟩
    clear hF
    induction e with
    | zero => rfl
    | succ e ih =>
      rw [← ih]
      exact whileLu_fuel d u m_disc (d.N_p2_1 + 1 + e) 0 st hrows (by omega) (by omega)
  · intro m st Y_N ha hj hst hY he
    obtain ⟨u, m', st', h, _⟩ := solverLoop_total d m ha junk hj st0 syn
      (enterSolver_inv d m ha st Y_N hst hY (st0, syn) he)
    exact ⟨u, m', st', h⟩

/-- The theorem `solver_loop_control` at the (15,5) decoder, on a frame with one flipped bit
next to a codeword: the loop returns, after at most `2t = 6` rounds. -/
theorem solver_loop_control_witness :
    ∃ (st0 : Scratch) (syn : Msk) (u : Nat) (m' : Msk) (st' : Scratch),
      enterSolver bch15 (allocate bch15 0) (flip cw [0] ++ cw) = some (st0, syn) ∧
      solverLoop bch15 junk0 (bch15.t2 + 1) 0 syn st0 = some (u, m', st') ∧
      1 ≤ u ∧ u ≤ bch15.t2 ∧ rounds bch15 junk0 u (st0, syn) = some (st', m') ∧
        (u = bch15.t2 ∨ testz m' = true) ∧
        ∀ v, 1 ≤ v → v < u → ∃ qv, rounds bch15 junk0 v (st0, syn) = some qv ∧
          v < bch15.t2 ∧ testz qv.2 = false := by
  have hs : ((enterSolver bch15 (allocate bch15 0) (flip cw [0] ++ cw)).bind (fun p =>
      (solverLoop bch15 junk0 (bch15.t2 + 1) 0 p.2 p.1).map (fun r => (p, r)))).isSome
        = true := by decide
  obtain ⟨x, hp⟩ := Option.isSome_iff_exists.mp hs
  simp only [Option.bind_eq_some, Option.map_eq_some'] at hp
  obtain ⟨⟨a, b⟩, he, ⟨u1, m1, s1⟩, hl, _⟩ := hp
  exact ⟨a, b, u1, m1, s1, he, hl,
    (solver_loop_control bch15 junk0 a b (by decide)).2.2.1 u1 m1 s1 hl⟩

/-! ## The degree invariant -/

/-- C23: in a call of `_decode` on any batch, when round `n` of the solver loop has been
reached and the loop goes on, iteration `u = n + 1` returns, every lane active in it has
`0 <= l[u] <= l[u+1] <= u`, and every lane still active after it has `l[u+1] <= t`. -/
theorem degree_invariant (d : Decoder) (m : Nat) (ha : Accepted d m) (junk : Nat → Reg)
    (hj : ∀ u, (junk u).length = d.W) (st : Scratch) (Y_N : List Int) (hst : Sized d st)
    (hY : Y_N.length = d.W * d.N) (n : Nat) (p : Scratch × Msk)
    (hp : afterRounds d junk st Y_N n = some p)
    (hc : n = 0 ∨ (n < d.t2 ∧ testz p.2 = false)) :
    ∃ q, afterRounds d junk st Y_N (n + 1) = some q ∧
      ∀ (k : Nat),
        (p.2[k]? = some true → ∃ (lu lu1 : Reg) (a b : Int),
          rd q.1.l (n + 1) = some lu ∧ lu[k]? = some a ∧ rd q.1.l (n + 2) = some lu1 ∧
          lu1[k]? = some b ∧ 0 ≤ a ∧ a ≤ b ∧ b ≤ (n : Int) + 1) ∧
        (q.2[k]? = some true → ∃ (lu1 : Reg) (b : Int),
          rd q.1.l (n + 2) = some lu1 ∧ lu1[k]? = some b ∧ b ≤ (d.t : Int)) := by
  obtain ⟨hw, hN, hle, ht2, ht22, hNlt⟩ := accepted_bounds d m ha
  unfold afterRounds at hp ⊢
  simp only [Option.bind_eq_bind, Option.bind_eq_some] at hp
  obtain ⟨p0, hent, hr⟩ := hp
  have h0 := enterSolver_inv d m ha st Y_N hst hY p0 hent
  have hinv := rounds_inv d m ha junk hj p0 h0 n p hr
  obtain ⟨st', m', hstep, _, hdeg⟩ := solverIter_step d m ha (junk (n + 1)) n p.1 p.2 hinv
    (by omega) (hj _)
  have hc' : n = 0 ∨ (n < d.t2 ∧ ¬ testz p.2 = true) := by
    rcases hc with h | ⟨h1, h2⟩
    · exact Or.inl h
    · exact Or.inr ⟨h1, by rw [h2]; exact Bool.false_ne_true⟩
  refine ⟨(st', m'), ?_, fun k => ⟨hdeg k, fun hk => ?_⟩⟩
  · simp only [hent, Option.bind_eq_bind, Option.some_bind, rounds_succ, hr]
    rw [if_pos hc']
    exact hstep
  · obtain ⟨lu1, hl1, hm'⟩ := solverIter_mask d _ (n + 1) p.2 m' p.1 st' hstep
    have hk' : m'[k]? = some true := hk
    rw [hm'] at hk'
    unfold mand rle at hk'
    obtain ⟨c0, y, _, hy, hcy⟩ := (zipWith_lane _ _ _ k true).mp hk'
    obtain ⟨x, tt, hx, htt, rfl⟩ := (zipWith_lane _ _ _ k y).mp hy
    have htt' := bcast_lane _ _ _ _ _ htt
    have htI : (d.t : Int) < (2 : Int) ^ (d.wB - 1) := by
      have : (d.t2 : Int) < d.N_p2_1 := by exact_mod_cast ht2
      unfold Decoder.t2 at this
      push_cast at this
      omega
    rw [toB_nat d.wB d.t hw htI] at htt'
    subst htt'
    refine ⟨lu1, x, hl1, hx, ?_⟩
    have : decide (x ≤ (d.t : Int)) = true := by
      cases c0 <;> simp_all
    exact of_decide_eq_true this

/-- The theorem `degree_invariant` at the (15,5) decoder for iteration `u = 2`, on a frame
with one flipped bit next to a codeword: some lane is active after the first round. -/
theorem degree_invariant_witness :
    ∃ p, afterRounds bch15 junk0 (allocate bch15 0) (flip cw [0] ++ cw) 1 = some p ∧
      testz p.2 = false ∧
      ∃ q, afterRounds bch15 junk0 (allocate bch15 0) (flip cw [0] ++ cw) 2 = some q ∧
      ∀ (k : Nat),
        (p.2[k]? = some true → ∃ (lu lu1 : Reg) (a b : Int),
          rd q.1.l 2 = some lu ∧ lu[k]? = some a ∧ rd q.1.l 3 = some lu1 ∧
          lu1[k]? = some b ∧ 0 ≤ a ∧ a ≤ b ∧ b ≤ ((1 : Nat) : Int) + 1) ∧
        (q.2[k]? = some true → ∃ (lu1 : Reg) (b : Int),
          rd q.1.l 3 = some lu1 ∧ lu1[k]? = some b ∧ b ≤ (bch15.t : Int)) := by
  have hs : ((afterRounds bch15 junk0 (allocate bch15 0) (flip cw [0] ++ cw) 1).map
      (fun p => testz p.2)) = some false := by decide
  obtain ⟨p, hp, hz⟩ := Option.map_eq_some'.mp hs
  exact ⟨p, hp, hz, degree_invariant bch15 4 bch15_accepted junk0 (fun _ => rfl)
    (allocate bch15 0) (flip cw [0] ++ cw) allocate_sized (by decide) 1 p hp
    (Or.inr ⟨by decide, hz⟩)⟩

/-! ## Index safety -/

/-- C24 (index safety). For every configuration with `N = N_p2_1 = 2^m - 1`, `t >= 1`,
`2t <= N - K`, tables of length `2^m` with entries in `[0, 2^m - 1]` and `[-1, 2^m - 2]`
that are values of `B`, every batch of `W` frames, every content of the member arrays as
the constructor sizes them and every content of the register without initial value, a call
of `_decode` returns: no index of `s`, `elp`, `l`, `discrepancy`, `u_lu`, `reg`, `r_elp_q`,
of the target of `write_array`, of a table or of `Y_N_reorderered` leaves its array; and
the member arrays keep their sizes, so the same holds for the next call. -/
theorem decode_indices_in_bounds (d : Decoder) (m : Nat) (ha : Accepted d m) (junk : Nat → Reg)
    (hj : ∀ u, (junk u).length = d.W) (st : Scratch) (Y_N : List Int) (hst : Sized d st)
    (hY : Y_N.length = d.W * d.N) :
    ∃ o, _decode d junk st Y_N = some o ∧ Sized d o.scratch := by
  obtain ⟨Y, s, syn, hre, hfs, hsz, hsyn⟩ := entry_total d m ha st Y_N hst hY
  unfold _decode
  simp only [hre, hfs, Option.bind_eq_bind, Option.some_bind]
  by_cases hz : testz syn = true
  · obtain ⟨out, hout⟩ := reorder_rev_total d Y hsz.1
    simp only [hz, if_true, Option.pure_def, Option.some_bind, hout]
    exact ⟨_, rfl, hsz⟩
  · obtain ⟨st2, hinit, hsz2, _, _⟩ := initTables_total d m ha _ hsz
    have hinv := solverInv_init d m ha _ st2 syn hsz hsyn hinit
    obtain ⟨u, m', st3, hloop, _, hu, _, hinv3⟩ := solverLoop_total d m ha junk hj st2 syn hinv
    obtain ⟨⟨st4, syn4⟩, hch, hsz4, _⟩ := chien_total d m ha (u + 1) syn st3 hinv3.1
      (by omega) hsyn
    obtain ⟨out, hout⟩ := reorder_rev_total d st4.Y_N_reorderered hsz4.1
    simp only [hz, if_false, hinit, hloop, hch, hout, Option.pure_def, Option.some_bind,
      Bool.false_eq_true]
    exact ⟨_, rfl, hsz4⟩

/-- The theorem `decode_indices_in_bounds` at the (15,5) decoder, on a frame with one flipped
bit next to a codeword, from the arrays of the constructor filled with zeros. -/
theorem decode_indices_in_bounds_witness :
    Accepted bch15 4 ∧ Sized bch15 (allocate bch15 0) ∧
    ∃ o, _decode bch15 junk0 (allocate bch15 0) (flip cw [0] ++ cw) = some o ∧
      Sized bch15 o.scratch :=
  ⟨bch15_accepted, allocate_sized,
    decode_indices_in_bounds bch15 4 bch15_accepted junk0 (fun _ => rfl) (allocate bch15 0)
      (flip cw [0] ++ cw) allocate_sized (by decide)⟩

/-! ## The correction term of the new locator polynomial -/

/-- Values with the same residue modulo `2^w` have the same bit pattern. -/
theorem bits_congr (w : Nat) (a b : Int) (h : a % (2 : Int) ^ w = b % (2 : Int) ^ w) :
    bits w a = bits w b := by
  have hn : ((2 ^ w : Nat) : Int) = (2 : Int) ^ w := by push_cast; rfl
  unfold bits
  rw [hn, h]

/-- Values with the same residue modulo `2^w` convert to the same value of `B`. -/
theorem toB_congr (w : Nat) (a b : Int) (h : a % (2 : Int) ^ w = b % (2 : Int) ^ w) :
    toB w a = toB w b := by
  unfold toB
  rw [bits_congr w a b h]

end BCHFast
